import Mathlib

/-!
# Buddy allocator (`buddy.c`): shallow embedding and verified properties

The allocator manages a 1 MiB arena `g_memory` cut into 256 pages of 4 KiB.
The embedding keeps the names of the C source.

Modelling conventions

* An address is represented by its byte offset from `g_memory`; the `NULL`
  result of `buddy_alloc` is `none`.
* `g_pages` is a function from the page index to the descriptor. The C table
  has `n_pages = 256` slots; the slots at larger indices are not part of the
  table and `buddy_init` leaves them as it finds them.
* The intrusive circular lists of `list.h` are represented by the sequence of
  the page indices of their members, first member first. `free_area k` is the
  sequence hanging off the list head `free_area[k]`.
* The `int` fields `id`, `order`, `used` never become negative and are natural
  numbers; the `int size` argument of `buddy_alloc` is an integer.
-/

namespace Buddy

/-! ## Constants and macros -/

def MIN_ORDER : Nat := 12

def MAX_ORDER : Nat := 20

/-- The macro `#define PAGE_SIZE (1<<MIN_ORDER)`. -/
def PAGE_SIZE : Nat := 1 <<< MIN_ORDER

/-- The local `int n_pages = (1<<MAX_ORDER) / PAGE_SIZE;` of `buddy_init`. -/
def n_pages : Nat := (1 <<< MAX_ORDER) / PAGE_SIZE

/-- The macro `PAGE_TO_ADDR(page_idx)`, as an offset from `g_memory`. -/
def PAGE_TO_ADDR (page_idx : Nat) : Nat := page_idx * PAGE_SIZE

/-- The macro `ADDR_TO_PAGE(addr)`, on an offset from `g_memory`. -/
def ADDR_TO_PAGE (addr : Nat) : Nat := addr / PAGE_SIZE

/-- The macro `BUDDY_ADDR(addr, o)`: flip bit `o` of the offset from `g_memory`. -/
def BUDDY_ADDR (addr o : Nat) : Nat := addr ^^^ (1 <<< o)

/-! ## Data model -/

/-- The fields of `page_t` other than the embedded list node. -/
structure page_t where
  id : Nat
  address : Nat
  order : Nat
  used : Nat
deriving DecidableEq, Repr

/-- The global state: the descriptor table and the free lists. -/
structure State where
  g_pages : Nat → page_t
  free_area : Nat → List Nat

/-- Assignment `g_pages[i].order = v`. -/
def set_order (g : Nat → page_t) (i v : Nat) : Nat → page_t :=
  fun j => if j = i then { g j with order := v } else g j

/-- Assignment `g_pages[i].used = v`. -/
def set_used (g : Nat → page_t) (i v : Nat) : Nat → page_t :=
  fun j => if j = i then { g j with used := v } else g j

/-- Replace the sequence of list `k`. -/
def set_list (fa : Nat → List Nat) (k : Nat) (l : List Nat) : Nat → List Nat :=
  fun j => if j = k then l else fa j

/-! ## The list library

`list.h` is the usual circular doubly linked list library. Its operations are
modelled on the member sequences. -/

/-- Modelled from the spec: `list_empty(&free_area[k])` of `list.h`, which is
not among the sources: the list has no member. -/
def list_empty (l : List Nat) : Bool := l.isEmpty

/-- Modelled from the spec: `list_add(new, head)` of `list.h`, which is not
among the sources: `new` becomes the first member of the list of `head`. -/
def list_add (new : Nat) (fa : Nat → List Nat) (k : Nat) : Nat → List Nat :=
  set_list fa k (new :: fa k)

/-- Modelled from the spec: `list_del_init(entry)` of `list.h`, which is not
among the sources: the node is unlinked from the list that holds it (a
detached node stays detached). -/
def list_del_init (entry : Nat) (fa : Nat → List Nat) : Nat → List Nat :=
  fun j => (fa j).erase entry

/-- Modelled from the spec: `list_move(list, head)` of `list.h`, which is not
among the sources: unlink the node, then `list_add` it to `head`. -/
def list_move (node : Nat) (fa : Nat → List Nat) (k : Nat) : Nat → List Nat :=
  list_add node (list_del_init node fa) k

/-- The scan
`list_for_each(pos, &free_area[o]) { if (tmp->id < tmp2->id) break; }`
followed by `list_add(&tmp->list, pos->prev)`: `tmp` is linked in front of the
first member with a larger `id`, or last when there is none. -/
def insert_before (g : Nat → page_t) (tmp : Nat) : List Nat → List Nat
  | [] => [tmp]
  | pos :: rest =>
    if (g tmp).id < (g pos).id then tmp :: pos :: rest
    else pos :: insert_before g tmp rest

/-! ## `buddy_init` -/

/-- The function `buddy_init()`: every descriptor of the table is reset, every list is
emptied, page 0 is linked into `free_area[MAX_ORDER]`. -/
def buddy_init (s : State) : State :=
  { g_pages := fun i =>
      if i < n_pages then
        { id := i, address := PAGE_TO_ADDR i, order := MAX_ORDER, used := 0 }
      else s.g_pages i
    free_area := list_add 0 (fun _ => []) MAX_ORDER }

/-! ## `buddy_alloc` -/

/-- The loop `while((o < MAX_ORDER) && ((1 << o) < size)) o++;` The first argument
bounds the number of iterations; `MAX_ORDER - o` is never exceeded. -/
def order_loop : Nat → Nat → Int → Nat
  | 0, o, _ => o
  | fuel + 1, o, size =>
    if o < MAX_ORDER ∧ ((1 <<< o : Nat) : Int) < size then order_loop fuel (o + 1) size
    else o

/-- The target order of a request: `o` after the first loop of
`buddy_alloc`. -/
def target_order (size : Int) : Nat :=
  order_loop (MAX_ORDER - MIN_ORDER) MIN_ORDER size

/-- The loop `for(i = o; i < MAX_ORDER; i++) if(!list_empty(&free_area[i])) break;`
The first argument bounds the number of iterations by `MAX_ORDER - i`. -/
def scan_loop (fa : Nat → List Nat) : Nat → Nat → Nat
  | 0, i => i
  | fuel + 1, i =>
    if i < MAX_ORDER then
      if !list_empty (fa i) then i else scan_loop fa fuel (i + 1)
    else i

/-- One iteration of the splitting loop `while(i != o)` of `buddy_alloc`, at
the value of `i` on entry. The first member of `free_area[i]` is `tmp`; the
descriptor of its upper half is linked into `free_area[i-1]` and gets order
`i-1`, then `tmp` is moved in front of it. -/
def split_step (s : State) (i : Nat) : State :=
  match s.free_area i with
  | [] => s
  | tmp :: _ =>
    let i1 := i - 1
    let b := ADDR_TO_PAGE (BUDDY_ADDR (s.g_pages tmp).address i1)
    let fa1 := list_add b s.free_area i1
    let g1 := set_order s.g_pages b i1
    match fa1 (i1 + 1) with
    | [] => { g_pages := g1, free_area := fa1 }
    | first :: _ => { g_pages := g1, free_area := list_move first fa1 i1 }

/-- The loop `while(i != o) { ... i--; ... }` of `buddy_alloc`; returns the
state and the final `i`. The first argument bounds the number of
iterations. -/
def split_loop : Nat → State → Nat → Nat → State × Nat
  | 0, s, i, _ => (s, i)
  | fuel + 1, s, i, o =>
    if i ≠ o then split_loop fuel (split_step s i) (i - 1) o else (s, i)

/-- The last four statements of `buddy_alloc`: the first member of
`free_area[i]` gets order `i`, is marked used, is unlinked, and its address is
returned. -/
def take_first (s : State) (i : Nat) : State × Option Nat :=
  match s.free_area i with
  | [] => (s, none)
  | tmp :: _ =>
    let g1 := set_used (set_order s.g_pages tmp i) tmp 1
    ({ g_pages := g1, free_area := list_del_init tmp s.free_area },
      some (g1 tmp).address)

/-- The function `void *buddy_alloc(int size)`: the new state and the returned address
(`none` for `NULL`). -/
def buddy_alloc (s : State) (size : Int) : State × Option Nat :=
  if size > ((1 <<< MAX_ORDER : Nat) : Int) then (s, none)
  else
    let o := target_order size
    let i := scan_loop s.free_area (MAX_ORDER - o) o
    if i = MAX_ORDER ∧ list_empty (s.free_area i) then (s, none)
    else
      let r := split_loop (MAX_ORDER - MIN_ORDER) s i o
      take_first r.1 r.2

/-! ## `buddy_free` -/

/-- The insertion of `tmp` into the free list of its order, as written twice
in `buddy_free`: `list_add` to the head when the list is empty, otherwise
the scan for the first larger `id` and `list_add(&tmp->list, pos->prev)`. -/
def place (g : Nat → page_t) (fa : Nat → List Nat) (tmp : Nat) : Nat → List Nat :=
  let k := (g tmp).order
  if list_empty (fa k) then list_add tmp fa k
  else set_list fa k (insert_before g tmp (fa k))

/-- The expression `ADDR_TO_PAGE(BUDDY_ADDR(tmp->address, tmp->order))`. -/
def buddy_id (g : Nat → page_t) (tmp : Nat) : Nat :=
  ADDR_TO_PAGE (BUDDY_ADDR (g tmp).address (g tmp).order)

/-- The condition of the coalescing loop of `buddy_free`. -/
def merge_cond (s : State) (tmp buddyID : Nat) : Prop :=
  (s.g_pages tmp).order < MAX_ORDER ∧ (s.g_pages buddyID).used = 0 ∧
    (s.g_pages tmp).order = (s.g_pages buddyID).order

instance (s : State) (tmp buddyID : Nat) : Decidable (merge_cond s tmp buddyID) := by
  unfold merge_cond; infer_instance

/-- The re-insertion of the survivor `tmp` in the coalescing loop of
`buddy_free`: `list_move` to the head when the list of its new order is empty,
otherwise `list_del_init`, the scan for the first larger `id` and
`list_add(&tmp->list, pos->prev)`. -/
def move_sorted (g : Nat → page_t) (fa : Nat → List Nat) (tmp : Nat) : Nat → List Nat :=
  let k := (g tmp).order
  if list_empty (fa k) then list_move tmp fa k
  else
    let fa1 := list_del_init tmp fa
    set_list fa1 k (insert_before g tmp (fa1 k))

/-- The body of the coalescing loop of `buddy_free`, without the final update
of `buddyID`: returns the state and the new `tmp`. -/
def merge_step (s : State) (tmp buddyID : Nat) : State × Nat :=
  let r : State × Nat :=
    if buddyID ≥ (s.g_pages tmp).id then
      let g1 := set_order s.g_pages tmp ((s.g_pages tmp).order + 1)
      let g2 := set_order g1 buddyID MAX_ORDER
      ({ g_pages := g2, free_area := list_del_init buddyID s.free_area }, tmp)
    else
      let g1 := set_order s.g_pages buddyID ((s.g_pages tmp).order + 1)
      let g2 := set_order g1 tmp MAX_ORDER
      ({ g_pages := g2, free_area := list_del_init tmp s.free_area }, buddyID)
  ({ g_pages := r.1.g_pages, free_area := move_sorted r.1.g_pages r.1.free_area r.2 }, r.2)

/-- The coalescing loop of `buddy_free`. The first argument bounds the number
of iterations; every iteration raises the order of `tmp`, so `MAX_ORDER`
iterations are never exceeded. -/
def merge_loop : Nat → State → Nat → Nat → State
  | 0, s, _, _ => s
  | fuel + 1, s, tmp, buddyID =>
    if merge_cond s tmp buddyID then
      let r := merge_step s tmp buddyID
      merge_loop fuel r.1 r.2 (buddy_id r.1.g_pages r.2)
    else s

/-- The function `void buddy_free(void *addr)`. -/
def buddy_free (s : State) (addr : Nat) : State :=
  let tmp := ADDR_TO_PAGE addr
  let g1 := set_used s.g_pages tmp 0
  let s1 : State := { g_pages := g1, free_area := place g1 s.free_area tmp }
  merge_loop MAX_ORDER s1 tmp (buddy_id g1 tmp)

/-! ## `buddy_dump` -/

/-- The function `buddy_dump()`: for each order from `MIN_ORDER` to `MAX_ORDER` the pair
printed by `printf("%d:%dK ", cnt, (1<<o)/1024)`. -/
def buddy_dump (s : State) : List (Nat × Nat) :=
  (List.range (MAX_ORDER + 1 - MIN_ORDER)).map fun j =>
    ((s.free_area (MIN_ORDER + j)).length, (1 <<< (MIN_ORDER + j)) / 1024)

/-! ## Reachable states and the invariant -/

/-- States reachable from `buddy_init` by `buddy_alloc` calls and by
`buddy_free` calls on addresses handed out and not yet freed; the second
component lists those addresses. -/
inductive Reach : State → List Nat → Prop
  | init (s0 : State) : Reach (buddy_init s0) []
  | alloc_ok {s : State} {live : List Nat} (size : Int) (a : Nat) :
      Reach s live → (buddy_alloc s size).2 = some a →
      Reach (buddy_alloc s size).1 (a :: live)
  | alloc_fail {s : State} {live : List Nat} (size : Int) :
      Reach s live → (buddy_alloc s size).2 = none →
      Reach (buddy_alloc s size).1 live
  | free {s : State} {live : List Nat} (a : Nat) :
      Reach s live → a ∈ live → Reach (buddy_free s a) (live.erase a)

/-- Page `h` is a block head: member of a free list, or marked used. -/
def is_head (s : State) (h : Nat) : Prop :=
  (∃ k, h ∈ s.free_area k) ∨ (s.g_pages h).used = 1

/-- Number of pages of the block that descriptor `h` stands for. -/
def blk_pages (s : State) (h : Nat) : Nat := 2 ^ ((s.g_pages h).order - MIN_ORDER)

/-- The invariant of the descriptor table and of list membership. -/
structure Wf (s : State) : Prop where
  ids : ∀ i, i < n_pages → (s.g_pages i).id = i ∧ (s.g_pages i).address = i * PAGE_SIZE
  ord : ∀ i, i < n_pages → MIN_ORDER ≤ (s.g_pages i).order ∧ (s.g_pages i).order ≤ MAX_ORDER
  used01 : ∀ i, i < n_pages → (s.g_pages i).used = 0 ∨ (s.g_pages i).used = 1
  mem : ∀ k p, p ∈ s.free_area k → p < n_pages ∧ (s.g_pages p).used = 0 ∧ (s.g_pages p).order = k
  inactive : ∀ i, i < n_pages → (s.g_pages i).used = 0 → (s.g_pages i).order < MAX_ORDER →
    i ∈ s.free_area (s.g_pages i).order
  align : ∀ h, h < n_pages → is_head s h → 2 ^ ((s.g_pages h).order - MIN_ORDER) ∣ h
  cover : ∀ p, p < n_pages → ∃ h, h < n_pages ∧ is_head s h ∧ h ≤ p ∧ p < h + blk_pages s h
  disj : ∀ h1 h2, h1 < n_pages → h2 < n_pages → is_head s h1 → is_head s h2 → h1 < h2 →
    h1 + blk_pages s h1 ≤ h2

/-- State `t` is state `s` with the free block `h` of order `k+1` cut into
the two free blocks `h` and `b = h + 2^(k-MIN_ORDER)` of order `k`. -/
structure Split (s t : State) (h b k : Nat) : Prop where
  hk1 : MIN_ORDER ≤ k
  hk2 : k < MAX_ORDER
  hb : b = h + 2 ^ (k - MIN_ORDER)
  hdvd : 2 * 2 ^ (k - MIN_ORDER) ∣ h
  hlt : h + 2 * 2 ^ (k - MIN_ORDER) ≤ n_pages
  same_id : ∀ x, (t.g_pages x).id = (s.g_pages x).id
  same_addr : ∀ x, (t.g_pages x).address = (s.g_pages x).address
  same_used : ∀ x, (t.g_pages x).used = (s.g_pages x).used
  used_h : (s.g_pages h).used = 0
  used_b : (s.g_pages b).used = 0
  ord_other : ∀ x, x ≠ h → x ≠ b → (t.g_pages x).order = (s.g_pages x).order
  ord_h : (s.g_pages h).order = k + 1
  ord_b : (s.g_pages b).order = MAX_ORDER
  ord_h' : (t.g_pages h).order = k
  ord_b' : (t.g_pages b).order = k
  mem_other : ∀ j x, x ≠ h → x ≠ b → (x ∈ t.free_area j ↔ x ∈ s.free_area j)
  mem_h : ∀ j, h ∈ s.free_area j ↔ j = k + 1
  mem_b : ∀ j, b ∉ s.free_area j
  mem_h' : ∀ j, h ∈ t.free_area j ↔ j = k
  mem_b' : ∀ j, b ∈ t.free_area j ↔ j = k

/-- State `t` is state `s` with the used block `h` turned into a free block
of the same order. -/
structure Flip (s t : State) (h : Nat) : Prop where
  hN : h < n_pages
  same_id : ∀ x, (t.g_pages x).id = (s.g_pages x).id
  same_addr : ∀ x, (t.g_pages x).address = (s.g_pages x).address
  same_order : ∀ x, (t.g_pages x).order = (s.g_pages x).order
  used_other : ∀ x, x ≠ h → (t.g_pages x).used = (s.g_pages x).used
  used_h : (s.g_pages h).used = 1
  used_h' : (t.g_pages h).used = 0
  mem_other : ∀ j x, x ≠ h → (x ∈ t.free_area j ↔ x ∈ s.free_area j)
  mem_h : ∀ j, h ∉ s.free_area j
  mem_h' : ∀ j, h ∈ t.free_area j ↔ j = (s.g_pages h).order

/-- No two free blocks of one order are buddies of each other, the pairs with
member `x` apart. -/
def NoBuddyExcept (s : State) (x : Nat) : Prop :=
  ∀ k y, MIN_ORDER ≤ k → k < MAX_ORDER → 2 * 2 ^ (k - MIN_ORDER) ∣ y →
    y ∈ s.free_area k → y + 2 ^ (k - MIN_ORDER) ∈ s.free_area k →
    y = x ∨ y + 2 ^ (k - MIN_ORDER) = x

/-- No two free blocks of one order are buddies of each other. -/
def NoBuddy (s : State) : Prop :=
  ∀ k y, MIN_ORDER ≤ k → k < MAX_ORDER → 2 * 2 ^ (k - MIN_ORDER) ∣ y →
    y ∈ s.free_area k → y + 2 ^ (k - MIN_ORDER) ∈ s.free_area k → False

/-- Every free list is strictly ascending. -/
def Sorted (s : State) : Prop := ∀ k, (s.free_area k).Pairwise (· < ·)

/-- The state after one iteration of the coalescing loop that joins the free
buddies `h < b` of order `k`. -/
def merged (s : State) (h b k : Nat) : State :=
  { g_pages := set_order (set_order s.g_pages h (k + 1)) b MAX_ORDER
    free_area := place (set_order (set_order s.g_pages h (k + 1)) b MAX_ORDER)
      (list_del_init h (list_del_init b s.free_area)) h }

/-- The addresses handed out and not yet freed are those of the descriptors
marked used. -/
def Live (s : State) (live : List Nat) : Prop :=
  live.Nodup ∧ ∀ a, a ∈ live ↔ ∃ i, i < n_pages ∧ (s.g_pages i).used = 1 ∧ a = i * PAGE_SIZE

/-- The full invariant of the reachable states. -/
structure Inv (s : State) (live : List Nat) : Prop where
  wf : Wf s
  sorted : Sorted s
  nobuddy : NoBuddy s
  live : Live s live

/-- The state of `buddy_free` in front of its coalescing loop. -/
def freed (s : State) (tmp : Nat) : State :=
  { g_pages := set_used s.g_pages tmp 0
    free_area := place (set_used s.g_pages tmp 0) s.free_area tmp }

/-- State `s` read with order `i` in the descriptor `h`: inside the splitting
loop the block carried down is member of `free_area[i]` while its `order`
field still holds the order it was found with. -/
def adj (s : State) (h i : Nat) : State :=
  { g_pages := set_order s.g_pages h i, free_area := s.free_area }

/-- The globals at program start: static storage is zero, so every field is
zero and no list has a member. -/
def zero_state : State := { g_pages := fun _ => ⟨0, 0, 0, 0⟩, free_area := fun _ => [] }

/-- Sum of `2^order` over the descriptors that are members of a free list. -/
def free_bytes (s : State) : Nat :=
  Finset.sum (Finset.Icc MIN_ORDER MAX_ORDER) fun k =>
    ((s.free_area k).map fun p => 2 ^ (s.g_pages p).order).sum

/-- Sum of `2^order` over the descriptors of the table with `used = 1`. -/
def used_bytes (s : State) : Nat :=
  Finset.sum (Finset.range n_pages) fun i =>
    if (s.g_pages i).used = 1 then 2 ^ (s.g_pages i).order else 0

/-- The state after `buddy_init` and three calls `buddy_alloc(4096)`: the pages
0, 1, 2 are used, page 3 is free. -/
def three_pages_state : State :=
  (buddy_alloc (buddy_alloc (buddy_alloc (buddy_init zero_state) 4096).1 4096).1 4096).1

/-- The counting loop `list_for_each(pos, &free_area[o]) { cnt++; }` of
`buddy_dump`, from the current value of `cnt`. -/
def dump_count : List Nat → Nat → Nat
  | [], cnt => cnt
  | _ :: rest, cnt => dump_count rest (cnt + 1)

/-- The loop `for (o = MIN_ORDER; o <= MAX_ORDER; o++)` of `buddy_dump`, with
the state passed through and the pairs printed so far. The first argument
bounds the number of iterations by `MAX_ORDER + 1 - o`. -/
def dump_loop : Nat → Nat → State → List (Nat × Nat) → State × List (Nat × Nat)
  | 0, _, s, out => (s, out)
  | fuel + 1, o, s, out =>
    if o ≤ MAX_ORDER then
      dump_loop fuel (o + 1) s (out ++ [(dump_count (s.free_area o) 0, (1 <<< o) / 1024)])
    else (s, out)

/-- The function `buddy_dump()` as a state transformer: the state it leaves
and the pairs it prints. -/
def buddy_dump_run (s : State) : State × List (Nat × Nat) :=
  dump_loop (MAX_ORDER + 1 - MIN_ORDER) MIN_ORDER s []

/-- The iterations of the coalescing loop of `buddy_free`: the state, `tmp`
and `buddyID` at each entry into the loop body. The first argument bounds the
number of iterations as in `merge_loop`. -/
def merge_trace : Nat → State → Nat → Nat → List (State × Nat × Nat)
  | 0, _, _, _ => []
  | fuel + 1, s, tmp, buddyID =>
    if merge_cond s tmp buddyID then
      (s, tmp, buddyID) ::
        merge_trace fuel (merge_step s tmp buddyID).1 (merge_step s tmp buddyID).2
          (buddy_id (merge_step s tmp buddyID).1.g_pages (merge_step s tmp buddyID).2)
    else []

/-- The iterations of the coalescing loop in the call `buddy_free(addr)`. -/
def free_steps (s : State) (addr : Nat) : List (State × Nat × Nat) :=
  merge_trace MAX_ORDER (freed s (ADDR_TO_PAGE addr)) (ADDR_TO_PAGE addr)
    (buddy_id (freed s (ADDR_TO_PAGE addr)).g_pages (ADDR_TO_PAGE addr))

/-- The descriptor of an iteration `(s, tmp, buddyID)` of the coalescing loop
that does not survive the merge. -/
def step_loser (e : State × Nat × Nat) : Nat :=
  if (merge_step e.1 e.2.1 e.2.2).2 = e.2.1 then e.2.2 else e.2.1

/-- The `order` field of the descriptor that does not survive, after the
iteration. -/
def step_loser_order (e : State × Nat × Nat) : Nat :=
  ((merge_step e.1 e.2.1 e.2.2).1.g_pages (step_loser e)).order

/-- The subscripts of `free_area` evaluated by the scan
`for(i = o; i < MAX_ORDER; i++) if(!list_empty(&free_area[i])) break;`. -/
def scan_list_idx (fa : Nat → List Nat) : Nat → Nat → List Nat
  | 0, _ => []
  | fuel + 1, i =>
    if i < MAX_ORDER then
      i :: (if !list_empty (fa i) then [] else scan_list_idx fa fuel (i + 1))
    else []

/-- The subscripts of `free_area` evaluated by the splitting loop of
`buddy_alloc`: `free_area[i]` on entry, then, after `i--`, `free_area[i]`,
`free_area[i+1]`, `free_area[i]`. -/
def split_list_idx : Nat → Nat → Nat → List Nat
  | 0, _, _ => []
  | fuel + 1, i, o =>
    if i ≠ o then
      i :: (i - 1) :: (i - 1 + 1) :: (i - 1) :: split_list_idx fuel (i - 1) o
    else []

/-- The subscripts of `g_pages` evaluated by the splitting loop of
`buddy_alloc`: `ADDR_TO_PAGE(BUDDY_ADDR(tmp->address,i))`, twice in each
iteration. -/
def split_page_idx : Nat → State → Nat → Nat → List Nat
  | 0, _, _, _ => []
  | fuel + 1, s, i, o =>
    if i ≠ o then
      match s.free_area i with
      | [] => []
      | tmp :: _ =>
        ADDR_TO_PAGE (BUDDY_ADDR (s.g_pages tmp).address (i - 1)) ::
        ADDR_TO_PAGE (BUDDY_ADDR (s.g_pages tmp).address (i - 1)) ::
          split_page_idx fuel (split_step s i) (i - 1) o
    else []

/-- The subscripts of `free_area` evaluated by `buddy_alloc(size)`, in the
order of evaluation. -/
def alloc_list_idx (s : State) (size : Int) : List Nat :=
  if size > ((1 <<< MAX_ORDER : Nat) : Int) then []
  else
    let o := target_order size
    let i := scan_loop s.free_area (MAX_ORDER - o) o
    scan_list_idx s.free_area (MAX_ORDER - o) o ++ (if i = MAX_ORDER then [i] else []) ++
      (if i = MAX_ORDER ∧ list_empty (s.free_area i) then []
       else
        split_list_idx (MAX_ORDER - MIN_ORDER) i o ++
          [(split_loop (MAX_ORDER - MIN_ORDER) s i o).2,
           (split_loop (MAX_ORDER - MIN_ORDER) s i o).2])

/-- The subscripts of `g_pages` evaluated by `buddy_alloc(size)`. -/
def alloc_page_idx (s : State) (size : Int) : List Nat :=
  if size > ((1 <<< MAX_ORDER : Nat) : Int) then []
  else
    let o := target_order size
    let i := scan_loop s.free_area (MAX_ORDER - o) o
    if i = MAX_ORDER ∧ list_empty (s.free_area i) then []
    else split_page_idx (MAX_ORDER - MIN_ORDER) s i o

/-- The subscripts of `g_pages` evaluated by the condition of the coalescing
loop, `(tmp->order < MAX_ORDER) && (g_pages[buddyID].used == 0) &&
tmp->order == g_pages[buddyID].order`, with the short-circuit of `&&`. -/
def cond_page_idx (s : State) (tmp buddyID : Nat) : List Nat :=
  if (s.g_pages tmp).order < MAX_ORDER then
    (if (s.g_pages buddyID).used = 0 then [buddyID, buddyID] else [buddyID])
  else []

/-- The subscripts of `g_pages` evaluated by the coalescing loop of
`buddy_free`: those of the condition, and `g_pages[buddyID]` twice in the
body. -/
def merge_page_idx : Nat → State → Nat → Nat → List Nat
  | 0, s, tmp, buddyID => cond_page_idx s tmp buddyID
  | fuel + 1, s, tmp, buddyID =>
    cond_page_idx s tmp buddyID ++
      (if merge_cond s tmp buddyID then
        buddyID :: buddyID ::
          merge_page_idx fuel (merge_step s tmp buddyID).1 (merge_step s tmp buddyID).2
            (buddy_id (merge_step s tmp buddyID).1.g_pages (merge_step s tmp buddyID).2)
       else [])

/-- The subscripts of `free_area` evaluated by the coalescing loop of
`buddy_free`: `free_area[tmp->order]` in the re-insertion, at the new order
of the survivor. -/
def merge_list_idx : Nat → State → Nat → Nat → List Nat
  | 0, _, _, _ => []
  | fuel + 1, s, tmp, buddyID =>
    if merge_cond s tmp buddyID then
      ((merge_step s tmp buddyID).1.g_pages (merge_step s tmp buddyID).2).order ::
      ((merge_step s tmp buddyID).1.g_pages (merge_step s tmp buddyID).2).order ::
        merge_list_idx fuel (merge_step s tmp buddyID).1 (merge_step s tmp buddyID).2
          (buddy_id (merge_step s tmp buddyID).1.g_pages (merge_step s tmp buddyID).2)
    else []

/-- The subscripts of `g_pages` evaluated by `buddy_free(addr)`:
`ADDR_TO_PAGE(addr)`, then those of the coalescing loop. -/
def free_page_idx (s : State) (addr : Nat) : List Nat :=
  ADDR_TO_PAGE addr ::
    merge_page_idx MAX_ORDER (freed s (ADDR_TO_PAGE addr)) (ADDR_TO_PAGE addr)
      (buddy_id (freed s (ADDR_TO_PAGE addr)).g_pages (ADDR_TO_PAGE addr))

/-- The subscripts of `free_area` evaluated by `buddy_free(addr)`:
`tmp->order` in the first insertion, then those of the coalescing loop. -/
def free_list_idx (s : State) (addr : Nat) : List Nat :=
  (s.g_pages (ADDR_TO_PAGE addr)).order :: (s.g_pages (ADDR_TO_PAGE addr)).order ::
    merge_list_idx MAX_ORDER (freed s (ADDR_TO_PAGE addr)) (ADDR_TO_PAGE addr)
      (buddy_id (freed s (ADDR_TO_PAGE addr)).g_pages (ADDR_TO_PAGE addr))

/-! ## Properties -/

theorem pow_pos2 (j : Nat) : 0 < 2 ^ j := Nat.pos_pow_of_pos j (by decide)

theorem Split.head_iff {s t : State} {h b k : Nat} (sp : Split s t h b k) (x : Nat) :
    is_head t x ↔ (is_head s x ∨ x = b) := by
  unfold is_head
  by_cases hx : x = h
  · subst hx
    simp only [sp.mem_h, sp.mem_h', sp.same_used]
    constructor
    · intro _; left; left; exact ⟨_, rfl⟩
    · intro _; left; exact ⟨_, rfl⟩
  · by_cases hb : x = b
    · subst hb
      simp only [sp.mem_b', sp.same_used]
      constructor
      · intro _; right; trivial
      · intro _; left; exact ⟨_, rfl⟩
    · simp only [sp.mem_other _ x hx hb, sp.same_used, hb, or_false]

theorem Split.blk_other {s t : State} {h b k : Nat} (sp : Split s t h b k) (x : Nat)
    (hx : x ≠ h) (hb : x ≠ b) : blk_pages t x = blk_pages s x := by
  unfold blk_pages; rw [sp.ord_other x hx hb]

theorem Split.blk_h {s t : State} {h b k : Nat} (sp : Split s t h b k) :
    blk_pages s h = 2 * 2 ^ (k - MIN_ORDER) := by
  unfold blk_pages; rw [sp.ord_h]
  have := sp.hk1
  rw [show k + 1 - MIN_ORDER = (k - MIN_ORDER) + 1 by omega, pow_succ]; ring

theorem Split.blk_h' {s t : State} {h b k : Nat} (sp : Split s t h b k) :
    blk_pages t h = 2 ^ (k - MIN_ORDER) := by
  unfold blk_pages; rw [sp.ord_h']

theorem Split.blk_b' {s t : State} {h b k : Nat} (sp : Split s t h b k) :
    blk_pages t b = 2 ^ (k - MIN_ORDER) := by
  unfold blk_pages; rw [sp.ord_b']

theorem Split.not_head_b {s t : State} {h b k : Nat} (sp : Split s t h b k) :
    ¬ is_head s b := by
  intro hh
  rcases hh with ⟨j, hj⟩ | hu
  · exact sp.mem_b j hj
  · rw [sp.used_b] at hu; exact absurd hu (by decide)

theorem Split.head_h {s t : State} {h b k : Nat} (sp : Split s t h b k) : is_head s h :=
  Or.inl ⟨k + 1, (sp.mem_h _).2 rfl⟩

theorem Split.head_h' {s t : State} {h b k : Nat} (sp : Split s t h b k) : is_head t h :=
  Or.inl ⟨k, (sp.mem_h' _).2 rfl⟩

theorem Split.head_b' {s t : State} {h b k : Nat} (sp : Split s t h b k) : is_head t b :=
  Or.inl ⟨k, (sp.mem_b' _).2 rfl⟩

/-- Cutting a free block in two preserves the invariant. -/
theorem Split.fwd {s t : State} {h b k : Nat} (sp : Split s t h b k) (w : Wf s) : Wf t := by
  have hS := pow_pos2 (k - MIN_ORDER)
  have hlt := sp.hlt
  have hk1 := sp.hk1
  have hk2 := sp.hk2
  have hbh := sp.blk_h
  have hbh' := sp.blk_h'
  have hbb' := sp.blk_b'
  have hnb := sp.not_head_b
  have hb := sp.hb
  have hdvd := sp.hdvd
  generalize 2 ^ (k - MIN_ORDER) = S at *
  refine ⟨?_, ?_, ?_, ?_, ?_, ?_, ?_, ?_⟩
  · intro i hi
    rw [sp.same_id, sp.same_addr]; exact w.ids i hi
  · intro i hi
    by_cases h1 : i = h
    · subst h1; rw [sp.ord_h']; omega
    · by_cases h2 : i = b
      · subst h2; rw [sp.ord_b']; omega
      · rw [sp.ord_other i h1 h2]; exact w.ord i hi
  · intro i hi
    rw [sp.same_used]; exact w.used01 i hi
  · intro j p hp
    by_cases h1 : p = h
    · subst h1
      rw [sp.mem_h'] at hp
      rw [sp.same_used, sp.used_h, sp.ord_h']
      exact ⟨by omega, rfl, hp.symm⟩
    · by_cases h2 : p = b
      · subst h2
        rw [sp.mem_b'] at hp
        rw [sp.same_used, sp.used_b, sp.ord_b']
        exact ⟨by omega, rfl, hp.symm⟩
      · rw [sp.mem_other j p h1 h2] at hp
        rw [sp.same_used, sp.ord_other p h1 h2]
        exact w.mem j p hp
  · intro i hi hu ho
    by_cases h1 : i = h
    · subst h1; rw [sp.ord_h']; exact (sp.mem_h' _).2 rfl
    · by_cases h2 : i = b
      · subst h2; rw [sp.ord_b']; exact (sp.mem_b' _).2 rfl
      · rw [sp.ord_other i h1 h2] at ho ⊢
        rw [sp.same_used] at hu
        rw [sp.mem_other _ i h1 h2]
        exact w.inactive i hi hu ho
  · intro x hx hh
    have hd : S ∣ h := Dvd.dvd.trans (Dvd.intro_left 2 rfl) hdvd
    unfold blk_pages at hbh' hbb'
    by_cases h1 : x = h
    · subst h1; rw [hbh']; exact hd
    · by_cases h2 : x = b
      · subst h2; rw [hbb', hb]; exact Dvd.dvd.add hd (dvd_refl S)
      · rw [sp.ord_other x h1 h2]
        rw [sp.head_iff] at hh
        rcases hh with hh | hh
        · exact w.align x hx hh
        · exact absurd hh h2
  · intro p hp
    obtain ⟨h0, h0N, h0h, h0l, h0u⟩ := w.cover p hp
    by_cases h1 : h0 = h
    · subst h1
      by_cases hp2 : p < h0 + S
      · exact ⟨h0, h0N, sp.head_h', h0l, by omega⟩
      · exact ⟨b, by omega, sp.head_b', by omega, by omega⟩
    · have h2 : h0 ≠ b := fun e => hnb (e ▸ h0h)
      refine ⟨h0, h0N, (sp.head_iff h0).2 (Or.inl h0h), h0l, ?_⟩
      rw [sp.blk_other h0 h1 h2]; exact h0u
  · intro h1 h2 h1N h2N hh1 hh2 hlt12
    rw [sp.head_iff] at hh1 hh2
    have hN : h < n_pages := by omega
    by_cases e1 : h1 = h
    · subst e1
      by_cases e2 : h2 = b
      · omega
      · have e3 : h2 ≠ h1 := by omega
        have := w.disj h1 h2 h1N h2N sp.head_h (hh2.resolve_right e2) hlt12
        omega
    · by_cases e1' : h1 = b
      · subst e1'
        have e2 : h2 ≠ h := by omega
        have e2' : h2 ≠ h1 := by omega
        have := w.disj h h2 hN h2N sp.head_h (hh2.resolve_right e2') (by omega)
        omega
      · have hs1 := hh1.resolve_right e1'
        rw [sp.blk_other h1 e1 e1']
        by_cases e2 : h2 = h
        · subst e2
          exact w.disj h1 h2 h1N h2N hs1 sp.head_h hlt12
        · by_cases e2' : h2 = b
          · subst e2'
            by_cases c : h1 < h
            · have := w.disj h1 h h1N hN hs1 sp.head_h c
              omega
            · have := w.disj h h1 hN h1N sp.head_h hs1 (by omega)
              omega
          · exact w.disj h1 h2 h1N h2N hs1 (hh2.resolve_right e2') hlt12

/-- Joining two free buddies into one free block preserves the invariant. -/
theorem Split.bwd {s t : State} {h b k : Nat} (sp : Split s t h b k) (w : Wf t) : Wf s := by
  have hS := pow_pos2 (k - MIN_ORDER)
  have hlt := sp.hlt
  have hk1 := sp.hk1
  have hk2 := sp.hk2
  have hbh := sp.blk_h
  have hbh' := sp.blk_h'
  have hbb' := sp.blk_b'
  have hnb := sp.not_head_b
  have hb := sp.hb
  have hdvd := sp.hdvd
  have hpw : 2 ^ (k + 1 - MIN_ORDER) = 2 * 2 ^ (k - MIN_ORDER) := by
    rw [show k + 1 - MIN_ORDER = (k - MIN_ORDER) + 1 by omega, pow_succ]; ring
  generalize 2 ^ (k - MIN_ORDER) = S at *
  have hN : h < n_pages := by omega
  have hbN : b < n_pages := by omega
  have hst : ∀ x, is_head s x → is_head t x := fun x hx => (sp.head_iff x).2 (Or.inl hx)
  have hne : ∀ x, is_head s x → x ≠ b := fun x hx e => hnb (e ▸ hx)
  refine ⟨?_, ?_, ?_, ?_, ?_, ?_, ?_, ?_⟩
  · intro i hi
    rw [← sp.same_id, ← sp.same_addr]; exact w.ids i hi
  · intro i hi
    by_cases h1 : i = h
    · subst h1; rw [sp.ord_h]; omega
    · by_cases h2 : i = b
      · subst h2; rw [sp.ord_b]; exact ⟨by decide, le_refl _⟩
      · rw [← sp.ord_other i h1 h2]; exact w.ord i hi
  · intro i hi
    rw [← sp.same_used]; exact w.used01 i hi
  · intro j p hp
    by_cases h1 : p = h
    · subst h1
      rw [sp.mem_h] at hp
      rw [sp.used_h, sp.ord_h]
      exact ⟨hN, rfl, hp.symm⟩
    · by_cases h2 : p = b
      · subst h2
        exact absurd hp (sp.mem_b j)
      · rw [← sp.mem_other j p h1 h2] at hp
        rw [← sp.same_used, ← sp.ord_other p h1 h2]
        exact w.mem j p hp
  · intro i hi hu ho
    by_cases h1 : i = h
    · subst h1; rw [sp.ord_h]; exact (sp.mem_h _).2 rfl
    · by_cases h2 : i = b
      · subst h2; rw [sp.ord_b] at ho; omega
      · rw [← sp.ord_other i h1 h2] at ho ⊢
        rw [← sp.same_used] at hu
        rw [← sp.mem_other _ i h1 h2]
        exact w.inactive i hi hu ho
  · intro x hx hh
    by_cases h1 : x = h
    · subst h1; rw [sp.ord_h, hpw]; exact hdvd
    · have h2 := hne x hh
      rw [← sp.ord_other x h1 h2]
      exact w.align x hx (hst x hh)
  · intro p hp
    obtain ⟨h0, h0N, h0h, h0l, h0u⟩ := w.cover p hp
    by_cases h1 : h0 = h
    · subst h1
      exact ⟨h0, h0N, sp.head_h, h0l, by omega⟩
    · by_cases h2 : h0 = b
      · subst h2
        exact ⟨h, hN, sp.head_h, by omega, by omega⟩
      · refine ⟨h0, h0N, ((sp.head_iff h0).1 h0h).resolve_right h2, h0l, ?_⟩
        rw [← sp.blk_other h0 h1 h2]; exact h0u
  · intro h1 h2 h1N h2N hh1 hh2 hlt12
    have n1 := hne h1 hh1
    have n2 := hne h2 hh2
    by_cases e1 : h1 = h
    · subst e1
      have e2 : h2 ≠ h1 := by omega
      have d1 := w.disj h1 h2 h1N h2N sp.head_h' (hst h2 hh2) hlt12
      have d2 := w.disj b h2 hbN h2N sp.head_b' (hst h2 hh2) (by omega)
      omega
    · rw [← sp.blk_other h1 e1 n1]
      exact w.disj h1 h2 h1N h2N (hst h1 hh1) (hst h2 hh2) hlt12

theorem Flip.flip_head_iff {s t : State} {h : Nat} (fl : Flip s t h) (x : Nat) :
    is_head t x ↔ is_head s x := by
  unfold is_head
  by_cases hx : x = h
  · subst hx
    constructor
    · intro _; right; exact fl.used_h
    · intro _; left; exact ⟨_, (fl.mem_h' _).2 rfl⟩
  · simp only [fl.mem_other _ x hx, fl.used_other x hx]

theorem Flip.blk {s t : State} {h : Nat} (fl : Flip s t h) (x : Nat) :
    blk_pages t x = blk_pages s x := by
  unfold blk_pages; rw [fl.same_order]

/-- Turning a used block into a free block preserves the invariant. -/
theorem Flip.flip_fwd {s t : State} {h : Nat} (fl : Flip s t h) (w : Wf s) : Wf t := by
  refine ⟨?_, ?_, ?_, ?_, ?_, ?_, ?_, ?_⟩
  · intro i hi
    rw [fl.same_id, fl.same_addr]; exact w.ids i hi
  · intro i hi
    rw [fl.same_order]; exact w.ord i hi
  · intro i hi
    by_cases h1 : i = h
    · subst h1; left; exact fl.used_h'
    · rw [fl.used_other i h1]; exact w.used01 i hi
  · intro j p hp
    by_cases h1 : p = h
    · subst h1
      rw [fl.mem_h'] at hp
      rw [fl.same_order]
      exact ⟨fl.hN, fl.used_h', hp.symm⟩
    · rw [fl.mem_other j p h1] at hp
      rw [fl.used_other p h1, fl.same_order]
      exact w.mem j p hp
  · intro i hi hu ho
    rw [fl.same_order] at ho ⊢
    by_cases h1 : i = h
    · subst h1; exact (fl.mem_h' _).2 rfl
    · rw [fl.used_other i h1] at hu
      rw [fl.mem_other _ i h1]
      exact w.inactive i hi hu ho
  · intro x hx hh
    rw [fl.same_order]
    exact w.align x hx ((fl.flip_head_iff x).1 hh)
  · intro p hp
    obtain ⟨h0, h0N, h0h, h0l, h0u⟩ := w.cover p hp
    exact ⟨h0, h0N, (fl.flip_head_iff h0).2 h0h, h0l, by rw [fl.blk]; exact h0u⟩
  · intro h1 h2 h1N h2N hh1 hh2 hlt12
    rw [fl.blk]
    exact w.disj h1 h2 h1N h2N ((fl.flip_head_iff h1).1 hh1) ((fl.flip_head_iff h2).1 hh2) hlt12

/-- Turning a free block into a used block preserves the invariant. -/
theorem Flip.flip_bwd {s t : State} {h : Nat} (fl : Flip s t h) (w : Wf t) : Wf s := by
  refine ⟨?_, ?_, ?_, ?_, ?_, ?_, ?_, ?_⟩
  · intro i hi
    rw [← fl.same_id, ← fl.same_addr]; exact w.ids i hi
  · intro i hi
    rw [← fl.same_order]; exact w.ord i hi
  · intro i hi
    by_cases h1 : i = h
    · subst h1; right; exact fl.used_h
    · rw [← fl.used_other i h1]; exact w.used01 i hi
  · intro j p hp
    by_cases h1 : p = h
    · subst h1
      exact absurd hp (fl.mem_h j)
    · rw [← fl.mem_other j p h1] at hp
      rw [← fl.used_other p h1, ← fl.same_order]
      exact w.mem j p hp
  · intro i hi hu ho
    rw [← fl.same_order] at ho ⊢
    by_cases h1 : i = h
    · subst h1; rw [fl.used_h] at hu; exact absurd hu (by decide)
    · rw [← fl.used_other i h1] at hu
      rw [← fl.mem_other _ i h1]
      exact w.inactive i hi hu ho
  · intro x hx hh
    rw [← fl.same_order]
    exact w.align x hx ((fl.flip_head_iff x).2 hh)
  · intro p hp
    obtain ⟨h0, h0N, h0h, h0l, h0u⟩ := w.cover p hp
    exact ⟨h0, h0N, (fl.flip_head_iff h0).1 h0h, h0l, by rw [← fl.blk]; exact h0u⟩
  · intro h1 h2 h1N h2N hh1 hh2 hlt12
    rw [← fl.blk]
    exact w.disj h1 h2 h1N h2N ((fl.flip_head_iff h1).2 hh1) ((fl.flip_head_iff h2).2 hh2) hlt12

theorem NoBuddy.except {s : State} (nb : NoBuddy s) (x : Nat) : NoBuddyExcept s x :=
  fun k y h1 h2 h3 h4 h5 => (nb k y h1 h2 h3 h4 h5).elim

theorem Split.nb_fwd {s t : State} {h b k : Nat} (sp : Split s t h b k)
    (nb : NoBuddyExcept s h) : NoBuddyExcept t h := by
  intro j y hj1 hj2 hd hy hy'
  by_contra hc
  push_neg at hc
  obtain ⟨c1, c2⟩ := hc
  have hS := pow_pos2 (k - MIN_ORDER)
  have hS' := pow_pos2 (j - MIN_ORDER)
  have hb := sp.hb
  by_cases e1 : y = b
  · subst e1
    have hjk : j = k := (sp.mem_b' j).1 hy
    subst hjk
    have hdh := sp.hdvd
    rw [hb] at hd
    have : 2 * 2 ^ (j - MIN_ORDER) ∣ 2 ^ (j - MIN_ORDER) := (Nat.dvd_add_right hdh).1 hd
    have := Nat.le_of_dvd hS this
    omega
  · by_cases e2 : y + 2 ^ (j - MIN_ORDER) = b
    · have hjk : j = k := by rw [e2] at hy'; exact (sp.mem_b' j).1 hy'
      subst hjk
      omega
    · rw [sp.mem_other j y c1 e1] at hy
      rw [sp.mem_other j _ c2 e2] at hy'
      rcases nb j y hj1 hj2 hd hy hy' with r | r
      · exact c1 r
      · exact c2 r

theorem Split.nb_bwd {s t : State} {h b k : Nat} (sp : Split s t h b k) {x : Nat}
    (hx : x = h ∨ x = b) (nb : NoBuddyExcept t x) : NoBuddyExcept s h := by
  intro j y hj1 hj2 hd hy hy'
  by_contra hc
  push_neg at hc
  obtain ⟨c1, c2⟩ := hc
  have e1 : y ≠ b := fun e => sp.mem_b j (e ▸ hy)
  have e2 : y + 2 ^ (j - MIN_ORDER) ≠ b := fun e => sp.mem_b j (e ▸ hy')
  rw [← sp.mem_other j y c1 e1] at hy
  rw [← sp.mem_other j _ c2 e2] at hy'
  rcases nb j y hj1 hj2 hd hy hy' with r | r <;> rcases hx with hx | hx <;> omega

theorem Flip.flip_nb_fwd {s t : State} {h : Nat} (fl : Flip s t h) (nb : NoBuddy s) :
    NoBuddyExcept t h := by
  intro j y hj1 hj2 hd hy hy'
  by_contra hc
  push_neg at hc
  obtain ⟨c1, c2⟩ := hc
  rw [fl.mem_other j y c1] at hy
  rw [fl.mem_other j _ c2] at hy'
  exact nb j y hj1 hj2 hd hy hy'

theorem Flip.flip_nb_bwd {s t : State} {h : Nat} (fl : Flip s t h) (nb : NoBuddyExcept t h) :
    NoBuddy s := by
  intro j y hj1 hj2 hd hy hy'
  have c1 : y ≠ h := fun e => fl.mem_h j (e ▸ hy)
  have c2 : y + 2 ^ (j - MIN_ORDER) ≠ h := fun e => fl.mem_h j (e ▸ hy')
  rw [← fl.mem_other j y c1] at hy
  rw [← fl.mem_other j _ c2] at hy'
  rcases nb j y hj1 hj2 hd hy hy' with r | r
  · exact c1 r
  · exact c2 r

/-! ## Arithmetic of page indices -/

theorem n_pages_eq : n_pages = 256 := by decide

theorem PAGE_SIZE_eq : PAGE_SIZE = 4096 := by decide

set_option maxRecDepth 100000 in
theorem buddy_cases_aux : ∀ j, j < 8 → ∀ h, h < 256 → 2 ^ j ∣ h →
    (ADDR_TO_PAGE (BUDDY_ADDR (h * PAGE_SIZE) (MIN_ORDER + j)) < 256 ∧
     ((2 * 2 ^ j ∣ h ∧ ADDR_TO_PAGE (BUDDY_ADDR (h * PAGE_SIZE) (MIN_ORDER + j)) = h + 2 ^ j) ∨
      (2 * 2 ^ j ∣ ADDR_TO_PAGE (BUDDY_ADDR (h * PAGE_SIZE) (MIN_ORDER + j)) ∧
        h = ADDR_TO_PAGE (BUDDY_ADDR (h * PAGE_SIZE) (MIN_ORDER + j)) + 2 ^ j))) := by
  decide

set_option maxRecDepth 100000 in
theorem buddy_bound_aux : ∀ j, j < 8 → ∀ h, h < 256 → 2 * 2 ^ j ∣ h → h + 2 * 2 ^ j ≤ 256 := by
  decide

/-- The buddy of an aligned block of order `k < MAX_ORDER`: it lies in the
table, and either the block is the lower half of its parent and the buddy is
the upper half, or the other way round. -/
theorem buddy_cases {k h : Nat} (hk1 : MIN_ORDER ≤ k) (hk2 : k < MAX_ORDER) (hh : h < n_pages)
    (hd : 2 ^ (k - MIN_ORDER) ∣ h) :
    ADDR_TO_PAGE (BUDDY_ADDR (h * PAGE_SIZE) k) < n_pages ∧
     ((2 * 2 ^ (k - MIN_ORDER) ∣ h ∧
        ADDR_TO_PAGE (BUDDY_ADDR (h * PAGE_SIZE) k) = h + 2 ^ (k - MIN_ORDER)) ∨
      (2 * 2 ^ (k - MIN_ORDER) ∣ ADDR_TO_PAGE (BUDDY_ADDR (h * PAGE_SIZE) k) ∧
        h = ADDR_TO_PAGE (BUDDY_ADDR (h * PAGE_SIZE) k) + 2 ^ (k - MIN_ORDER))) := by
  obtain ⟨j, rfl⟩ := Nat.exists_eq_add_of_le hk1
  rw [Nat.add_sub_cancel_left] at hd ⊢
  have hj : j < 8 := by unfold MIN_ORDER MAX_ORDER at hk2; omega
  rw [n_pages_eq] at hh ⊢
  exact buddy_cases_aux j hj h hh hd

theorem buddy_bound {k h : Nat} (hk1 : MIN_ORDER ≤ k) (hk2 : k < MAX_ORDER) (hh : h < n_pages)
    (hd : 2 * 2 ^ (k - MIN_ORDER) ∣ h) : h + 2 * 2 ^ (k - MIN_ORDER) ≤ n_pages := by
  obtain ⟨j, rfl⟩ := Nat.exists_eq_add_of_le hk1
  rw [Nat.add_sub_cancel_left] at hd ⊢
  have hj : j < 8 := by unfold MIN_ORDER MAX_ORDER at hk2; omega
  rw [n_pages_eq] at hh ⊢
  exact buddy_bound_aux j hj h hh hd

theorem not_two_dvd (S y : Nat) (hS : 0 < S) (h1 : 2 * S ∣ y) : ¬ 2 * S ∣ y + S := by
  intro h2
  have : 2 * S ∣ S := (Nat.dvd_add_right h1).1 h2
  have := Nat.le_of_dvd hS this
  omega

/-- The buddy of the lower half is the upper half. -/
theorem buddy_up {k h : Nat} (hk1 : MIN_ORDER ≤ k) (hk2 : k < MAX_ORDER) (hh : h < n_pages)
    (hd : 2 * 2 ^ (k - MIN_ORDER) ∣ h) :
    ADDR_TO_PAGE (BUDDY_ADDR (h * PAGE_SIZE) k) = h + 2 ^ (k - MIN_ORDER) := by
  have hS := pow_pos2 (k - MIN_ORDER)
  have hd' : 2 ^ (k - MIN_ORDER) ∣ h := Dvd.dvd.trans (Dvd.intro_left 2 rfl) hd
  rcases (buddy_cases hk1 hk2 hh hd').2 with ⟨_, e⟩ | ⟨d, e⟩
  · exact e
  · exfalso
    rw [e] at hd
    exact not_two_dvd _ _ hS d hd

/-- The buddy of the upper half is the lower half. -/
theorem buddy_down {k y : Nat} (hk1 : MIN_ORDER ≤ k) (hk2 : k < MAX_ORDER)
    (hh : y + 2 ^ (k - MIN_ORDER) < n_pages) (hd : 2 * 2 ^ (k - MIN_ORDER) ∣ y) :
    ADDR_TO_PAGE (BUDDY_ADDR ((y + 2 ^ (k - MIN_ORDER)) * PAGE_SIZE) k) = y := by
  have hS := pow_pos2 (k - MIN_ORDER)
  have hd' : 2 ^ (k - MIN_ORDER) ∣ y + 2 ^ (k - MIN_ORDER) :=
    Dvd.dvd.add (Dvd.dvd.trans (Dvd.intro_left 2 rfl) hd) (dvd_refl _)
  rcases (buddy_cases hk1 hk2 hh hd').2 with ⟨d, _⟩ | ⟨_, e⟩
  · exact absurd d (not_two_dvd _ _ hS hd)
  · omega

/-! ## Elementary facts on the state updates -/

@[simp] theorem set_order_id (g : Nat → page_t) (i v x : Nat) :
    (set_order g i v x).id = (g x).id := by
  unfold set_order; split <;> rfl

@[simp] theorem set_order_address (g : Nat → page_t) (i v x : Nat) :
    (set_order g i v x).address = (g x).address := by
  unfold set_order; split <;> rfl

@[simp] theorem set_order_used (g : Nat → page_t) (i v x : Nat) :
    (set_order g i v x).used = (g x).used := by
  unfold set_order; split <;> rfl

theorem set_order_order (g : Nat → page_t) (i v x : Nat) :
    (set_order g i v x).order = if x = i then v else (g x).order := by
  unfold set_order; split <;> rfl

@[simp] theorem set_used_id (g : Nat → page_t) (i v x : Nat) :
    (set_used g i v x).id = (g x).id := by
  unfold set_used; split <;> rfl

@[simp] theorem set_used_address (g : Nat → page_t) (i v x : Nat) :
    (set_used g i v x).address = (g x).address := by
  unfold set_used; split <;> rfl

@[simp] theorem set_used_order (g : Nat → page_t) (i v x : Nat) :
    (set_used g i v x).order = (g x).order := by
  unfold set_used; split <;> rfl

theorem set_used_used (g : Nat → page_t) (i v x : Nat) :
    (set_used g i v x).used = if x = i then v else (g x).used := by
  unfold set_used; split <;> rfl

theorem set_order_self (g : Nat → page_t) (i : Nat) : set_order g i (g i).order = g := by
  funext x
  unfold set_order
  split
  · next e => subst e; rfl
  · rfl

theorem set_order_twice (g : Nat → page_t) (i v w : Nat) :
    set_order (set_order g i v) i w = set_order g i w := by
  funext x
  unfold set_order
  split <;> rfl

theorem mem_insert_before (g : Nat → page_t) (t x : Nat) (l : List Nat) :
    x ∈ insert_before g t l ↔ x = t ∨ x ∈ l := by
  induction l with
  | nil => simp [insert_before]
  | cons p rest ih =>
    unfold insert_before
    split
    · simp
    · simp only [List.mem_cons, ih]; tauto

theorem sorted_insert_before (g : Nat → page_t) (t : Nat) (l : List Nat)
    (ht : (g t).id = t) (hl : ∀ x ∈ l, (g x).id = x) (hn : t ∉ l)
    (hs : l.Pairwise (· < ·)) : (insert_before g t l).Pairwise (· < ·) := by
  induction l with
  | nil => simp [insert_before]
  | cons p rest ih =>
    have hp : (g p).id = p := hl p (List.mem_cons_self _ _)
    rw [List.pairwise_cons] at hs
    unfold insert_before
    rw [ht, hp]
    split
    · next hlt =>
      refine List.pairwise_cons.2 ⟨?_, List.pairwise_cons.2 hs⟩
      intro a ha
      rcases List.mem_cons.1 ha with e | e
      · omega
      · have := hs.1 a e; omega
    · next hge =>
      have hne : t ≠ p := fun e => hn (e ▸ List.mem_cons_self _ _)
      refine List.pairwise_cons.2 ⟨?_, ?_⟩
      · intro a ha
        rcases (mem_insert_before g t a rest).1 ha with e | e
        · omega
        · exact hs.1 a e
      · exact ih (fun x hx => hl x (List.mem_cons_of_mem _ hx))
          (fun h => hn (List.mem_cons_of_mem _ h)) hs.2

/-- Both branches of the insertion code give the same sequence. -/
theorem place_eq (g : Nat → page_t) (fa : Nat → List Nat) (t : Nat) :
    place g fa t = set_list fa (g t).order (insert_before g t (fa (g t).order)) := by
  unfold place list_add list_empty
  cases h : fa (g t).order with
  | nil => simp [h, insert_before]
  | cons p rest => simp [h]

theorem mem_place (g : Nat → page_t) (fa : Nat → List Nat) (t x j : Nat) :
    x ∈ place g fa t j ↔ (x ∈ fa j ∨ (x = t ∧ j = (g t).order)) := by
  rw [place_eq]
  unfold set_list
  split
  · next e => subst e; rw [mem_insert_before]; tauto
  · next e => constructor
              · intro h; exact Or.inl h
              · rintro (h | ⟨_, h⟩)
                · exact h
                · exact absurd h e

/-- The re-insertion in the coalescing loop unlinks the node and inserts it
in order. -/
theorem move_sorted_eq (g : Nat → page_t) (fa : Nat → List Nat) (t : Nat) :
    move_sorted g fa t = place g (list_del_init t fa) t := by
  unfold move_sorted
  cases h : fa (g t).order with
  | nil =>
    have h' : list_del_init t fa (g t).order = [] := by
      unfold list_del_init; rw [h]; rfl
    unfold place
    simp only [list_empty, h, h', List.isEmpty_nil, if_true]
    rfl
  | cons p rest =>
    simp only [list_empty, h, List.isEmpty_cons, Bool.false_eq_true, if_false]
    rw [place_eq]

theorem Sorted.nodup {s : State} (so : Sorted s) (k : Nat) : (s.free_area k).Nodup :=
  (so k).imp (fun h => Nat.ne_of_lt h)

theorem sorted_place (g : Nat → page_t) (fa : Nat → List Nat) (t : Nat)
    (ht : (g t).id = t) (hl : ∀ x ∈ fa (g t).order, (g x).id = x) (hn : t ∉ fa (g t).order)
    (hs : ∀ k, (fa k).Pairwise (· < ·)) (k : Nat) : (place g fa t k).Pairwise (· < ·) := by
  rw [place_eq]
  unfold set_list
  split
  · exact sorted_insert_before g t _ ht hl hn (hs _)
  · exact hs k

theorem sorted_del (x : Nat) (fa : Nat → List Nat) (hs : ∀ k, (fa k).Pairwise (· < ·))
    (k : Nat) : (list_del_init x fa k).Pairwise (· < ·) :=
  (hs k).sublist (List.erase_sublist x (fa k))

theorem mem_del {x y : Nat} {fa : Nat → List Nat} {k : Nat} (hn : (fa k).Nodup) :
    y ∈ list_del_init x fa k ↔ y ≠ x ∧ y ∈ fa k := by
  unfold list_del_init
  exact hn.mem_erase_iff

/-! ## The coalescing step -/

theorem merged_split {s : State} {h b k : Nat} (w : Wf s) (so : Sorted s)
    (hk1 : MIN_ORDER ≤ k) (hk2 : k < MAX_ORDER) (hN : h < n_pages)
    (hd : 2 * 2 ^ (k - MIN_ORDER) ∣ h) (hb : b = h + 2 ^ (k - MIN_ORDER))
    (mh : h ∈ s.free_area k) (mb : b ∈ s.free_area k) :
    Split (merged s h b k) s h b k ∧ Sorted (merged s h b k) := by
  have hS := pow_pos2 (k - MIN_ORDER)
  have hne : h ≠ b := by omega
  have hne' : b ≠ h := by omega
  have nd1 : ∀ j, (list_del_init b s.free_area j).Nodup := fun j =>
    (sorted_del b s.free_area so j).imp (fun h => Nat.ne_of_lt h)
  have oh : (set_order (set_order s.g_pages h (k + 1)) b MAX_ORDER h).order = k + 1 := by
    rw [set_order_order, if_neg hne, set_order_order, if_pos rfl]
  constructor
  · refine
      { hk1 := hk1, hk2 := hk2, hb := hb, hdvd := hd, hlt := buddy_bound hk1 hk2 hN hd,
        same_id := ?_, same_addr := ?_, same_used := ?_, used_h := ?_, used_b := ?_,
        ord_other := ?_, ord_h := ?_, ord_b := ?_, ord_h' := ?_, ord_b' := ?_,
        mem_other := ?_, mem_h := ?_, mem_b := ?_, mem_h' := ?_, mem_b' := ?_ }
    · intro x; simp [merged]
    · intro x; simp [merged]
    · intro x; simp [merged]
    · simp only [merged, set_order_used]; exact (w.mem k h mh).2.1
    · simp only [merged, set_order_used]; exact (w.mem k b mb).2.1
    · intro x h1 h2
      simp only [merged, set_order_order, if_neg h1, if_neg h2]
    · exact oh
    · simp only [merged, set_order_order, if_pos]
    · exact (w.mem k h mh).2.2
    · exact (w.mem k b mb).2.2
    · intro j x h1 h2
      simp only [merged]
      rw [mem_place, mem_del (nd1 j), mem_del (so.nodup j)]
      tauto
    · intro j
      simp only [merged]
      rw [mem_place, mem_del (nd1 j), oh]
      tauto
    · intro j
      simp only [merged]
      rw [mem_place, mem_del (nd1 j), mem_del (so.nodup j)]
      tauto
    · intro j
      constructor
      · intro hm; rw [← (w.mem j h hm).2.2, (w.mem k h mh).2.2]
      · intro e; rw [e]; exact mh
    · intro j
      constructor
      · intro hm; rw [← (w.mem j b hm).2.2, (w.mem k b mb).2.2]
      · intro e; rw [e]; exact mb
  · intro j
    simp only [merged]
    apply sorted_place
    · rw [set_order_id, set_order_id]; exact (w.ids h hN).1
    · intro x hx
      rw [mem_del (nd1 _), mem_del (so.nodup _)] at hx
      rw [set_order_id, set_order_id]
      exact (w.ids x (w.mem _ x hx.2.2).1).1
    · rw [mem_del (nd1 _)]; tauto
    · exact sorted_del h _ (sorted_del b _ so)

/-- What `merge_step` computes on a free block `tmp` of order `k` whose buddy
is free and of order `k`: the two are joined, the lower one survives. -/
theorem merge_step_eq {s : State} {tmp k : Nat} (w : Wf s) (hN : tmp < n_pages)
    (hk : (s.g_pages tmp).order = k) (hk2 : k < MAX_ORDER) (mt : tmp ∈ s.free_area k)
    (hu : (s.g_pages (buddy_id s.g_pages tmp)).used = 0)
    (ho : (s.g_pages (buddy_id s.g_pages tmp)).order = k) :
    ∃ h b, ((tmp = h ∧ buddy_id s.g_pages tmp = b) ∨ (tmp = b ∧ buddy_id s.g_pages tmp = h)) ∧
      h < n_pages ∧ 2 * 2 ^ (k - MIN_ORDER) ∣ h ∧
      b = h + 2 ^ (k - MIN_ORDER) ∧ h ∈ s.free_area k ∧ b ∈ s.free_area k ∧
      merge_step s tmp (buddy_id s.g_pages tmp) = (merged s h b k, h) := by
  have hS := pow_pos2 (k - MIN_ORDER)
  have hk1 : MIN_ORDER ≤ k := hk ▸ (w.ord tmp hN).1
  have hal : 2 ^ (k - MIN_ORDER) ∣ tmp := hk ▸ w.align tmp hN (Or.inl ⟨k, mt⟩)
  have hid := (w.ids tmp hN).1
  have hbid : buddy_id s.g_pages tmp = ADDR_TO_PAGE (BUDDY_ADDR (tmp * PAGE_SIZE) k) := by
    unfold buddy_id; rw [(w.ids tmp hN).2, hk]
  obtain ⟨bN, hc⟩ := buddy_cases hk1 hk2 hN hal
  rw [← hbid] at bN hc
  have mb : buddy_id s.g_pages tmp ∈ s.free_area k := by
    have := w.inactive _ bN hu (by rw [ho]; exact hk2)
    rwa [ho] at this
  generalize buddy_id s.g_pages tmp = bid at *
  rcases hc with ⟨d, e⟩ | ⟨d, e⟩
  · refine ⟨tmp, bid, Or.inl ⟨rfl, rfl⟩, hN, d, e, mt, mb, ?_⟩
    unfold merge_step merged
    simp only [move_sorted_eq]
    rw [hid, if_pos (show bid ≥ tmp by omega), hk]
  · refine ⟨bid, tmp, Or.inr ⟨rfl, rfl⟩, bN, d, e, mb, mt, ?_⟩
    unfold merge_step merged
    simp only [move_sorted_eq]
    rw [hid, if_neg (show ¬ bid ≥ tmp by omega), hk]

theorem blk_pages_eq {s : State} {h k : Nat} (e : (s.g_pages h).order = k) :
    blk_pages s h = 2 ^ (k - MIN_ORDER) := by
  unfold blk_pages; rw [e]

theorem merge_loop_succ {n : Nat} {s : State} {tmp bid : Nat} (hc : merge_cond s tmp bid) :
    merge_loop (n + 1) s tmp bid =
      merge_loop n (merge_step s tmp bid).1 (merge_step s tmp bid).2
        (buddy_id (merge_step s tmp bid).1.g_pages (merge_step s tmp bid).2) := by
  rw [merge_loop, if_pos hc]

theorem merge_loop_stop {n : Nat} {s : State} {tmp bid : Nat} (hc : ¬ merge_cond s tmp bid) :
    merge_loop (n + 1) s tmp bid = s := by
  rw [merge_loop, if_neg hc]

/-- The coalescing loop keeps the invariant, restores the absence of free
buddy pairs, leaves every `used` flag alone, and ends with a free block that
contains the block it started from. -/
theorem merge_loop_inv : ∀ (fuel : Nat) (s : State) (tmp : Nat),
    Wf s → Sorted s → NoBuddyExcept s tmp → tmp < n_pages →
    tmp ∈ s.free_area (s.g_pages tmp).order →
    MAX_ORDER ≤ fuel + (s.g_pages tmp).order →
    Wf (merge_loop fuel s tmp (buddy_id s.g_pages tmp)) ∧
    Sorted (merge_loop fuel s tmp (buddy_id s.g_pages tmp)) ∧
    NoBuddy (merge_loop fuel s tmp (buddy_id s.g_pages tmp)) ∧
    (∀ x, ((merge_loop fuel s tmp (buddy_id s.g_pages tmp)).g_pages x).used
      = (s.g_pages x).used) ∧
    ∃ tf, tf < n_pages ∧
      tf ∈ (merge_loop fuel s tmp (buddy_id s.g_pages tmp)).free_area
        (((merge_loop fuel s tmp (buddy_id s.g_pages tmp)).g_pages tf).order) ∧
      (s.g_pages tmp).order ≤
        ((merge_loop fuel s tmp (buddy_id s.g_pages tmp)).g_pages tf).order ∧
      tf ≤ tmp ∧
      tmp + blk_pages s tmp ≤
        tf + blk_pages (merge_loop fuel s tmp (buddy_id s.g_pages tmp)) tf := by
  intro fuel
  induction fuel with
  | zero =>
    intro s tmp w so nb hN mt hf
    have hmax : (s.g_pages tmp).order = MAX_ORDER := by
      have := (w.ord tmp hN).2; omega
    refine ⟨w, so, ?_, fun _ => rfl, tmp, hN, mt, le_refl _, le_refl _, le_refl _⟩
    intro k y hk1 hk2 hd hy hy'
    rcases nb k y hk1 hk2 hd hy hy' with e | e
    · subst e; have := (w.mem k _ hy).2.2; omega
    · rw [e] at hy'; have := (w.mem k _ hy').2.2; omega
  | succ n ih =>
    intro s tmp w so nb hN mt hf
    unfold merge_loop
    by_cases hc : merge_cond s tmp (buddy_id s.g_pages tmp)
    · rw [if_pos hc]
      obtain ⟨c1, c2, c3⟩ := hc
      obtain ⟨h, b, htb', hhN, hd, hb, mh, mb, e⟩ :=
        merge_step_eq w hN rfl c1 mt c2 c3.symm
      have htb : tmp = h ∨ tmp = b := htb'.imp (fun x => x.1) (fun x => x.1)
      have hk1 := (w.ord tmp hN).1
      obtain ⟨sp, so'⟩ := merged_split w so hk1 c1 hhN hd hb mh mb
      have w' := sp.bwd w
      have nb' := sp.nb_bwd (x := tmp) htb nb
      simp only [e]
      have oh : ((merged s h b (s.g_pages tmp).order).g_pages h).order
          = (s.g_pages tmp).order + 1 := sp.ord_h
      have mh' : h ∈ (merged s h b (s.g_pages tmp).order).free_area
          ((merged s h b (s.g_pages tmp).order).g_pages h).order := by
        rw [oh]; exact (sp.mem_h _).2 rfl
      obtain ⟨r1, r2, r3, r4, tf, t1, t2, t3, t4, t5⟩ :=
        ih (merged s h b (s.g_pages tmp).order) h w' so' nb' hhN mh' (by rw [oh]; omega)
      have hS := pow_pos2 ((s.g_pages tmp).order - MIN_ORDER)
      refine ⟨r1, r2, r3, fun x => by rw [r4, sp.same_used], tf, t1, t2, by omega, ?_, ?_⟩
      · rcases htb with e1 | e1 <;> omega
      · have b1 := sp.blk_h
        have b2 : blk_pages s tmp = 2 ^ ((s.g_pages tmp).order - MIN_ORDER) := rfl
        rcases htb with e1 | e1 <;> omega
    · rw [if_neg hc]
      refine ⟨w, so, ?_, fun _ => rfl, tmp, hN, mt, le_refl _, le_refl _, le_refl _⟩
      intro k y hk1 hk2 hd hy hy'
      apply hc
      have hS := pow_pos2 (k - MIN_ORDER)
      rcases nb k y hk1 hk2 hd hy hy' with e | e
      · subst e
        obtain ⟨yN, _, yo⟩ := w.mem k _ hy
        obtain ⟨_, bu, bo⟩ := w.mem k _ hy'
        have : buddy_id s.g_pages y = y + 2 ^ (k - MIN_ORDER) := by
          unfold buddy_id; rw [(w.ids y yN).2, yo]; exact buddy_up hk1 hk2 yN hd
        rw [this]
        exact ⟨by omega, bu, by omega⟩
      · obtain ⟨yN, yu, yo⟩ := w.mem k _ hy
        obtain ⟨tN, _, tord⟩ := w.mem k _ hy'
        rw [e] at tord tN
        have : buddy_id s.g_pages tmp = y := by
          unfold buddy_id; rw [(w.ids tmp tN).2, tord, ← e]
          exact buddy_down hk1 hk2 (by omega) hd
        rw [this]
        exact ⟨by omega, yu, by omega⟩

/-- The bound `MAX_ORDER` on the iterations of the coalescing loop is never
reached: from a free block of order `k`, `MAX_ORDER - k` iterations are enough
and further ones change nothing. -/
theorem merge_loop_fuel : ∀ (fuel : Nat) (s : State) (tmp : Nat),
    Wf s → Sorted s → tmp < n_pages → tmp ∈ s.free_area (s.g_pages tmp).order →
    MAX_ORDER ≤ fuel + (s.g_pages tmp).order →
    merge_loop (fuel + 1) s tmp (buddy_id s.g_pages tmp) =
      merge_loop fuel s tmp (buddy_id s.g_pages tmp) := by
  intro fuel
  induction fuel with
  | zero =>
    intro s tmp w _ hN _ hf
    have hc : ¬ merge_cond s tmp (buddy_id s.g_pages tmp) := by
      intro c
      have := c.1
      omega
    rw [merge_loop_stop hc]
    rfl
  | succ n ih =>
    intro s tmp w so hN mt hf
    by_cases hc : merge_cond s tmp (buddy_id s.g_pages tmp)
    · rw [merge_loop_succ hc, merge_loop_succ hc]
      obtain ⟨c1, c2, c3⟩ := hc
      obtain ⟨h, b, _, hhN, hd, hb, mh, mb, e⟩ :=
        merge_step_eq w hN rfl c1 mt c2 c3.symm
      obtain ⟨sp, so'⟩ := merged_split w so (w.ord tmp hN).1 c1 hhN hd hb mh mb
      simp only [e]
      have oh : ((merged s h b (s.g_pages tmp).order).g_pages h).order
          = (s.g_pages tmp).order + 1 := sp.ord_h
      exact ih _ h (sp.bwd w) so' hhN (by rw [oh]; exact (sp.mem_h _).2 rfl)
        (by rw [oh]; omega)
    · rw [merge_loop_stop hc, merge_loop_stop hc]

/-! ## `buddy_free` keeps the invariant -/

theorem buddy_free_eq (s : State) (addr : Nat) :
    buddy_free s addr = merge_loop MAX_ORDER (freed s (ADDR_TO_PAGE addr)) (ADDR_TO_PAGE addr)
      (buddy_id (freed s (ADDR_TO_PAGE addr)).g_pages (ADDR_TO_PAGE addr)) := rfl

theorem addr_to_page_mul (i : Nat) : ADDR_TO_PAGE (i * PAGE_SIZE) = i := by
  unfold ADDR_TO_PAGE
  exact Nat.mul_div_cancel i (by decide)

theorem freed_flip {s : State} {tmp : Nat} (w : Wf s) (so : Sorted s) (hN : tmp < n_pages)
    (hu : (s.g_pages tmp).used = 1) : Flip s (freed s tmp) tmp ∧ Sorted (freed s tmp) := by
  have hnm : ∀ j, tmp ∉ s.free_area j := by
    intro j hm
    have := (w.mem j tmp hm).2.1
    omega
  constructor
  · refine
      { hN := hN, same_id := ?_, same_addr := ?_, same_order := ?_, used_other := ?_,
        used_h := hu, used_h' := ?_, mem_other := ?_, mem_h := hnm, mem_h' := ?_ }
    · intro x; simp [freed]
    · intro x; simp [freed]
    · intro x; simp [freed]
    · intro x hx; simp only [freed, set_used_used, if_neg hx]
    · simp only [freed, set_used_used, if_pos]
    · intro j x hx
      simp only [freed]
      rw [mem_place]; tauto
    · intro j
      simp only [freed]
      rw [mem_place, set_used_order]
      have := hnm j
      tauto
  · intro j
    simp only [freed]
    apply sorted_place
    · rw [set_used_id]; exact (w.ids tmp hN).1
    · intro x hx
      rw [set_used_id]
      exact (w.ids x (w.mem _ x hx).1).1
    · exact hnm _
    · exact so

theorem free_inv {s : State} {live : List Nat} (iv : Inv s live) {a : Nat} (ha : a ∈ live) :
    Inv (buddy_free s a) (live.erase a) := by
  obtain ⟨i, hN, hu, rfl⟩ := (iv.live.2 a).1 ha
  rw [buddy_free_eq, addr_to_page_mul]
  obtain ⟨fl, so'⟩ := freed_flip iv.wf iv.sorted hN hu
  have w' := fl.flip_fwd iv.wf
  have nb' := fl.flip_nb_fwd iv.nobuddy
  have mt : i ∈ (freed s i).free_area ((freed s i).g_pages i).order := by
    rw [fl.same_order]; exact (fl.mem_h' _).2 rfl
  obtain ⟨r1, r2, r3, r4, -⟩ :=
    merge_loop_inv MAX_ORDER (freed s i) i w' so' nb' hN mt (Nat.le_add_right _ _)
  refine ⟨r1, r2, r3, iv.live.1.erase _, ?_⟩
  intro a
  rw [iv.live.1.mem_erase_iff, iv.live.2 a]
  constructor
  · rintro ⟨hne, x, xN, xu, rfl⟩
    have hx : x ≠ i := fun e => hne (by rw [e])
    exact ⟨x, xN, by rw [r4, fl.used_other x hx]; exact xu, rfl⟩
  · rintro ⟨x, xN, xu, rfl⟩
    rw [r4] at xu
    have hx : x ≠ i := by
      intro e; rw [e, fl.used_h'] at xu; omega
    rw [fl.used_other x hx] at xu
    refine ⟨?_, x, xN, xu, rfl⟩
    intro e
    have : 0 < PAGE_SIZE := by decide
    exact hx (Nat.eq_of_mul_eq_mul_right this e)

/-! ## `buddy_alloc` keeps the invariant -/

theorem list_empty_iff (l : List Nat) : list_empty l = true ↔ l = [] := by
  unfold list_empty; exact List.isEmpty_iff

theorem scan_loop_spec (fa : Nat → List Nat) : ∀ (fuel i : Nat), i + fuel = MAX_ORDER →
    i ≤ scan_loop fa fuel i ∧ scan_loop fa fuel i ≤ MAX_ORDER ∧
    (∀ j, i ≤ j → j < scan_loop fa fuel i → fa j = []) ∧
    (scan_loop fa fuel i < MAX_ORDER → fa (scan_loop fa fuel i) ≠ []) := by
  intro fuel
  induction fuel with
  | zero =>
    intro i hi
    simp only [scan_loop]
    exact ⟨le_refl _, by omega, fun j h1 h2 => by omega, fun h => by omega⟩
  | succ n ih =>
    intro i hi
    unfold scan_loop
    have hlt : i < MAX_ORDER := by omega
    rw [if_pos hlt]
    by_cases he : fa i = []
    · have : (!list_empty (fa i)) = false := by
        rw [(list_empty_iff _).2 he]; rfl
      rw [this]
      simp only [Bool.false_eq_true, if_false]
      obtain ⟨a1, a2, a3, a4⟩ := ih (i + 1) (by omega)
      refine ⟨by omega, a2, ?_, a4⟩
      intro j h1 h2
      by_cases e : j = i
      · rw [e]; exact he
      · exact a3 j (by omega) h2
    · have : (!list_empty (fa i)) = true := by
        cases h : list_empty (fa i)
        · rfl
        · exact absurd ((list_empty_iff _).1 h) he
      rw [this]
      simp only [if_true]
      exact ⟨le_refl _, by omega, fun j h1 h2 => by omega, fun _ => he⟩

theorem split_step_eq {r : State} {h k : Nat} {rest : List Nat}
    (hfa : r.free_area (k + 1) = h :: rest) :
    split_step r (k + 1) =
      { g_pages := set_order r.g_pages (ADDR_TO_PAGE (BUDDY_ADDR (r.g_pages h).address k)) k
        free_area := list_move h
          (list_add (ADDR_TO_PAGE (BUDDY_ADDR (r.g_pages h).address k)) r.free_area k) k } := by
  unfold split_step
  rw [hfa]
  simp only [Nat.add_sub_cancel]
  have : list_add (ADDR_TO_PAGE (BUDDY_ADDR (r.g_pages h).address k)) r.free_area k (k + 1)
      = h :: rest := by
    unfold list_add set_list
    rw [if_neg (by omega), hfa]
  rw [this]

theorem pow_succ_sub {k : Nat} (hk1 : MIN_ORDER ≤ k) :
    2 ^ (k + 1 - MIN_ORDER) = 2 * 2 ^ (k - MIN_ORDER) := by
  rw [show k + 1 - MIN_ORDER = (k - MIN_ORDER) + 1 by omega, pow_succ]; ring

theorem Live.congr {s t : State} {l : List Nat}
    (hu : ∀ x, (t.g_pages x).used = (s.g_pages x).used) (lv : Live s l) : Live t l := by
  refine ⟨lv.1, fun a => ?_⟩
  rw [lv.2 a]
  simp only [hu]

/-- One iteration of the splitting loop cuts the block carried down in two. -/
theorem split_step_split {r : State} {h k : Nat} {rest : List Nat}
    (w : Wf (adj r h (k + 1))) (so : Sorted r) (hk1 : MIN_ORDER ≤ k)
    (hfa : r.free_area (k + 1) = h :: rest) (hemp : r.free_area k = []) :
    Split (adj r h (k + 1)) (adj (split_step r (k + 1)) h k) h (h + 2 ^ (k - MIN_ORDER)) k ∧
    Sorted (split_step r (k + 1)) ∧
    (split_step r (k + 1)).free_area k = [h, h + 2 ^ (k - MIN_ORDER)] ∧
    (∀ j, j ≠ k → j ≠ k + 1 → (split_step r (k + 1)).free_area j = r.free_area j) ∧
    (∀ x, ((split_step r (k + 1)).g_pages x).used = (r.g_pages x).used) := by
  have hS := pow_pos2 (k - MIN_ORDER)
  have hm : h ∈ (adj r h (k + 1)).free_area (k + 1) := by
    show h ∈ r.free_area (k + 1)
    rw [hfa]; exact List.mem_cons_self _ _
  obtain ⟨hN, hu, ho⟩ := w.mem _ _ hm
  have hk2 : k < MAX_ORDER := by have := (w.ord h hN).2; omega
  have hal : 2 * 2 ^ (k - MIN_ORDER) ∣ h := by
    have := w.align h hN (Or.inl ⟨_, hm⟩)
    rwa [ho, pow_succ_sub hk1] at this
  have hlt := buddy_bound hk1 hk2 hN hal
  have haddr : (r.g_pages h).address = h * PAGE_SIZE := by
    have := (w.ids h hN).2
    simpa [adj] using this
  have hbe := buddy_up hk1 hk2 hN hal
  rw [split_step_eq hfa, haddr, hbe]
  generalize hbd : h + 2 ^ (k - MIN_ORDER) = b at *
  have hne : h ≠ b := by omega
  have hne' : b ≠ h := by omega
  have hbN : b < n_pages := by omega
  have hnh : ¬ is_head (adj r h (k + 1)) b := by
    intro hb
    have := w.disj h b hN hbN (Or.inl ⟨_, hm⟩) hb (by omega)
    rw [blk_pages_eq ho, pow_succ_sub hk1] at this
    omega
  have hnm : ∀ j, b ∉ r.free_area j := fun j hj => hnh (Or.inl ⟨j, hj⟩)
  have hbu : ((adj r h (k + 1)).g_pages b).used = 0 := by
    rcases w.used01 b hbN with e | e
    · exact e
    · exact absurd (Or.inr e) hnh
  have hbo : ((adj r h (k + 1)).g_pages b).order = MAX_ORDER := by
    by_contra hc
    have h1 := (w.ord b hbN).2
    have := w.inactive b hbN hbu (by omega)
    exact hnh (Or.inl ⟨_, this⟩)
  have hmj : ∀ j, h ∈ r.free_area j → j = k + 1 := by
    intro j hj
    have := (w.mem j h hj).2.2
    omega
  have hfa' : ∀ j, list_move h (list_add b r.free_area k) k j =
      if j = k then [h, b] else (r.free_area j).erase h := by
    intro j
    unfold list_move list_add list_del_init set_list
    by_cases e : j = k
    · subst e
      simp only [if_true, hemp]
      rw [List.erase_cons_tail (by simpa using hne')]
      rfl
    · simp only [if_neg e]
  have hnr : h ∉ rest := by
    have := so.nodup (k + 1)
    rw [hfa] at this
    exact (List.nodup_cons.1 this).1
  refine ⟨?_, ?_, ?_, ?_, ?_⟩
  · refine
      { hk1 := hk1, hk2 := hk2, hb := hbd.symm, hdvd := hal, hlt := hlt,
        same_id := ?_, same_addr := ?_, same_used := ?_, used_h := hu, used_b := hbu,
        ord_other := ?_, ord_h := ho, ord_b := hbo, ord_h' := ?_, ord_b' := ?_,
        mem_other := ?_, mem_h := ?_, mem_b := hnm, mem_h' := ?_, mem_b' := ?_ }
    · intro x; simp [adj]
    · intro x; simp [adj]
    · intro x; simp [adj]
    · intro x h1 h2
      simp only [adj, set_order_order, if_neg h1, if_neg h2]
    · simp only [adj, set_order_order, if_pos]
    · simp only [adj, set_order_order, if_neg hne', if_pos]
    · intro j x h1 h2
      show x ∈ list_move h (list_add b r.free_area k) k j ↔ x ∈ r.free_area j
      rw [hfa']
      by_cases e : j = k
      · subst e; rw [if_pos rfl, hemp]; simp [h1, h2]
      · rw [if_neg e, (so.nodup j).mem_erase_iff]; tauto
    · intro j
      constructor
      · exact hmj j
      · intro e; rw [e]; exact hm
    · intro j
      show h ∈ list_move h (list_add b r.free_area k) k j ↔ j = k
      rw [hfa']
      by_cases e : j = k
      · subst e; simp
      · rw [if_neg e, (so.nodup j).mem_erase_iff]; tauto
    · intro j
      show b ∈ list_move h (list_add b r.free_area k) k j ↔ j = k
      rw [hfa']
      by_cases e : j = k
      · subst e; simp
      · rw [if_neg e, (so.nodup j).mem_erase_iff]
        have := hnm j
        tauto
  · intro j
    show (list_move h (list_add b r.free_area k) k j).Pairwise (· < ·)
    rw [hfa']
    by_cases e : j = k
    · rw [if_pos e]
      simp only [List.pairwise_cons, List.mem_singleton, forall_eq, List.not_mem_nil,
        false_implies, implies_true, List.Pairwise.nil, and_true]
      omega
    · rw [if_neg e]
      exact (so j).sublist (List.erase_sublist h _)
  · show list_move h (list_add b r.free_area k) k k = [h, b]
    rw [hfa', if_pos rfl]
  · intro j e1 e2
    show list_move h (list_add b r.free_area k) k j = r.free_area j
    rw [hfa', if_neg e1]
    exact List.erase_of_not_mem (fun hj => e2 (hmj j hj))
  · intro x
    simp

/-- The splitting loop carries the free block `h` from order `i` down to
order `o`, through empty lists. -/
theorem split_loop_inv (o : Nat) (ho : MIN_ORDER ≤ o) : ∀ (fuel : Nat) (r : State)
    (i h : Nat) (rest : List Nat),
    Wf (adj r h i) → Sorted r → NoBuddyExcept r h → r.free_area i = h :: rest →
    (∀ j, o ≤ j → j < i → r.free_area j = []) → o ≤ i → i ≤ fuel + o →
    (split_loop fuel r i o).2 = o ∧ Wf (adj (split_loop fuel r i o).1 h o) ∧
    Sorted (split_loop fuel r i o).1 ∧ NoBuddyExcept (split_loop fuel r i o).1 h ∧
    (∃ rest', (split_loop fuel r i o).1.free_area o = h :: rest') ∧
    (∀ x, ((split_loop fuel r i o).1.g_pages x).used = (r.g_pages x).used) := by
  intro fuel
  induction fuel with
  | zero =>
    intro r i h rest w so nb hfa _ h1 h2
    have e : i = o := by omega
    subst e
    exact ⟨rfl, w, so, nb, ⟨rest, hfa⟩, fun _ => rfl⟩
  | succ n ih =>
    intro r i h rest w so nb hfa hemp h1 h2
    unfold split_loop
    by_cases e : i = o
    · subst e
      rw [if_neg (by simp)]
      exact ⟨rfl, w, so, nb, ⟨rest, hfa⟩, fun _ => rfl⟩
    · rw [if_pos e]
      obtain ⟨k, rfl⟩ : ∃ k, i = k + 1 := ⟨i - 1, by omega⟩
      have hk1 : MIN_ORDER ≤ k := by omega
      obtain ⟨sp, so', f1, f2, f3⟩ :=
        split_step_split w so hk1 hfa (hemp k (by omega) (by omega))
      have w' := sp.fwd w
      have nb' : NoBuddyExcept (split_step r (k + 1)) h := sp.nb_fwd nb
      simp only [Nat.add_sub_cancel]
      obtain ⟨r1, r2, r3, r4, r5, r6⟩ :=
        ih (split_step r (k + 1)) k h _ w' so' nb' f1
          (fun j j1 j2 => by rw [f2 j (by omega) (by omega)]; exact hemp j j1 (by omega))
          (by omega) (by omega)
      exact ⟨r1, r2, r3, r4, r5, fun x => by rw [r6, f3]⟩

/-- The last statements of `buddy_alloc` turn the first free block of list `o`
into a used block. -/
theorem take_first_flip {r : State} {h o : Nat} {rest : List Nat}
    (w : Wf (adj r h o)) (so : Sorted r) (hfa : r.free_area o = h :: rest) :
    (take_first r o).2 = some (h * PAGE_SIZE) ∧ Flip (take_first r o).1 (adj r h o) h ∧
    Sorted (take_first r o).1 ∧ ((take_first r o).1.g_pages h).order = o := by
  have hm : h ∈ r.free_area o := by rw [hfa]; exact List.mem_cons_self _ _
  obtain ⟨hN, hu, hord⟩ := w.mem o h hm
  have haddr : (r.g_pages h).address = h * PAGE_SIZE := by
    have := (w.ids h hN).2
    simpa [adj] using this
  have e : take_first r o =
      ({ g_pages := set_used (set_order r.g_pages h o) h 1,
         free_area := list_del_init h r.free_area }, some (h * PAGE_SIZE)) := by
    unfold take_first
    rw [hfa]
    simp only [set_used_address, set_order_address, haddr]
  rw [e]
  refine ⟨rfl, ?_, ?_, ?_⟩
  · refine
      { hN := hN, same_id := ?_, same_addr := ?_, same_order := ?_, used_other := ?_,
        used_h := ?_, used_h' := hu, mem_other := ?_, mem_h := ?_, mem_h' := ?_ }
    · intro x; simp [adj]
    · intro x; simp [adj]
    · intro x; simp [adj]
    · intro x hx; simp only [adj, set_used_used, if_neg hx]
    · simp only [set_used_used, if_pos]
    · intro j x hx
      show x ∈ r.free_area j ↔ x ∈ list_del_init h r.free_area j
      rw [mem_del (so.nodup j)]; tauto
    · intro j
      show h ∉ list_del_init h r.free_area j
      rw [mem_del (so.nodup j)]; tauto
    · intro j
      show h ∈ r.free_area j ↔ j = (set_used (set_order r.g_pages h o) h 1 h).order
      rw [set_used_order, set_order_order, if_pos rfl]
      constructor
      · intro hj
        have := (w.mem j h hj).2.2
        omega
      · intro ej; rw [ej]; exact hm
  · exact sorted_del h _ so
  · show (set_used (set_order r.g_pages h o) h 1 h).order = o
    rw [set_used_order, set_order_order, if_pos rfl]

theorem adj_self (s : State) (h : Nat) : adj s h (s.g_pages h).order = s := by
  unfold adj
  rw [set_order_self]

theorem target_order_spec (size : Int) :
    MIN_ORDER ≤ target_order size ∧ target_order size ≤ MAX_ORDER ∧
    (size ≤ ((2 ^ MAX_ORDER : Nat) : Int) → size ≤ ((2 ^ target_order size : Nat) : Int)) ∧
    (target_order size ≠ MIN_ORDER → ((2 ^ (target_order size - 1) : Nat) : Int) < size) := by
  unfold target_order
  simp only [order_loop, MAX_ORDER, MIN_ORDER]
  norm_num
  split_ifs <;> norm_num <;> omega

/-- The two outcomes of `buddy_alloc` in a state that satisfies the
invariant. -/
theorem alloc_cases {s : State} {live : List Nat} (iv : Inv s live) (size : Int) :
    ((size > ((1 <<< MAX_ORDER : Nat) : Int) ∨
        ∀ i, target_order size ≤ i → i ≤ MAX_ORDER → s.free_area i = []) ∧
      buddy_alloc s size = (s, none)) ∨
    (size ≤ ((1 <<< MAX_ORDER : Nat) : Int) ∧ ∃ i h rest,
      target_order size ≤ i ∧ i ≤ MAX_ORDER ∧
      (∀ j, target_order size ≤ j → j < i → s.free_area j = []) ∧
      s.free_area i = h :: rest ∧ h < n_pages ∧
      (buddy_alloc s size).2 = some (h * PAGE_SIZE) ∧
      Inv (buddy_alloc s size).1 (h * PAGE_SIZE :: live) ∧
      (((buddy_alloc s size).1.g_pages h).used = 1) ∧
      (((buddy_alloc s size).1.g_pages h).order = target_order size)) := by
  obtain ⟨o1, o2, -, -⟩ := target_order_spec size
  by_cases hsz : size > ((1 <<< MAX_ORDER : Nat) : Int)
  · left
    exact ⟨Or.inl hsz, by unfold buddy_alloc; rw [if_pos hsz]⟩
  · obtain ⟨s1, s2, s3, s4⟩ :=
      scan_loop_spec s.free_area (MAX_ORDER - target_order size) (target_order size) (by omega)
    have hb : buddy_alloc s size =
        if scan_loop s.free_area (MAX_ORDER - target_order size) (target_order size) = MAX_ORDER ∧
            list_empty (s.free_area
              (scan_loop s.free_area (MAX_ORDER - target_order size) (target_order size))) = true
        then (s, none)
        else take_first
          (split_loop (MAX_ORDER - MIN_ORDER) s
            (scan_loop s.free_area (MAX_ORDER - target_order size) (target_order size))
            (target_order size)).1
          (split_loop (MAX_ORDER - MIN_ORDER) s
            (scan_loop s.free_area (MAX_ORDER - target_order size) (target_order size))
            (target_order size)).2 := by
      unfold buddy_alloc; rw [if_neg hsz]
    rw [hb]
    generalize scan_loop s.free_area (MAX_ORDER - target_order size) (target_order size) = i at *
    cases hfa : s.free_area i with
    | nil =>
      left
      have hi : i = MAX_ORDER := by
        by_contra hc
        exact s4 (by omega) hfa
      refine ⟨Or.inr ?_, ?_⟩
      · intro j j1 j2
        by_cases e : j = i
        · rw [e]; exact hfa
        · exact s3 j j1 (by omega)
      · rw [if_pos ⟨hi, rfl⟩]
    | cons h rest =>
      right
      rw [if_neg (by simp [list_empty])]
      have hm : h ∈ s.free_area i := by rw [hfa]; exact List.mem_cons_self _ _
      obtain ⟨hN, hu, hord⟩ := iv.wf.mem i h hm
      have w0 : Wf (adj s h i) := by rw [← hord, adj_self]; exact iv.wf
      obtain ⟨r1, r2, r3, r4, ⟨rest', r5⟩, r6⟩ :=
        split_loop_inv (target_order size) o1 (MAX_ORDER - MIN_ORDER) s i h rest w0 iv.sorted
          (iv.nobuddy.except h) hfa s3 s1 (by unfold MAX_ORDER MIN_ORDER at *; omega)
      rw [r1]
      obtain ⟨t1, fl, t3, t4⟩ := take_first_flip r2 r3 r5
      refine ⟨by omega, i, h, rest, s1, s2, s3, hfa, hN, t1, ⟨fl.flip_bwd r2, t3, fl.flip_nb_bwd r4, ?_⟩,
        fl.used_h, t4⟩
      have hl : ∀ a, a ∈ live ↔ ∃ x, x < n_pages ∧ (s.g_pages x).used = 1 ∧ a = x * PAGE_SIZE :=
        iv.live.2
      have hnl : h * PAGE_SIZE ∉ live := by
        intro hc
        obtain ⟨x, xN, xu, e⟩ := (hl _).1 hc
        have : h = x := Nat.eq_of_mul_eq_mul_right (by decide) e
        rw [← this] at xu
        omega
      refine ⟨List.nodup_cons.2 ⟨hnl, iv.live.1⟩, fun a => ?_⟩
      rw [List.mem_cons, hl]
      have hou : ∀ x, x ≠ h → ((take_first
          (split_loop (MAX_ORDER - MIN_ORDER) s i (target_order size)).1
          (target_order size)).1.g_pages x).used = (s.g_pages x).used := by
        intro x hx
        rw [← fl.used_other x hx]
        simp only [adj, set_order_used]
        exact r6 x
      constructor
      · rintro (e | ⟨x, xN, xu, e⟩)
        · exact ⟨h, hN, fl.used_h, e⟩
        · have hx : x ≠ h := by intro e'; rw [e'] at xu; omega
          exact ⟨x, xN, by rw [hou x hx]; exact xu, e⟩
      · rintro ⟨x, xN, xu, e⟩
        by_cases hx : x = h
        · left; rw [e, hx]
        · right; exact ⟨x, xN, by rw [← hou x hx]; exact xu, e⟩

/-! ## The invariant holds in every reachable state -/

theorem init_free_area (s0 : State) (k : Nat) :
    (buddy_init s0).free_area k = if k = MAX_ORDER then [0] else [] := by
  unfold buddy_init list_add set_list
  rfl

theorem init_page (s0 : State) {i : Nat} (hi : i < n_pages) :
    (buddy_init s0).g_pages i =
      { id := i, address := i * PAGE_SIZE, order := MAX_ORDER, used := 0 } := by
  unfold buddy_init PAGE_TO_ADDR
  simp only [if_pos hi]

theorem init_used (s0 : State) {i : Nat} (hi : i < n_pages) :
    ((buddy_init s0).g_pages i).used = 0 := by rw [init_page s0 hi]

theorem init_order (s0 : State) {i : Nat} (hi : i < n_pages) :
    ((buddy_init s0).g_pages i).order = MAX_ORDER := by rw [init_page s0 hi]

theorem init_mem (s0 : State) {k p : Nat} (h : p ∈ (buddy_init s0).free_area k) :
    k = MAX_ORDER ∧ p = 0 := by
  rw [init_free_area] at h
  by_cases e : k = MAX_ORDER
  · rw [if_pos e] at h; exact ⟨e, by simpa using h⟩
  · rw [if_neg e] at h; exact absurd h (List.not_mem_nil _)

theorem init_head (s0 : State) {h : Nat} (hN : h < n_pages) (hh : is_head (buddy_init s0) h) :
    h = 0 := by
  rcases hh with ⟨k, hk⟩ | hu
  · exact (init_mem s0 hk).2
  · rw [init_used s0 hN] at hu; exact absurd hu (by decide)

theorem init_inv (s0 : State) : Inv (buddy_init s0) [] := by
  have h0 : (0 : Nat) < n_pages := by decide
  refine ⟨⟨?_, ?_, ?_, ?_, ?_, ?_, ?_, ?_⟩, ?_, ?_, ?_⟩
  · intro i hi; rw [init_page s0 hi]; exact ⟨rfl, rfl⟩
  · intro i hi; rw [init_order s0 hi]; exact ⟨by decide, le_refl _⟩
  · intro i hi; rw [init_page s0 hi]; exact Or.inl rfl
  · intro k p hp
    obtain ⟨rfl, rfl⟩ := init_mem s0 hp
    rw [init_page s0 h0]
    exact ⟨h0, rfl, rfl⟩
  · intro i hi _ ho
    rw [init_page s0 hi] at ho
    exact absurd ho (lt_irrefl _)
  · intro h hN hh
    rw [init_head s0 hN hh]
    exact dvd_zero _
  · intro p hp
    refine ⟨0, h0, Or.inl ⟨MAX_ORDER, by rw [init_free_area, if_pos rfl]; simp⟩, Nat.zero_le _, ?_⟩
    unfold blk_pages
    rw [init_page s0 h0]
    rw [n_pages_eq] at hp
    show p < 0 + 2 ^ (MAX_ORDER - MIN_ORDER)
    have : 2 ^ (MAX_ORDER - MIN_ORDER) = 256 := by decide
    omega
  · intro h1 h2 h1N h2N hh1 hh2 hlt
    rw [init_head s0 h1N hh1, init_head s0 h2N hh2] at hlt
    exact absurd hlt (lt_irrefl _)
  · intro k
    rw [init_free_area]
    split <;> simp
  · intro k y _ hk2 _ hy _
    have := (init_mem s0 hy).1
    omega
  · refine ⟨List.nodup_nil, fun a => ?_⟩
    constructor
    · intro h; exact absurd h (List.not_mem_nil _)
    · rintro ⟨i, hi, hu, _⟩
      rw [init_used s0 hi] at hu
      exact absurd hu (by decide)

/-- Every reachable state satisfies the invariant. -/
theorem reach_inv {s : State} {live : List Nat} (hr : Reach s live) : Inv s live := by
  induction hr with
  | init s0 => exact init_inv s0
  | alloc_ok size a _ ha ih =>
    rcases alloc_cases ih size with ⟨_, e⟩ | ⟨_, i, h, rest, _, _, _, _, _, e, iv, _, _⟩
    · rw [e] at ha; exact absurd ha (by simp)
    · rw [e] at ha
      have : h * PAGE_SIZE = a := by simpa using ha
      rw [← this]; exact iv
  | alloc_fail size _ ha ih =>
    rcases alloc_cases ih size with ⟨_, e⟩ | ⟨_, i, h, rest, _, _, _, _, _, e, iv, _, _⟩
    · rw [e]; exact ih
    · rw [e] at ha; exact absurd ha (by simp)
  | free a _ ha ih => exact free_inv ih ha

/-! ## C1: partition -/

/-- C1. In every reachable state every page index `p < 256` lies in the block
of exactly one head descriptor `h` (member of a free list, or marked used):
`h.id ≤ p < h.id + 2^(h.order - MIN_ORDER)`. -/
theorem partition_reachable {s : State} {live : List Nat} (hr : Reach s live)
    (p : Nat) (hp : p < n_pages) :
    ∃! h, h < n_pages ∧
      ((∃ k, MIN_ORDER ≤ k ∧ k ≤ MAX_ORDER ∧ h ∈ s.free_area k) ∨ (s.g_pages h).used = 1) ∧
      (s.g_pages h).id ≤ p ∧ p < (s.g_pages h).id + 2 ^ ((s.g_pages h).order - MIN_ORDER) := by
  have w := (reach_inv hr).wf
  obtain ⟨h, hN, hh, h1, h2⟩ := w.cover p hp
  have key : ∀ x, x < n_pages →
      ((∃ k, MIN_ORDER ≤ k ∧ k ≤ MAX_ORDER ∧ x ∈ s.free_area k) ∨ (s.g_pages x).used = 1) →
      is_head s x := by
    rintro x _ (⟨k, _, _, hk⟩ | hu)
    · exact Or.inl ⟨k, hk⟩
    · exact Or.inr hu
  refine ⟨h, ⟨hN, ?_, ?_, ?_⟩, ?_⟩
  · rcases hh with ⟨k, hk⟩ | hu
    · left
      have := (w.mem k h hk).2.2
      have := w.ord h hN
      exact ⟨k, by omega, by omega, hk⟩
    · exact Or.inr hu
  · rw [(w.ids h hN).1]; exact h1
  · rw [(w.ids h hN).1]; exact h2
  · rintro y ⟨yN, yh, y1, y2⟩
    rw [(w.ids y yN).1] at y1 y2
    have yh' := key y yN yh
    unfold blk_pages at h2
    by_contra hne
    rcases Nat.lt_or_gt_of_ne hne with c | c
    · have := w.disj y h yN hN yh' hh c
      unfold blk_pages at this
      omega
    · have := w.disj h y hN yN hh yh' c
      unfold blk_pages at this
      omega

theorem partition_reachable_witness :
    ∃! h, h < n_pages ∧
      ((∃ k, MIN_ORDER ≤ k ∧ k ≤ MAX_ORDER ∧
          h ∈ (buddy_alloc (buddy_init zero_state) 5000).1.free_area k) ∨
        ((buddy_alloc (buddy_init zero_state) 5000).1.g_pages h).used = 1) ∧
      ((buddy_alloc (buddy_init zero_state) 5000).1.g_pages h).id ≤ 3 ∧
      3 < ((buddy_alloc (buddy_init zero_state) 5000).1.g_pages h).id +
        2 ^ (((buddy_alloc (buddy_init zero_state) 5000).1.g_pages h).order - MIN_ORDER) :=
  partition_reachable
    (Reach.alloc_ok 5000 0 (Reach.init zero_state) (by decide)) 3 (by decide)

/-! ## C2: minimality of the order -/

/-- C2. In a reachable state, for `1 ≤ size ≤ 2^MAX_ORDER`, a successful
`buddy_alloc(size)` returns an address whose descriptor has `used = 1` and
order `o`, the smallest order in `[MIN_ORDER, MAX_ORDER]` with `2^o ≥ size`:
`o = MIN_ORDER` when `size ≤ 2^MIN_ORDER`, and `2^(o-1) < size ≤ 2^o`
otherwise. -/
theorem alloc_minimal {s : State} {live : List Nat} (hr : Reach s live) (size : Int)
    (h1 : 1 ≤ size) (h2 : size ≤ ((2 ^ MAX_ORDER : Nat) : Int)) (a : Nat)
    (ha : (buddy_alloc s size).2 = some a) :
    ((buddy_alloc s size).1.g_pages (ADDR_TO_PAGE a)).used = 1 ∧
    ∃ o, ((buddy_alloc s size).1.g_pages (ADDR_TO_PAGE a)).order = o ∧
      MIN_ORDER ≤ o ∧ o ≤ MAX_ORDER ∧ size ≤ ((2 ^ o : Nat) : Int) ∧
      (∀ o', MIN_ORDER ≤ o' → o' ≤ MAX_ORDER → size ≤ ((2 ^ o' : Nat) : Int) → o ≤ o') ∧
      (size ≤ ((2 ^ MIN_ORDER : Nat) : Int) → o = MIN_ORDER) ∧
      (((2 ^ MIN_ORDER : Nat) : Int) < size →
        ((2 ^ (o - 1) : Nat) : Int) < size ∧ size ≤ ((2 ^ o : Nat) : Int)) := by
  have _ := h1
  obtain ⟨o1, o2, o3, o4⟩ := target_order_spec size
  have hmin : ∀ o', MIN_ORDER ≤ o' → size ≤ ((2 ^ o' : Nat) : Int) → target_order size ≤ o' := by
    intro o' m1 m2
    by_contra hc
    have hne : target_order size ≠ MIN_ORDER := by omega
    have hlt : ((2 ^ (target_order size - 1) : Nat) : Int) < ((2 ^ o' : Nat) : Int) :=
      lt_of_lt_of_le (o4 hne) m2
    have hlt' : 2 ^ (target_order size - 1) < 2 ^ o' := by exact_mod_cast hlt
    have hle : 2 ^ o' ≤ 2 ^ (target_order size - 1) :=
      Nat.pow_le_pow_right (by decide) (by omega)
    omega
  rcases alloc_cases (reach_inv hr) size with ⟨_, e⟩ | ⟨_, i, h, rest, _, _, _, _, _, e, _, eu, eo⟩
  · rw [e] at ha; exact absurd ha (by simp)
  · rw [e] at ha
    have hah : h * PAGE_SIZE = a := by simpa using ha
    rw [← hah, addr_to_page_mul]
    refine ⟨eu, target_order size, eo, o1, o2, o3 h2, fun o' m1 _ m2 => hmin o' m1 m2, ?_, ?_⟩
    · intro hs
      have := hmin MIN_ORDER (le_refl _) hs
      omega
    · intro hs
      refine ⟨o4 ?_, o3 h2⟩
      intro hc
      have := o3 h2
      rw [hc] at this
      omega

theorem alloc_minimal_witness :
    ((buddy_alloc (buddy_init zero_state) 5000).1.g_pages (ADDR_TO_PAGE 0)).used = 1 ∧
    ∃ o, ((buddy_alloc (buddy_init zero_state) 5000).1.g_pages (ADDR_TO_PAGE 0)).order = o ∧
      MIN_ORDER ≤ o ∧ o ≤ MAX_ORDER ∧ (5000 : Int) ≤ ((2 ^ o : Nat) : Int) ∧
      (∀ o', MIN_ORDER ≤ o' → o' ≤ MAX_ORDER → (5000 : Int) ≤ ((2 ^ o' : Nat) : Int) → o ≤ o') ∧
      ((5000 : Int) ≤ ((2 ^ MIN_ORDER : Nat) : Int) → o = MIN_ORDER) ∧
      (((2 ^ MIN_ORDER : Nat) : Int) < 5000 →
        ((2 ^ (o - 1) : Nat) : Int) < 5000 ∧ (5000 : Int) ≤ ((2 ^ o : Nat) : Int)) :=
  alloc_minimal (Reach.init zero_state) 5000 (by decide) (by decide) 0 (by decide)

/-! ## C3: when `buddy_alloc` fails -/

/-- C3. In a reachable state, for `size ≥ 1`, `buddy_alloc(size)` returns
`NULL` exactly when `size > 2^MAX_ORDER` or every free list of an order from
the target order up to `MAX_ORDER` is empty; any other result is an address
inside the arena. -/
theorem alloc_failure_iff {s : State} {live : List Nat} (hr : Reach s live) (size : Int)
    (h1 : 1 ≤ size) :
    ((buddy_alloc s size).2 = none ↔
      (size > ((2 ^ MAX_ORDER : Nat) : Int) ∨
        ∀ i, target_order size ≤ i → i ≤ MAX_ORDER → s.free_area i = [])) ∧
    (∀ a, (buddy_alloc s size).2 = some a → a < 2 ^ MAX_ORDER) := by
  have _ := h1
  have hsh : (1 <<< MAX_ORDER : Nat) = 2 ^ MAX_ORDER := by decide
  rcases alloc_cases (reach_inv hr) size with
    ⟨c, e⟩ | ⟨c, i, h, rest, i1, i2, _, hfa, hN, e, _, _, _⟩
  · rw [hsh] at c
    rw [e]
    exact ⟨⟨fun _ => c, fun _ => rfl⟩, fun a ha => absurd ha (by simp)⟩
  · rw [hsh] at c
    rw [e]
    constructor
    · constructor
      · intro hc; exact absurd hc (by simp)
      · rintro (hc | hc)
        · omega
        · have := hc i i1 i2
          rw [hfa] at this
          exact absurd this (by simp)
    · intro a ha
      have hah : h * PAGE_SIZE = a := by simpa using ha
      rw [← hah]
      rw [n_pages_eq] at hN
      rw [PAGE_SIZE_eq]
      have : 2 ^ MAX_ORDER = 1048576 := by decide
      omega

theorem alloc_failure_iff_witness :
    ((buddy_alloc (buddy_alloc (buddy_init zero_state) 1048576).1 4096).2 = none ↔
      ((4096 : Int) > ((2 ^ MAX_ORDER : Nat) : Int) ∨
        ∀ i, target_order 4096 ≤ i → i ≤ MAX_ORDER →
          (buddy_alloc (buddy_init zero_state) 1048576).1.free_area i = [])) ∧
    (∀ a, (buddy_alloc (buddy_alloc (buddy_init zero_state) 1048576).1 4096).2 = some a →
      a < 2 ^ MAX_ORDER) :=
  alloc_failure_iff (Reach.alloc_ok 1048576 0 (Reach.init zero_state) (by decide)) 4096
    (by decide)

/-! ## C8: alignment -/

set_option maxRecDepth 100000 in
theorem block_bound_aux : ∀ j, j < 9 → ∀ h, h < 256 → 2 ^ j ∣ h → h + 2 ^ j ≤ 256 := by
  decide

/-- An aligned block that starts in the table ends in the table. -/
theorem block_bound {k h : Nat} (hk1 : MIN_ORDER ≤ k) (hk2 : k ≤ MAX_ORDER) (hh : h < n_pages)
    (hd : 2 ^ (k - MIN_ORDER) ∣ h) : h + 2 ^ (k - MIN_ORDER) ≤ n_pages := by
  obtain ⟨j, rfl⟩ := Nat.exists_eq_add_of_le hk1
  rw [Nat.add_sub_cancel_left] at hd ⊢
  have hj : j < 9 := by unfold MIN_ORDER MAX_ORDER at hk2; omega
  rw [n_pages_eq] at hh ⊢
  exact block_bound_aux j hj h hh hd

/-- The byte address of a block head is a multiple of the block size and the
block ends inside the arena. -/
theorem head_aligned {s : State} (w : Wf s) {h : Nat} (hN : h < n_pages) (hh : is_head s h) :
    2 ^ (s.g_pages h).order ∣ h * PAGE_SIZE ∧
    h * PAGE_SIZE + 2 ^ (s.g_pages h).order ≤ 2 ^ MAX_ORDER := by
  obtain ⟨k1, k2⟩ := w.ord h hN
  have hd := w.align h hN hh
  have hb := block_bound k1 k2 hN hd
  have hp : 2 ^ (s.g_pages h).order = 2 ^ ((s.g_pages h).order - MIN_ORDER) * PAGE_SIZE := by
    have : PAGE_SIZE = 2 ^ MIN_ORDER := by decide
    rw [this, ← pow_add]
    congr 1
    omega
  rw [hp]
  constructor
  · exact Nat.mul_dvd_mul hd (dvd_refl _)
  · have : 2 ^ MAX_ORDER = n_pages * PAGE_SIZE := by decide
    rw [this, ← Nat.add_mul]
    exact Nat.mul_le_mul_right _ hb

/-- C8. In a reachable state a successful `buddy_alloc` returns an address
whose offset is a multiple of `2^o` with `offset + 2^o ≤ 2^MAX_ORDER`, for the
order `o` recorded in the descriptor of the returned block; the same holds for
the head of every free block in every free list. -/
theorem alignment_reachable {s : State} {live : List Nat} (hr : Reach s live) :
    (∀ (size : Int) (a : Nat), (buddy_alloc s size).2 = some a →
      2 ^ ((buddy_alloc s size).1.g_pages (ADDR_TO_PAGE a)).order ∣ a ∧
      a + 2 ^ ((buddy_alloc s size).1.g_pages (ADDR_TO_PAGE a)).order ≤ 2 ^ MAX_ORDER) ∧
    (∀ k p, p ∈ s.free_area k →
      2 ^ (s.g_pages p).order ∣ (s.g_pages p).address ∧
      (s.g_pages p).address + 2 ^ (s.g_pages p).order ≤ 2 ^ MAX_ORDER) := by
  have iv := reach_inv hr
  constructor
  · intro size a ha
    rcases alloc_cases iv size with ⟨_, e⟩ | ⟨_, i, h, rest, _, _, _, _, hN, e, iv', eu, _⟩
    · rw [e] at ha; exact absurd ha (by simp)
    · rw [e] at ha
      have hah : h * PAGE_SIZE = a := by simpa using ha
      rw [← hah, addr_to_page_mul]
      exact head_aligned iv'.wf hN (Or.inr eu)
  · intro k p hp
    have hN := (iv.wf.mem k p hp).1
    rw [(iv.wf.ids p hN).2]
    exact head_aligned iv.wf hN (Or.inl ⟨k, hp⟩)

theorem alignment_reachable_witness :
    (∀ (size : Int) (a : Nat),
      (buddy_alloc (buddy_alloc (buddy_init zero_state) 5000).1 size).2 = some a →
      2 ^ ((buddy_alloc (buddy_alloc (buddy_init zero_state) 5000).1 size).1.g_pages
          (ADDR_TO_PAGE a)).order ∣ a ∧
      a + 2 ^ ((buddy_alloc (buddy_alloc (buddy_init zero_state) 5000).1 size).1.g_pages
          (ADDR_TO_PAGE a)).order ≤ 2 ^ MAX_ORDER) ∧
    (∀ k p, p ∈ (buddy_alloc (buddy_init zero_state) 5000).1.free_area k →
      2 ^ ((buddy_alloc (buddy_init zero_state) 5000).1.g_pages p).order ∣
        ((buddy_alloc (buddy_init zero_state) 5000).1.g_pages p).address ∧
      ((buddy_alloc (buddy_init zero_state) 5000).1.g_pages p).address +
        2 ^ ((buddy_alloc (buddy_init zero_state) 5000).1.g_pages p).order ≤ 2 ^ MAX_ORDER) :=
  alignment_reachable (Reach.alloc_ok 5000 0 (Reach.init zero_state) (by decide))

/-! ## C9: the free lists are well formed -/

/-- C9. In a reachable state every free list of an order `k` in
`[MIN_ORDER, MAX_ORDER]` is strictly ascending by page id, hence without
duplicates, and each of its descriptors has `used = 0` and `order = k`. -/
theorem free_lists_well_formed {s : State} {live : List Nat} (hr : Reach s live)
    (k : Nat) (hk1 : MIN_ORDER ≤ k) (hk2 : k ≤ MAX_ORDER) :
    (s.free_area k).Pairwise (fun p q => (s.g_pages p).id < (s.g_pages q).id) ∧
    (s.free_area k).Nodup ∧
    ∀ p, p ∈ s.free_area k → (s.g_pages p).used = 0 ∧ (s.g_pages p).order = k := by
  have _ := hk1
  have _ := hk2
  have iv := reach_inv hr
  refine ⟨?_, iv.sorted.nodup k, fun p hp => (iv.wf.mem k p hp).2⟩
  have hs := iv.sorted k
  refine List.Pairwise.imp_of_mem ?_ hs
  intro p q hp hq hlt
  rw [(iv.wf.ids p (iv.wf.mem k p hp).1).1, (iv.wf.ids q (iv.wf.mem k q hq).1).1]
  exact hlt

theorem free_lists_well_formed_witness :
    ((buddy_alloc (buddy_init zero_state) 5000).1.free_area 13).Pairwise
      (fun p q => ((buddy_alloc (buddy_init zero_state) 5000).1.g_pages p).id <
        ((buddy_alloc (buddy_init zero_state) 5000).1.g_pages q).id) ∧
    ((buddy_alloc (buddy_init zero_state) 5000).1.free_area 13).Nodup ∧
    ∀ p, p ∈ (buddy_alloc (buddy_init zero_state) 5000).1.free_area 13 →
      ((buddy_alloc (buddy_init zero_state) 5000).1.g_pages p).used = 0 ∧
      ((buddy_alloc (buddy_init zero_state) 5000).1.g_pages p).order = 13 :=
  free_lists_well_formed (Reach.alloc_ok 5000 0 (Reach.init zero_state) (by decide)) 13
    (by decide) (by decide)

/-! ## C10: the end-to-end scenario -/

/-- C10. After `buddy_init`, `a = buddy_alloc(5000)` is the order-13 block at
offset 0 and `b = buddy_alloc(5000)` is the order-13 block at offset 8192,
disjoint from `a`; the free-list counts for the orders 12..20 are then
0,0,1,1,1,1,1,1,0; after `buddy_free(a)` and `buddy_free(b)` they are
0,0,0,0,0,0,0,0,1. -/
theorem end_to_end_scenario :
    (buddy_alloc (buddy_init zero_state) 5000).2 = some 0 ∧
    ((buddy_alloc (buddy_init zero_state) 5000).1.g_pages (ADDR_TO_PAGE 0)).order = 13 ∧
    ((buddy_alloc (buddy_init zero_state) 5000).1.g_pages (ADDR_TO_PAGE 0)).used = 1 ∧
    (buddy_alloc (buddy_alloc (buddy_init zero_state) 5000).1 5000).2 = some 8192 ∧
    ((buddy_alloc (buddy_alloc (buddy_init zero_state) 5000).1 5000).1.g_pages
      (ADDR_TO_PAGE 8192)).order = 13 ∧
    ((buddy_alloc (buddy_alloc (buddy_init zero_state) 5000).1 5000).1.g_pages
      (ADDR_TO_PAGE 8192)).used = 1 ∧
    ((buddy_alloc (buddy_alloc (buddy_init zero_state) 5000).1 5000).1.g_pages
      (ADDR_TO_PAGE 0)).order = 13 ∧
    ((buddy_alloc (buddy_alloc (buddy_init zero_state) 5000).1 5000).1.g_pages
      (ADDR_TO_PAGE 0)).used = 1 ∧
    0 + 2 ^ 13 ≤ 8192 ∧
    buddy_dump (buddy_alloc (buddy_alloc (buddy_init zero_state) 5000).1 5000).1 =
      [(0, 4), (0, 8), (1, 16), (1, 32), (1, 64), (1, 128), (1, 256), (1, 512), (0, 1024)] ∧
    buddy_dump
        (buddy_free
          (buddy_free (buddy_alloc (buddy_alloc (buddy_init zero_state) 5000).1 5000).1 0)
          8192) =
      [(0, 4), (0, 8), (0, 16), (0, 32), (0, 64), (0, 128), (0, 256), (0, 512), (1, 1024)] ∧
    (buddy_free
      (buddy_free (buddy_alloc (buddy_alloc (buddy_init zero_state) 5000).1 5000).1 0)
      8192).free_area MAX_ORDER = [0] := by
  decide

/-! ## C6: full coalescence -/

theorem dvd_step {D a b : Nat} (ha : D ∣ a) (hb : D ∣ b) (h : a < b) : a + D ≤ b := by
  obtain ⟨x, rfl⟩ := ha
  obtain ⟨y, rfl⟩ := hb
  have hxy : x < y := Nat.lt_of_mul_lt_mul_left h
  calc D * x + D = D * (x + 1) := by ring
    _ ≤ D * y := Nat.mul_le_mul_left D hxy

theorem eq_singleton_zero {l : List Nat} (hn : l.Nodup) (h0 : 0 ∈ l) (hall : ∀ x ∈ l, x = 0) :
    l = [0] := by
  cases l with
  | nil => exact absurd h0 (List.not_mem_nil _)
  | cons a t =>
    have ha : a = 0 := hall a (List.mem_cons_self _ _)
    subst ha
    cases t with
    | nil => rfl
    | cons b t' =>
      have hb : b = 0 := hall b (List.mem_cons_of_mem _ (List.mem_cons_self _ _))
      subst hb
      exact absurd (List.mem_cons_self _ _) (List.nodup_cons.1 hn).1

/-- With no used block and no pair of free buddies, no free list below
`MAX_ORDER` has a member. -/
theorem lower_lists_empty {s : State} (w : Wf s) (nb : NoBuddy s)
    (hu : ∀ i, i < n_pages → (s.g_pages i).used ≠ 1) :
    ∀ k, k < MAX_ORDER → s.free_area k = [] := by
  intro k
  induction k using Nat.strong_induction_on with
  | _ k ih =>
    intro hk2
    rw [List.eq_nil_iff_forall_not_mem]
    intro y hy
    obtain ⟨yN, _, yo⟩ := w.mem k y hy
    have hk1 : MIN_ORDER ≤ k := yo ▸ (w.ord y yN).1
    have yh : is_head s y := Or.inl ⟨k, hy⟩
    have hal : 2 ^ (k - MIN_ORDER) ∣ y := yo ▸ w.align y yN yh
    have hS := pow_pos2 (k - MIN_ORDER)
    obtain ⟨bN, hc⟩ := buddy_cases hk1 hk2 yN hal
    generalize ADDR_TO_PAGE (BUDDY_ADDR (y * PAGE_SIZE) k) = y' at bN hc
    -- the head of the block that holds the buddy page
    obtain ⟨h', hN', hh', c1, c2⟩ := w.cover y' bN
    obtain ⟨k', hm'⟩ : ∃ k', h' ∈ s.free_area k' := by
      rcases hh' with e | e
      · exact e
      · exact absurd e (hu h' hN')
    have ho' := (w.mem k' h' hm').2.2
    have hk' : k ≤ k' := by
      by_contra hlt
      have := ih k' (by omega) (by omega)
      rw [this] at hm'
      exact absurd hm' (List.not_mem_nil _)
    have hk'2 : k' ≤ MAX_ORDER := ho' ▸ (w.ord h' hN').2
    have hal' : 2 ^ (k' - MIN_ORDER) ∣ h' := ho' ▸ w.align h' hN' hh'
    rw [blk_pages_eq ho'] at c2
    have hal2 : 2 ^ (k - MIN_ORDER) ∣ y' := by
      rcases hc with ⟨d, e⟩ | ⟨d, e⟩
      · rw [e]; exact Dvd.dvd.add hal (dvd_refl _)
      · exact Dvd.dvd.trans (Dvd.intro_left 2 rfl) d
    rcases Nat.eq_or_lt_of_le hk' with e | hlt
    · -- the buddy is a free block of order `k`
      subst e
      have : h' = y' := by
        by_contra hne
        have := dvd_step hal' hal2 (by omega)
        omega
      subst this
      rcases hc with ⟨d, e⟩ | ⟨d, e⟩
      · exact nb k y hk1 hk2 d hy (e ▸ hm')
      · exact nb k h' hk1 hk2 d hm' (e ▸ hy)
    · -- the buddy lies in a larger free block, which then also holds `y`
      have hD : 2 * 2 ^ (k - MIN_ORDER) ∣ 2 ^ (k' - MIN_ORDER) := by
        rw [← pow_succ_sub hk1]
        exact pow_dvd_pow 2 (by omega)
      have hDh : 2 * 2 ^ (k - MIN_ORDER) ∣ h' := Dvd.dvd.trans hD hal'
      have hDe : 2 * 2 ^ (k - MIN_ORDER) ∣ h' + 2 ^ (k' - MIN_ORDER) := Dvd.dvd.add hDh hD
      have hne : y ≠ h' := by
        intro e; rw [← e, yo] at ho'; omega
      have inside : h' ≤ y ∧ y < h' + 2 ^ (k' - MIN_ORDER) := by
        rcases hc with ⟨d, e⟩ | ⟨d, e⟩
        · have a1 : h' ≤ y := by
            by_contra hlt'
            have := dvd_step d hDh (by omega)
            omega
          have a2 := dvd_step d hDe (by omega)
          omega
        · have a1 : h' ≤ y' := c1
          have a2 := dvd_step d hDe (by omega)
          omega
      rcases Nat.lt_or_gt_of_ne hne with c | c
      · omega
      · have := w.disj h' y hN' yN hh' yh c
        rw [blk_pages_eq ho'] at this
        omega

/-- With no used block and no pair of free buddies the free lists are the
initial ones. -/
theorem coalesced_of_no_used {s : State} (w : Wf s) (so : Sorted s) (nb : NoBuddy s)
    (hu : ∀ i, i < n_pages → (s.g_pages i).used ≠ 1) :
    s.free_area MAX_ORDER = [0] ∧ ∀ k, k ≠ MAX_ORDER → s.free_area k = [] := by
  have low := lower_lists_empty w nb hu
  have high : ∀ k, MAX_ORDER < k → s.free_area k = [] := by
    intro k hk
    rw [List.eq_nil_iff_forall_not_mem]
    intro y hy
    obtain ⟨yN, _, yo⟩ := w.mem k y hy
    have := (w.ord y yN).2
    omega
  refine ⟨?_, ?_⟩
  · have h0 : (0 : Nat) < n_pages := by decide
    obtain ⟨h, hN, hh, c1, _⟩ := w.cover 0 h0
    have e0 : h = 0 := by omega
    subst e0
    have m0 : 0 ∈ s.free_area MAX_ORDER := by
      rcases hh with ⟨k, hk⟩ | e
      · rcases Nat.lt_trichotomy k MAX_ORDER with c | c | c
        · rw [low k c] at hk; exact absurd hk (List.not_mem_nil _)
        · rw [← c]; exact hk
        · rw [high k c] at hk; exact absurd hk (List.not_mem_nil _)
      · exact absurd e (hu 0 hN)
    refine eq_singleton_zero (so.nodup _) m0 ?_
    intro y hy
    obtain ⟨yN, _, yo⟩ := w.mem _ y hy
    have hal := w.align y yN (Or.inl ⟨_, hy⟩)
    rw [yo] at hal
    rw [n_pages_eq] at yN
    have : 2 ^ (MAX_ORDER - MIN_ORDER) = 256 := by decide
    rw [this] at hal
    exact Nat.eq_zero_of_dvd_of_lt hal yN
  · intro k hk
    rcases Nat.lt_or_gt_of_ne hk with c | c
    · exact low k c
    · exact high k c

/-- C6. In a reachable state in which no descriptor is marked used, the free
lists are the initial ones: `free_area[MAX_ORDER]` holds page 0 only and every
list of a lower order is empty. -/
theorem full_coalescence {s : State} {live : List Nat} (hr : Reach s live)
    (hu : ∀ i, i < n_pages → (s.g_pages i).used ≠ 1) :
    s.free_area MAX_ORDER = [0] ∧
    ∀ k, MIN_ORDER ≤ k → k < MAX_ORDER → s.free_area k = [] := by
  have iv := reach_inv hr
  obtain ⟨h1, h2⟩ := coalesced_of_no_used iv.wf iv.sorted iv.nobuddy hu
  exact ⟨h1, fun k _ hk => h2 k (by omega)⟩

set_option maxRecDepth 100000 in
theorem full_coalescence_witness :
    (buddy_free (buddy_free (buddy_alloc (buddy_alloc (buddy_init zero_state) 5000).1 70000).1
        131072) 0).free_area MAX_ORDER = [0] ∧
    ∀ k, MIN_ORDER ≤ k → k < MAX_ORDER →
      (buddy_free (buddy_free (buddy_alloc (buddy_alloc (buddy_init zero_state) 5000).1 70000).1
        131072) 0).free_area k = [] :=
  full_coalescence
    (Reach.free 0
      (Reach.free 131072
        (Reach.alloc_ok 70000 131072
          (Reach.alloc_ok 5000 0 (Reach.init zero_state) (by decide)) (by decide))
        (by decide))
      (by decide))
    (by decide)

/-! ## C5: allocation followed by release, from the initial state -/

/-- C5. From the state produced by `buddy_init`, for `1 ≤ x ≤ 2^MAX_ORDER`,
`buddy_alloc(x)` succeeds and `buddy_free` of its result leaves every free
list as it was before the allocation: `free_area[MAX_ORDER]` holds page 0
only, every other list is empty. -/
theorem alloc_free_inverse (s0 : State) (x : Int) (h1 : 1 ≤ x)
    (h2 : x ≤ ((2 ^ MAX_ORDER : Nat) : Int)) :
    ∃ a, (buddy_alloc (buddy_init s0) x).2 = some a ∧
      (∀ k, (buddy_free (buddy_alloc (buddy_init s0) x).1 a).free_area k =
        (buddy_init s0).free_area k) ∧
      (buddy_init s0).free_area MAX_ORDER = [0] ∧
      (∀ k, k ≠ MAX_ORDER → (buddy_init s0).free_area k = []) := by
  have _ := h1
  have i1 : (buddy_init s0).free_area MAX_ORDER = [0] := by rw [init_free_area, if_pos rfl]
  have i2 : ∀ k, k ≠ MAX_ORDER → (buddy_init s0).free_area k = [] := by
    intro k hk; rw [init_free_area, if_neg hk]
  have hsh : (1 <<< MAX_ORDER : Nat) = 2 ^ MAX_ORDER := by decide
  rcases alloc_cases (init_inv s0) x with ⟨c, _⟩ | ⟨_, i, h, rest, _, _, _, _, hN, e, iv, _, _⟩
  · exfalso
    rcases c with c | c
    · rw [hsh] at c; omega
    · have := c MAX_ORDER (target_order_spec x).2.1 (le_refl _)
      rw [i1] at this
      exact absurd this (by simp)
  · refine ⟨h * PAGE_SIZE, e, ?_, i1, i2⟩
    have iv' := free_inv iv (List.mem_cons_self _ _)
    have hnil : (h * PAGE_SIZE :: ([] : List Nat)).erase (h * PAGE_SIZE) = [] := by simp
    rw [hnil] at iv'
    have hu : ∀ i, i < n_pages →
        ((buddy_free (buddy_alloc (buddy_init s0) x).1 (h * PAGE_SIZE)).g_pages i).used ≠ 1 := by
      intro i hi hc
      have := (iv'.live.2 (i * PAGE_SIZE)).2 ⟨i, hi, hc, rfl⟩
      exact absurd this (List.not_mem_nil _)
    obtain ⟨f1, f2⟩ := coalesced_of_no_used iv'.wf iv'.sorted iv'.nobuddy hu
    intro k
    by_cases hk : k = MAX_ORDER
    · rw [hk, f1, i1]
    · rw [f2 k hk, i2 k hk]

theorem alloc_free_inverse_witness :
    ∃ a, (buddy_alloc (buddy_init zero_state) 5000).2 = some a ∧
      (∀ k, (buddy_free (buddy_alloc (buddy_init zero_state) 5000).1 a).free_area k =
        (buddy_init zero_state).free_area k) ∧
      (buddy_init zero_state).free_area MAX_ORDER = [0] ∧
      (∀ k, k ≠ MAX_ORDER → (buddy_init zero_state).free_area k = []) :=
  alloc_free_inverse zero_state 5000 (by decide) (by decide)

/-! ## C7: conservation -/

theorem list_bytes_eq {s : State} (w : Wf s) (so : Sorted s) (k : Nat) :
    ((s.free_area k).map fun p => 2 ^ (s.g_pages p).order).sum =
      Finset.sum (Finset.range n_pages) fun i => if i ∈ s.free_area k then 2 ^ k else 0 := by
  have e1 : ((s.free_area k).map fun p => 2 ^ (s.g_pages p).order) =
      (s.free_area k).map fun _ => 2 ^ k :=
    List.map_congr_left (fun p hp => by rw [(w.mem k p hp).2.2])
  have e2 : (s.free_area k).toFinset =
      (Finset.range n_pages).filter (fun i => i ∈ s.free_area k) := by
    ext x
    simp only [List.mem_toFinset, Finset.mem_filter, Finset.mem_range]
    exact ⟨fun hx => ⟨(w.mem k x hx).1, hx⟩, fun hx => hx.2⟩
  rw [e1, ← List.sum_toFinset _ (so.nodup k), e2, Finset.sum_filter]

theorem free_bytes_eq {s : State} (w : Wf s) (so : Sorted s) :
    free_bytes s = Finset.sum (Finset.range n_pages) fun i =>
      if i ∈ s.free_area (s.g_pages i).order then 2 ^ (s.g_pages i).order else 0 := by
  unfold free_bytes
  simp only [list_bytes_eq w so]
  rw [Finset.sum_comm]
  apply Finset.sum_congr rfl
  intro i hi
  have hN : i < n_pages := Finset.mem_range.1 hi
  have hm : (s.g_pages i).order ∈ Finset.Icc MIN_ORDER MAX_ORDER :=
    Finset.mem_Icc.2 (w.ord i hN)
  rw [Finset.sum_eq_single_of_mem _ hm]
  intro k _ hk
  rw [if_neg]
  intro hc
  exact hk (w.mem k i hc).2.2.symm

/-- The bytes of the free and of the used blocks, counted head by head. -/
theorem bytes_by_head {s : State} (w : Wf s) (so : Sorted s) :
    free_bytes s + used_bytes s = Finset.sum (Finset.range n_pages) fun i =>
      if i ∈ s.free_area (s.g_pages i).order ∨ (s.g_pages i).used = 1
      then 2 ^ (s.g_pages i).order else 0 := by
  rw [free_bytes_eq w so]
  unfold used_bytes
  rw [← Finset.sum_add_distrib]
  apply Finset.sum_congr rfl
  intro i _
  by_cases h1 : i ∈ s.free_area (s.g_pages i).order
  · have h2 : (s.g_pages i).used ≠ 1 := by
      have := (w.mem _ i h1).2.1
      omega
    rw [if_pos h1, if_neg h2, if_pos (Or.inl h1)]
    rfl
  · by_cases h2 : (s.g_pages i).used = 1
    · rw [if_neg h1, if_pos h2, if_pos (Or.inr h2)]
      exact Nat.zero_add _
    · rw [if_neg h1, if_neg h2, if_neg (by tauto)]

theorem head_iff_dec {s : State} (w : Wf s) (i : Nat) :
    (i ∈ s.free_area (s.g_pages i).order ∨ (s.g_pages i).used = 1) ↔ is_head s i := by
  constructor
  · rintro (h | h)
    · exact Or.inl ⟨_, h⟩
    · exact Or.inr h
  · rintro (⟨k, h⟩ | h)
    · left; rw [(w.mem k i h).2.2]; exact h
    · exact Or.inr h

theorem count_block (i b : Nat) (hb : i + b ≤ n_pages) :
    (Finset.sum (Finset.range n_pages) fun p => if i ≤ p ∧ p < i + b then PAGE_SIZE else 0)
      = b * PAGE_SIZE := by
  rw [← Finset.sum_filter]
  have : (Finset.range n_pages).filter (fun p => i ≤ p ∧ p < i + b) = Finset.Ico i (i + b) := by
    ext x
    simp only [Finset.mem_filter, Finset.mem_range, Finset.mem_Ico]
    constructor
    · intro h; exact h.2
    · intro h; exact ⟨by omega, h⟩
  rw [this, Finset.sum_const, Nat.card_Ico, smul_eq_mul]
  congr 1
  omega

theorem conservation_of_wf {s : State} (w : Wf s) (so : Sorted s) :
    free_bytes s + used_bytes s = 2 ^ MAX_ORDER := by
  rw [bytes_by_head w so]
  have step1 : ∀ i, i ∈ Finset.range n_pages →
      (if i ∈ s.free_area (s.g_pages i).order ∨ (s.g_pages i).used = 1
        then 2 ^ (s.g_pages i).order else 0) =
      Finset.sum (Finset.range n_pages) fun p =>
        if (i ∈ s.free_area (s.g_pages i).order ∨ (s.g_pages i).used = 1) ∧
            (i ≤ p ∧ p < i + blk_pages s i) then PAGE_SIZE else 0 := by
    intro i hi
    have hN : i < n_pages := Finset.mem_range.1 hi
    by_cases hh : i ∈ s.free_area (s.g_pages i).order ∨ (s.g_pages i).used = 1
    · rw [if_pos hh]
      simp only [hh, true_and]
      obtain ⟨k1, k2⟩ := w.ord i hN
      have hd := w.align i hN ((head_iff_dec w i).1 hh)
      have hb : i + blk_pages s i ≤ n_pages := block_bound k1 k2 hN hd
      rw [count_block i _ hb]
      unfold blk_pages
      have : PAGE_SIZE = 2 ^ MIN_ORDER := by decide
      rw [this, ← pow_add]
      congr 1
      omega
    · rw [if_neg hh]
      simp only [hh, false_and, if_false, Finset.sum_const_zero]
  rw [Finset.sum_congr rfl step1, Finset.sum_comm]
  have step2 : ∀ p, p ∈ Finset.range n_pages →
      (Finset.sum (Finset.range n_pages) fun i =>
        if (i ∈ s.free_area (s.g_pages i).order ∨ (s.g_pages i).used = 1) ∧
            (i ≤ p ∧ p < i + blk_pages s i) then PAGE_SIZE else 0) = PAGE_SIZE := by
    intro p hp
    have hN : p < n_pages := Finset.mem_range.1 hp
    obtain ⟨h, hhN, hh, c1, c2⟩ := w.cover p hN
    rw [Finset.sum_eq_single_of_mem h (Finset.mem_range.2 hhN)]
    · rw [if_pos ⟨(head_iff_dec w h).2 hh, c1, c2⟩]
    · intro y hy hne
      have yN : y < n_pages := Finset.mem_range.1 hy
      rw [if_neg]
      rintro ⟨yh, d1, d2⟩
      have yh' := (head_iff_dec w y).1 yh
      rcases Nat.lt_or_gt_of_ne hne with c | c
      · have := w.disj y h yN hhN yh' hh c; omega
      · have := w.disj h y hhN yN hh yh' c; omega
  rw [Finset.sum_congr rfl step2, Finset.sum_const, Finset.card_range]
  decide

/-- C7. In every reachable state the sum of `2^order` over the members of the
free lists plus the sum of `2^order` over the descriptors with `used = 1`
equals `2^MAX_ORDER`. -/
theorem conservation {s : State} {live : List Nat} (hr : Reach s live) :
    free_bytes s + used_bytes s = 2 ^ MAX_ORDER := by
  have iv := reach_inv hr
  exact conservation_of_wf iv.wf iv.sorted

theorem conservation_witness :
    free_bytes (buddy_alloc (buddy_init zero_state) 5000).1 +
      used_bytes (buddy_alloc (buddy_init zero_state) 5000).1 = 2 ^ MAX_ORDER :=
  conservation (Reach.alloc_ok 5000 0 (Reach.init zero_state) (by decide))

/-! ## C4: merging with a free buddy -/

/-- Rounding down to a multiple of the block size, in pages and in bytes. -/
theorem round_down_bytes {t h j : Nat} (hd : 2 ^ j ∣ t) (h1 : t ≤ h) (h2 : h < t + 2 ^ j) :
    t * PAGE_SIZE = (h * PAGE_SIZE) / (2 ^ j * PAGE_SIZE) * (2 ^ j * PAGE_SIZE) := by
  have hP : 0 < PAGE_SIZE := by decide
  have hS := pow_pos2 j
  rw [Nat.mul_div_mul_right _ _ hP]
  obtain ⟨q, rfl⟩ := hd
  have : h / 2 ^ j = q := by
    apply Nat.div_eq_of_lt_le
    · rw [Nat.mul_comm]; exact h1
    · rw [Nat.succ_mul, Nat.mul_comm]; exact h2
  rw [this]
  ring

theorem pow_order_bytes {k : Nat} (hk : MIN_ORDER ≤ k) :
    2 ^ k = 2 ^ (k - MIN_ORDER) * PAGE_SIZE := by
  have : PAGE_SIZE = 2 ^ MIN_ORDER := by decide
  rw [this, ← pow_add]
  congr 1
  omega

/-- C4. In a reachable state let `A` be an allocated block of order
`o < MAX_ORDER` whose buddy `B` at order `o` is a member of the order-`o` free
list. After `buddy_free(A)` neither `A` nor `B` is in the order-`o` list, and
both lie in one free block of an order `k ≥ o+1` whose head address is
`min(addr A, addr B)` rounded down to a multiple of `2^k`. When the buddy of
the merged block at order `o+1` is not in the order-`(o+1)` list, the outcome
is the one free block of order `o+1` at `min(addr A, addr B)`: the free lists
are the old ones without `B` and with that block in list `o+1`. -/
theorem merge_correct {s : State} {live : List Nat} (hr : Reach s live) (a : Nat)
    (ha : a ∈ live) (o : Nat) (ho : (s.g_pages (ADDR_TO_PAGE a)).order = o)
    (holt : o < MAX_ORDER)
    (hB : buddy_id s.g_pages (ADDR_TO_PAGE a) ∈ s.free_area o) :
    ADDR_TO_PAGE a ∉ (buddy_free s a).free_area o ∧
    buddy_id s.g_pages (ADDR_TO_PAGE a) ∉ (buddy_free s a).free_area o ∧
    (∃ k h, o + 1 ≤ k ∧ k ≤ MAX_ORDER ∧ h ∈ (buddy_free s a).free_area k ∧
      ((buddy_free s a).g_pages h).order = k ∧ ((buddy_free s a).g_pages h).used = 0 ∧
      ((buddy_free s a).g_pages h).address =
        (min a (s.g_pages (buddy_id s.g_pages (ADDR_TO_PAGE a))).address) / 2 ^ k * 2 ^ k ∧
      ((buddy_free s a).g_pages h).address ≤ a ∧
      a + 2 ^ o ≤ ((buddy_free s a).g_pages h).address + 2 ^ k ∧
      ((buddy_free s a).g_pages h).address ≤
        (s.g_pages (buddy_id s.g_pages (ADDR_TO_PAGE a))).address ∧
      (s.g_pages (buddy_id s.g_pages (ADDR_TO_PAGE a))).address + 2 ^ o ≤
        ((buddy_free s a).g_pages h).address + 2 ^ k) ∧
    (ADDR_TO_PAGE (BUDDY_ADDR
        (min a (s.g_pages (buddy_id s.g_pages (ADDR_TO_PAGE a))).address) (o + 1))
        ∉ s.free_area (o + 1) →
      ((buddy_free s a).g_pages (ADDR_TO_PAGE
        (min a (s.g_pages (buddy_id s.g_pages (ADDR_TO_PAGE a))).address))).order = o + 1 ∧
      ((buddy_free s a).g_pages (ADDR_TO_PAGE
        (min a (s.g_pages (buddy_id s.g_pages (ADDR_TO_PAGE a))).address))).used = 0 ∧
      ((buddy_free s a).g_pages (ADDR_TO_PAGE
        (min a (s.g_pages (buddy_id s.g_pages (ADDR_TO_PAGE a))).address))).address =
        min a (s.g_pages (buddy_id s.g_pages (ADDR_TO_PAGE a))).address ∧
      ∀ k x, x ∈ (buddy_free s a).free_area k ↔
        ((x ∈ s.free_area k ∧ x ≠ buddy_id s.g_pages (ADDR_TO_PAGE a)) ∨
          (k = o + 1 ∧ x = ADDR_TO_PAGE
            (min a (s.g_pages (buddy_id s.g_pages (ADDR_TO_PAGE a))).address)))) := by
  have iv := reach_inv hr
  obtain ⟨A, hN, hu, rfl⟩ := (iv.live.2 a).1 ha
  rw [buddy_free_eq]
  rw [addr_to_page_mul] at ho hB ⊢
  subst ho
  have hP : 0 < PAGE_SIZE := by decide
  generalize hBd : buddy_id s.g_pages A = B at *
  obtain ⟨BN, Bu, Bo⟩ := iv.wf.mem _ B hB
  have hBaddr := (iv.wf.ids B BN).2
  have hAB : A ≠ B := by intro e; rw [e] at hu; omega
  -- the state in front of the loop
  obtain ⟨fl, so1⟩ := freed_flip iv.wf iv.sorted hN hu
  have w1 := fl.flip_fwd iv.wf
  have nb1 := fl.flip_nb_fwd iv.nobuddy
  have hbid1 : buddy_id (freed s A).g_pages A = B := by
    rw [← hBd]; unfold buddy_id freed; simp
  have mA1 : A ∈ (freed s A).free_area (s.g_pages A).order := (fl.mem_h' _).2 rfl
  have mB1 : B ∈ (freed s A).free_area (s.g_pages A).order :=
    (fl.mem_other _ B (Ne.symm hAB)).2 hB
  have oA1 : ((freed s A).g_pages A).order = (s.g_pages A).order := fl.same_order A
  have hc1 : merge_cond (freed s A) A B :=
    ⟨by rw [oA1]; exact holt, (w1.mem _ B mB1).2.1, by rw [oA1, (w1.mem _ B mB1).2.2]⟩
  have hk1 : MIN_ORDER ≤ (s.g_pages A).order := (iv.wf.ord A hN).1
  -- the first iteration joins A and B
  obtain ⟨h, b, hAh, hhN, hd, hb, mh, mb, e⟩ :=
    merge_step_eq w1 hN oA1 holt mA1 (by rw [hbid1]; exact (w1.mem _ B mB1).2.1)
      (by rw [hbid1]; exact (w1.mem _ B mB1).2.2)
  rw [hbid1] at hAh e
  obtain ⟨sp, so2⟩ := merged_split w1 so1 hk1 holt hhN hd hb mh mb
  have w2 := sp.bwd w1
  have nb2 : NoBuddyExcept (merged (freed s A) h b (s.g_pages A).order) h :=
    sp.nb_bwd (x := A) (hAh.imp (fun x => x.1) (fun x => x.1)) nb1
  have hS := pow_pos2 ((s.g_pages A).order - MIN_ORDER)
  have hmin : min (A * PAGE_SIZE) (s.g_pages B).address = h * PAGE_SIZE := by
    rw [hBaddr]
    rcases hAh with ⟨e1, e2⟩ | ⟨e1, e2⟩
    · rw [← e1, e2]
      exact Nat.min_eq_left (Nat.mul_le_mul_right _ (by omega))
    · rw [e1, e2]
      exact Nat.min_eq_right (Nat.mul_le_mul_right _ (by omega))
  rw [hmin, addr_to_page_mul, hBaddr]
  have hmax : MAX_ORDER = 19 + 1 := rfl
  rw [hbid1, hmax, merge_loop_succ hc1, e]
  simp only []
  have oh2 : ((merged (freed s A) h b (s.g_pages A).order).g_pages h).order
      = (s.g_pages A).order + 1 := sp.ord_h
  have mh2 : h ∈ (merged (freed s A) h b (s.g_pages A).order).free_area
      ((merged (freed s A) h b (s.g_pages A).order).g_pages h).order := by
    rw [oh2]; exact (sp.mem_h _).2 rfl
  obtain ⟨r1, r2, r3, r4, tf, t1, t2, t3, t4, t5⟩ :=
    merge_loop_inv 19 (merged (freed s A) h b (s.g_pages A).order) h w2 so2 nb2 hhN mh2
      (by rw [oh2]; unfold MAX_ORDER at *; omega)
  rw [sp.blk_h] at t5
  rw [oh2] at t3
  -- the final state and its block `tf`
  generalize hfin : merge_loop 19 (merged (freed s A) h b (s.g_pages A).order) h
      (buddy_id (merged (freed s A) h b (s.g_pages A).order).g_pages h) = r at *
  obtain ⟨_, tu, _⟩ := r1.mem _ tf t2
  obtain ⟨tk1, tk2⟩ := r1.ord tf t1
  have tal := r1.align tf t1 (Or.inl ⟨_, t2⟩)
  have tad := (r1.ids tf t1).2
  have hbr : blk_pages r tf = 2 ^ ((r.g_pages tf).order - MIN_ORDER) := rfl
  rw [hbr] at t5
  have hABin : tf ≤ A ∧ A + 2 ^ ((s.g_pages A).order - MIN_ORDER)
        ≤ tf + 2 ^ ((r.g_pages tf).order - MIN_ORDER) ∧
      tf ≤ B ∧ B + 2 ^ ((s.g_pages A).order - MIN_ORDER)
        ≤ tf + 2 ^ ((r.g_pages tf).order - MIN_ORDER) := by
    rcases hAh with ⟨e1, e2⟩ | ⟨e1, e2⟩ <;> omega
  have notin : ∀ x, tf ≤ x → x + 2 ^ ((s.g_pages A).order - MIN_ORDER)
      ≤ tf + 2 ^ ((r.g_pages tf).order - MIN_ORDER) → x < n_pages →
      x ∉ r.free_area (s.g_pages A).order := by
    intro x x1 x2 xN hx
    have xo := (r1.mem _ x hx).2.2
    have hne : x ≠ tf := by intro e'; rw [e'] at xo; omega
    have := r1.disj tf x t1 xN (Or.inl ⟨_, t2⟩) (Or.inl ⟨_, hx⟩) (by omega)
    rw [hbr] at this
    omega
  refine ⟨notin A hABin.1 hABin.2.1 hN, notin B hABin.2.2.1 hABin.2.2.2 BN, ?_, ?_⟩
  · refine ⟨(r.g_pages tf).order, tf, t3, tk2, t2, rfl, tu, ?_, ?_, ?_, ?_, ?_⟩
    · rw [tad, pow_order_bytes tk1]
      exact round_down_bytes tal t4 (by omega)
    · rw [tad]; exact Nat.mul_le_mul_right _ hABin.1
    · rw [tad, pow_order_bytes tk1, pow_order_bytes hk1, ← Nat.add_mul, ← Nat.add_mul]
      exact Nat.mul_le_mul_right _ hABin.2.1
    · rw [tad]; exact Nat.mul_le_mul_right _ hABin.2.2.1
    · rw [tad, pow_order_bytes tk1, pow_order_bytes hk1, ← Nat.add_mul, ← Nat.add_mul]
      exact Nat.mul_le_mul_right _ hABin.2.2.2
  · intro hnot
    -- the loop stops after the first iteration
    have hstop : ¬ merge_cond (merged (freed s A) h b (s.g_pages A).order) h
        (buddy_id (merged (freed s A) h b (s.g_pages A).order).g_pages h) := by
      rintro ⟨c1, c2, c3⟩
      rw [oh2] at c1 c3
      have hal2 := w2.align h hhN (Or.inl ⟨_, mh2⟩)
      rw [oh2] at hal2
      have hbe : buddy_id (merged (freed s A) h b (s.g_pages A).order).g_pages h =
          ADDR_TO_PAGE (BUDDY_ADDR (h * PAGE_SIZE) ((s.g_pages A).order + 1)) := by
        unfold buddy_id; rw [(w2.ids h hhN).2, oh2]
      rw [hbe] at c2 c3
      obtain ⟨bN', hcs⟩ := buddy_cases (by omega) c1 hhN hal2
      generalize ADDR_TO_PAGE (BUDDY_ADDR (h * PAGE_SIZE) ((s.g_pages A).order + 1)) = b' at *
      have m' := w2.inactive b' bN' c2 (by rw [← c3]; exact c1)
      rw [← c3] at m'
      have hS2 := pow_pos2 ((s.g_pages A).order + 1 - MIN_ORDER)
      have n1 : b' ≠ h := by rcases hcs with ⟨_, e'⟩ | ⟨_, e'⟩ <;> omega
      have n2 : b' ≠ b := fun e' => sp.mem_b _ (e' ▸ m')
      have m1 := (sp.mem_other _ b' n1 n2).2 m'
      have n3 : b' ≠ A := by
        rcases hAh with ⟨e1, _⟩ | ⟨e1, _⟩
        · rw [e1]; exact n1
        · rw [e1]; exact n2
      exact hnot ((fl.mem_other _ b' n3).1 m1)
    have hr' : r = merged (freed s A) h b (s.g_pages A).order := by
      rw [← hfin]
      exact merge_loop_stop hstop
    rw [hr']
    refine ⟨oh2, sp.used_h, (w2.ids h hhN).2, ?_⟩
    intro k x
    have hAk := fl.mem_h k
    have keyh : ¬ (h ∈ s.free_area k ∧ h ≠ B) := by
      rcases hAh with ⟨e1, _⟩ | ⟨_, e2⟩
      · rintro ⟨c, _⟩; rw [← e1] at c; exact hAk c
      · rintro ⟨_, c⟩; exact c e2.symm
    have keyb : ¬ (b ∈ s.free_area k ∧ b ≠ B) := by
      rcases hAh with ⟨_, e2⟩ | ⟨e1, _⟩
      · rintro ⟨_, c⟩; exact c e2.symm
      · rintro ⟨c, _⟩; rw [← e1] at c; exact hAk c
    by_cases x1 : x = h
    · rw [x1, sp.mem_h]
      constructor
      · intro hk; exact Or.inr ⟨hk, rfl⟩
      · rintro (c | ⟨c, _⟩)
        · exact absurd c keyh
        · exact c
    · by_cases x2 : x = b
      · rw [x2]
        constructor
        · intro c; exact absurd c (sp.mem_b k)
        · rintro (c | ⟨_, c⟩)
          · exact absurd c keyb
          · omega
      · have x3 : x ≠ A := by
          rcases hAh with ⟨e1, _⟩ | ⟨e1, _⟩
          · rw [e1]; exact x1
          · rw [e1]; exact x2
        have x4 : x ≠ B := by
          rcases hAh with ⟨_, e2⟩ | ⟨_, e2⟩
          · rw [e2]; exact x2
          · rw [e2]; exact x1
        rw [← sp.mem_other k x x1 x2, fl.mem_other k x x3]
        constructor
        · intro c; exact Or.inl ⟨c, x4⟩
        · rintro (⟨c, _⟩ | ⟨_, c⟩)
          · exact c
          · exact absurd c x1

theorem merge_correct_witness :
    ADDR_TO_PAGE 8192 ∉ (buddy_free three_pages_state 8192).free_area 12 ∧
    buddy_id three_pages_state.g_pages (ADDR_TO_PAGE 8192) ∉ (buddy_free three_pages_state 8192).free_area 12 ∧
    (∃ k h, 12 + 1 ≤ k ∧ k ≤ MAX_ORDER ∧ h ∈ (buddy_free three_pages_state 8192).free_area k ∧
      ((buddy_free three_pages_state 8192).g_pages h).order = k ∧ ((buddy_free three_pages_state 8192).g_pages h).used = 0 ∧
      ((buddy_free three_pages_state 8192).g_pages h).address =
        (min 8192 (three_pages_state.g_pages (buddy_id three_pages_state.g_pages (ADDR_TO_PAGE 8192))).address) / 2 ^ k * 2 ^ k ∧
      ((buddy_free three_pages_state 8192).g_pages h).address ≤ 8192 ∧
      8192 + 2 ^ 12 ≤ ((buddy_free three_pages_state 8192).g_pages h).address + 2 ^ k ∧
      ((buddy_free three_pages_state 8192).g_pages h).address ≤
        (three_pages_state.g_pages (buddy_id three_pages_state.g_pages (ADDR_TO_PAGE 8192))).address ∧
      (three_pages_state.g_pages (buddy_id three_pages_state.g_pages (ADDR_TO_PAGE 8192))).address + 2 ^ 12 ≤
        ((buddy_free three_pages_state 8192).g_pages h).address + 2 ^ k) ∧
    (ADDR_TO_PAGE (BUDDY_ADDR
        (min 8192 (three_pages_state.g_pages (buddy_id three_pages_state.g_pages (ADDR_TO_PAGE 8192))).address) (12 + 1))
        ∉ three_pages_state.free_area (12 + 1) →
      ((buddy_free three_pages_state 8192).g_pages (ADDR_TO_PAGE
        (min 8192 (three_pages_state.g_pages (buddy_id three_pages_state.g_pages (ADDR_TO_PAGE 8192))).address))).order = 12 + 1 ∧
      ((buddy_free three_pages_state 8192).g_pages (ADDR_TO_PAGE
        (min 8192 (three_pages_state.g_pages (buddy_id three_pages_state.g_pages (ADDR_TO_PAGE 8192))).address))).used = 0 ∧
      ((buddy_free three_pages_state 8192).g_pages (ADDR_TO_PAGE
        (min 8192 (three_pages_state.g_pages (buddy_id three_pages_state.g_pages (ADDR_TO_PAGE 8192))).address))).address =
        min 8192 (three_pages_state.g_pages (buddy_id three_pages_state.g_pages (ADDR_TO_PAGE 8192))).address ∧
      ∀ k x, x ∈ (buddy_free three_pages_state 8192).free_area k ↔
        ((x ∈ three_pages_state.free_area k ∧ x ≠ buddy_id three_pages_state.g_pages (ADDR_TO_PAGE 8192)) ∨
          (k = 12 + 1 ∧ x = ADDR_TO_PAGE
            (min 8192 (three_pages_state.g_pages (buddy_id three_pages_state.g_pages (ADDR_TO_PAGE 8192))).address)))) :=
  merge_correct
    (Reach.alloc_ok 4096 8192
      (Reach.alloc_ok 4096 4096
        (Reach.alloc_ok 4096 0 (Reach.init zero_state) (by decide)) (by decide)) (by decide))
    8192 (by decide) 12 (by decide) (by decide) (by decide)

/-! ## C11: the capacity boundary -/

/-- When the block at page 0 is used and has order `MAX_ORDER`, no free list
has a member. -/
theorem all_lists_empty {s : State} (w : Wf s) (hu : (s.g_pages 0).used = 1)
    (ho : (s.g_pages 0).order = MAX_ORDER) (k : Nat) : s.free_area k = [] := by
  rw [List.eq_nil_iff_forall_not_mem]
  intro y hy
  obtain ⟨yN, yu, _⟩ := w.mem k y hy
  have h0 : (0 : Nat) < n_pages := by decide
  have hne : y ≠ 0 := by intro e; rw [e] at yu; omega
  have := w.disj 0 y h0 yN (Or.inr hu) (Or.inl ⟨k, hy⟩) (by omega)
  rw [blk_pages_eq ho, n_pages_eq] at *
  have : 2 ^ (MAX_ORDER - MIN_ORDER) = 256 := by decide
  omega

/-- C11. After `buddy_init` the first `buddy_alloc(2^MAX_ORDER)` returns the
arena base; a second `buddy_alloc(2^MAX_ORDER)` fails, and so does every
`buddy_alloc(size)` with `size ≥ 1` made after the first call. -/
theorem capacity_boundary (s0 : State) (size : Int) (h1 : 1 ≤ size) :
    (buddy_alloc (buddy_init s0) ((2 ^ MAX_ORDER : Nat) : Int)).2 = some 0 ∧
    (buddy_alloc (buddy_alloc (buddy_init s0) ((2 ^ MAX_ORDER : Nat) : Int)).1
      ((2 ^ MAX_ORDER : Nat) : Int)).2 = none ∧
    (buddy_alloc (buddy_alloc (buddy_init s0) ((2 ^ MAX_ORDER : Nat) : Int)).1 size).2
      = none := by
  have _ := h1
  have ht : target_order ((2 ^ MAX_ORDER : Nat) : Int) = MAX_ORDER := by decide
  have i1 : (buddy_init s0).free_area MAX_ORDER = [0] := by rw [init_free_area, if_pos rfl]
  rcases alloc_cases (init_inv s0) ((2 ^ MAX_ORDER : Nat) : Int) with
    ⟨c, _⟩ | ⟨_, i, h, rest, j1, j2, _, hfa, _, e, iv, eu, eo⟩
  · exfalso
    rcases c with c | c
    · exact absurd c (by decide)
    · have := c MAX_ORDER (by rw [ht]) (le_refl _)
      rw [i1] at this
      exact absurd this (by simp)
  · rw [ht] at j1 eo
    have hi : i = MAX_ORDER := by omega
    rw [hi, i1] at hfa
    have hh : h = 0 := by
      have := (List.cons.inj hfa).1
      omega
    rw [hh] at e eu eo
    have hempty := all_lists_empty iv.wf eu eo
    have hfail : ∀ sz : Int,
        (buddy_alloc (buddy_alloc (buddy_init s0) ((2 ^ MAX_ORDER : Nat) : Int)).1 sz).2
          = none := by
      intro sz
      rcases alloc_cases iv sz with ⟨_, e'⟩ | ⟨_, i', h', rest', _, _, _, hfa', _⟩
      · rw [e']
      · rw [hempty i'] at hfa'
        exact absurd hfa' (by simp)
    refine ⟨?_, hfail _, hfail _⟩
    rw [e]; simp

theorem capacity_boundary_witness :
    (buddy_alloc (buddy_init zero_state) ((2 ^ MAX_ORDER : Nat) : Int)).2 = some 0 ∧
    (buddy_alloc (buddy_alloc (buddy_init zero_state) ((2 ^ MAX_ORDER : Nat) : Int)).1
      ((2 ^ MAX_ORDER : Nat) : Int)).2 = none ∧
    (buddy_alloc (buddy_alloc (buddy_init zero_state) ((2 ^ MAX_ORDER : Nat) : Int)).1 1).2
      = none :=
  capacity_boundary zero_state 1 (by decide)

/-! ## C12: the initial state -/

/-- C12. After `buddy_init` every free list of an order below `MAX_ORDER` is
empty, `free_area[MAX_ORDER]` holds exactly page 0, and every descriptor
`i < 256` has `id = i`, `address = i * 2^MIN_ORDER` (offset from the arena
base), `order = MAX_ORDER` and `used = 0`. -/
theorem init_state (s0 : State) (k : Nat) (hk1 : MIN_ORDER ≤ k) (hk2 : k < MAX_ORDER)
    (i : Nat) (hi : i < n_pages) :
    (buddy_init s0).free_area k = [] ∧
    (buddy_init s0).free_area MAX_ORDER = [0] ∧
    ((buddy_init s0).g_pages i).id = i ∧
    ((buddy_init s0).g_pages i).address = i * 2 ^ MIN_ORDER ∧
    ((buddy_init s0).g_pages i).order = MAX_ORDER ∧
    ((buddy_init s0).g_pages i).used = 0 := by
  have _ := hk1
  refine ⟨?_, ?_, ?_, ?_, init_order s0 hi, init_used s0 hi⟩
  · rw [init_free_area, if_neg (by omega)]
  · rw [init_free_area, if_pos rfl]
  · rw [init_page s0 hi]
  · rw [init_page s0 hi]; rfl

theorem init_state_witness :
    (buddy_init zero_state).free_area 15 = [] ∧
    (buddy_init zero_state).free_area MAX_ORDER = [0] ∧
    ((buddy_init zero_state).g_pages 7).id = 7 ∧
    ((buddy_init zero_state).g_pages 7).address = 7 * 2 ^ MIN_ORDER ∧
    ((buddy_init zero_state).g_pages 7).order = MAX_ORDER ∧
    ((buddy_init zero_state).g_pages 7).used = 0 :=
  init_state zero_state 15 (by decide) (by decide) 7 (by decide)

/-! ## C13: `buddy_dump` -/

theorem dump_count_eq (l : List Nat) (cnt : Nat) : dump_count l cnt = cnt + l.length := by
  induction l generalizing cnt with
  | nil => rfl
  | cons p rest ih =>
    unfold dump_count
    rw [ih, List.length_cons]
    omega

theorem dump_loop_eq : ∀ (fuel o : Nat) (s : State) (out : List (Nat × Nat)),
    o + fuel = MAX_ORDER + 1 →
    dump_loop fuel o s out =
      (s, out ++ (List.range fuel).map fun j =>
        ((s.free_area (o + j)).length, 2 ^ (o + j) / 1024)) := by
  intro fuel
  induction fuel with
  | zero =>
    intro o s out _
    simp [dump_loop]
  | succ n ih =>
    intro o s out ho
    unfold dump_loop
    rw [if_pos (by omega), ih (o + 1) s _ (by omega), dump_count_eq, Nat.zero_add,
      Nat.one_shiftLeft, List.range_succ_eq_map, List.map_cons, List.map_map,
      List.append_assoc]
    congr 2
    simp only [List.singleton_append, Nat.add_zero, List.cons.injEq, true_and]
    apply List.map_congr_left
    intro j _
    simp only [Function.comp]
    rw [show o + 1 + j = o + (j + 1) by omega]

/-- C13. In every state `buddy_dump` reports, for each order `o` from
`MIN_ORDER` to `MAX_ORDER` in ascending order, the number of entries of the
order-`o` free list and `2^o / 1024`, and leaves the state as it is. -/
theorem dump_report (s : State) :
    (buddy_dump_run s).1 = s ∧
    (buddy_dump_run s).2 =
      (List.range (MAX_ORDER + 1 - MIN_ORDER)).map (fun j =>
        ((s.free_area (MIN_ORDER + j)).length, 2 ^ (MIN_ORDER + j) / 1024)) ∧
    buddy_dump s = (buddy_dump_run s).2 := by
  have e := dump_loop_eq (MAX_ORDER + 1 - MIN_ORDER) MIN_ORDER s [] (by decide)
  unfold buddy_dump_run
  rw [e]
  refine ⟨rfl, by simp, ?_⟩
  unfold buddy_dump
  simp only [List.nil_append]
  apply List.map_congr_left
  intro j _
  rw [Nat.one_shiftLeft]

/-! ## C16: buddy pairing -/

set_option maxRecDepth 100000 in
theorem buddy_pairing_aux : ∀ j, j < 8 → ∀ p, p < 256 → 2 ^ j ∣ p →
    (2 ^ (MIN_ORDER + j) ∣ BUDDY_ADDR (p * 4096) (MIN_ORDER + j) ∧
     BUDDY_ADDR (p * 4096) (MIN_ORDER + j) < 2 ^ MAX_ORDER ∧
     (BUDDY_ADDR (p * 4096) (MIN_ORDER + j) = p * 4096 + 2 ^ (MIN_ORDER + j) ∨
       p * 4096 = BUDDY_ADDR (p * 4096) (MIN_ORDER + j) + 2 ^ (MIN_ORDER + j)) ∧
     BUDDY_ADDR (BUDDY_ADDR (p * 4096) (MIN_ORDER + j)) (MIN_ORDER + j) = p * 4096 ∧
     2 ^ (MIN_ORDER + j + 1) ∣ min (p * 4096) (BUDDY_ADDR (p * 4096) (MIN_ORDER + j))) := by
  decide

/-- C16. For an order `o` with `MIN_ORDER ≤ o < MAX_ORDER` and an arena offset
`a < 2^MAX_ORDER` that is a multiple of `2^o`, `BUDDY_ADDR(a, o)` is a multiple
of `2^o` below `2^MAX_ORDER`, differs from `a` by exactly `2^o`, has `a` as
its own buddy, and the lower of the two is a multiple of `2^(o+1)`. -/
theorem buddy_pairing (o a : Nat) (ho1 : MIN_ORDER ≤ o) (ho2 : o < MAX_ORDER)
    (hd : 2 ^ o ∣ a) (ha : a < 2 ^ MAX_ORDER) :
    2 ^ o ∣ BUDDY_ADDR a o ∧ BUDDY_ADDR a o < 2 ^ MAX_ORDER ∧
    (BUDDY_ADDR a o = a + 2 ^ o ∨ a = BUDDY_ADDR a o + 2 ^ o) ∧
    BUDDY_ADDR (BUDDY_ADDR a o) o = a ∧
    2 ^ (o + 1) ∣ min a (BUDDY_ADDR a o) := by
  obtain ⟨j, rfl⟩ := Nat.exists_eq_add_of_le ho1
  have hj : j < 8 := by unfold MIN_ORDER MAX_ORDER at ho2; omega
  obtain ⟨q, hq⟩ := hd
  have hp : a = (2 ^ j * q) * 4096 := by
    rw [hq, pow_add]
    have : (2 : Nat) ^ MIN_ORDER = 4096 := by decide
    rw [this]; ring
  have hlt : 2 ^ j * q < 256 := by
    have h20 : 2 ^ MAX_ORDER = 1048576 := by decide
    rw [h20, hp] at ha
    omega
  rw [hp]
  exact buddy_pairing_aux j hj (2 ^ j * q) hlt (Dvd.intro q rfl)

theorem buddy_pairing_witness :
    2 ^ 13 ∣ BUDDY_ADDR 8192 13 ∧ BUDDY_ADDR 8192 13 < 2 ^ MAX_ORDER ∧
    (BUDDY_ADDR 8192 13 = 8192 + 2 ^ 13 ∨ 8192 = BUDDY_ADDR 8192 13 + 2 ^ 13) ∧
    BUDDY_ADDR (BUDDY_ADDR 8192 13) 13 = 8192 ∧
    2 ^ (13 + 1) ∣ min 8192 (BUDDY_ADDR 8192 13) :=
  buddy_pairing 13 8192 (by decide) (by decide) (by decide) (by decide)

/-! ## C17: a failing `buddy_alloc` changes nothing -/

theorem split_step_nonempty (s : State) (i : Nat) (h : s.free_area i ≠ []) :
    (split_step s i).free_area (i - 1) ≠ [] := by
  unfold split_step
  cases hfa : s.free_area i with
  | nil => exact absurd hfa h
  | cons tmp rest =>
    simp only []
    split
    · simp [list_add, set_list]
    · simp [list_move, list_add, set_list]

theorem split_loop_nonempty : ∀ (fuel : Nat) (s : State) (i o : Nat),
    s.free_area i ≠ [] →
    (split_loop fuel s i o).1.free_area (split_loop fuel s i o).2 ≠ [] := by
  intro fuel
  induction fuel with
  | zero => intro s i o h; exact h
  | succ n ih =>
    intro s i o h
    unfold split_loop
    by_cases e : i = o
    · rw [if_neg (by simpa using e)]; exact h
    · rw [if_pos e]
      exact ih _ _ _ (split_step_nonempty s i h)

theorem take_first_some (s : State) (i : Nat) (h : s.free_area i ≠ []) :
    (take_first s i).2 ≠ none := by
  unfold take_first
  cases hfa : s.free_area i with
  | nil => exact absurd hfa h
  | cons tmp rest => simp

/-- C17. In every state and for every size, a `buddy_alloc` that returns
`NULL` leaves the descriptor table and every free list as they were. -/
theorem alloc_failure_atomic (s : State) (size : Int)
    (h : (buddy_alloc s size).2 = none) : (buddy_alloc s size).1 = s := by
  unfold buddy_alloc at h ⊢
  by_cases c1 : size > ((1 <<< MAX_ORDER : Nat) : Int)
  · rw [if_pos c1]
  · rw [if_neg c1] at h ⊢
    simp only [] at h ⊢
    by_cases c2 : scan_loop s.free_area (MAX_ORDER - target_order size) (target_order size)
        = MAX_ORDER ∧
        list_empty (s.free_area
          (scan_loop s.free_area (MAX_ORDER - target_order size) (target_order size))) = true
    · rw [if_pos c2]
    · rw [if_neg c2] at h
      exfalso
      obtain ⟨_, o2, _, _⟩ := target_order_spec size
      obtain ⟨_, _, _, s4⟩ :=
        scan_loop_spec s.free_area (MAX_ORDER - target_order size) (target_order size)
          (by omega)
      have hne : s.free_area
          (scan_loop s.free_area (MAX_ORDER - target_order size) (target_order size)) ≠ [] := by
        intro hemp
        by_cases c3 : scan_loop s.free_area (MAX_ORDER - target_order size) (target_order size)
            < MAX_ORDER
        · exact s4 c3 hemp
        · exact c2 ⟨by omega, (list_empty_iff _).2 hemp⟩
      exact take_first_some _ _ (split_loop_nonempty _ _ _ _ hne) h

theorem alloc_failure_atomic_witness :
    (buddy_alloc (buddy_alloc (buddy_init zero_state) 1048576).1 4096).1 =
      (buddy_alloc (buddy_init zero_state) 1048576).1 :=
  alloc_failure_atomic (buddy_alloc (buddy_init zero_state) 1048576).1 4096 (by decide)

/-! ## C20: the lowest address is chosen -/

/-- C20. In a reachable state, for `size ≥ 1`, the address returned by a
successful `buddy_alloc(size)` is the lowest among the addresses of the heads
in the first non-empty free list of an order at or above the target order. -/
theorem lowest_address_choice {s : State} {live : List Nat} (hr : Reach s live)
    (size : Int) (h1 : 1 ≤ size) (a : Nat) (ha : (buddy_alloc s size).2 = some a) :
    ∃ i, target_order size ≤ i ∧ i ≤ MAX_ORDER ∧ s.free_area i ≠ [] ∧
      (∀ j, target_order size ≤ j → j < i → s.free_area j = []) ∧
      (∃ h, h ∈ s.free_area i ∧ (s.g_pages h).address = a) ∧
      (∀ p, p ∈ s.free_area i → a ≤ (s.g_pages p).address) := by
  have _ := h1
  have iv := reach_inv hr
  rcases alloc_cases iv size with ⟨_, e⟩ | ⟨_, i, h, rest, j1, j2, j3, hfa, hN, e, _, _, _⟩
  · rw [e] at ha; exact absurd ha (by simp)
  · rw [e] at ha
    have hah : h * PAGE_SIZE = a := by simpa using ha
    have hm : h ∈ s.free_area i := by rw [hfa]; exact List.mem_cons_self _ _
    refine ⟨i, j1, j2, by rw [hfa]; simp, j3, ⟨h, hm, ?_⟩, ?_⟩
    · rw [(iv.wf.ids h hN).2]; exact hah
    · intro p hp
      rw [(iv.wf.ids p (iv.wf.mem i p hp).1).2, ← hah]
      apply Nat.mul_le_mul_right
      have hs := iv.sorted i
      rw [hfa] at hs hp
      rcases List.mem_cons.1 hp with e' | e'
      · omega
      · exact Nat.le_of_lt ((List.pairwise_cons.1 hs).1 p e')

theorem lowest_address_choice_witness :
    ∃ i, target_order 4096 ≤ i ∧ i ≤ MAX_ORDER ∧
      (buddy_alloc (buddy_init zero_state) 5000).1.free_area i ≠ [] ∧
      (∀ j, target_order 4096 ≤ j → j < i →
        (buddy_alloc (buddy_init zero_state) 5000).1.free_area j = []) ∧
      (∃ h, h ∈ (buddy_alloc (buddy_init zero_state) 5000).1.free_area i ∧
        ((buddy_alloc (buddy_init zero_state) 5000).1.g_pages h).address = 8192) ∧
      (∀ p, p ∈ (buddy_alloc (buddy_init zero_state) 5000).1.free_area i →
        8192 ≤ ((buddy_alloc (buddy_init zero_state) 5000).1.g_pages p).address) :=
  lowest_address_choice (Reach.alloc_ok 5000 0 (Reach.init zero_state) (by decide)) 4096
    (by decide) 8192 (by decide)

/-! ## C14: where the split halves go -/

/-- Two strictly ascending lists with the same members are equal. -/
theorem sorted_ext {l1 l2 : List Nat} (h1 : l1.Pairwise (· < ·)) (h2 : l2.Pairwise (· < ·))
    (h : ∀ x, x ∈ l1 ↔ x ∈ l2) : l1 = l2 := by
  have n1 : l1.Nodup := h1.imp (fun h => Nat.ne_of_lt h)
  have n2 : l2.Nodup := h2.imp (fun h => Nat.ne_of_lt h)
  exact List.eq_of_perm_of_sorted ((List.perm_ext_iff_of_nodup n1 n2).2 h) h1 h2

/-- After one iteration of the splitting loop the list the block came from
has lost its first member and nothing else. -/
theorem split_step_rest {r : State} {h k : Nat} {rest : List Nat}
    (w : Wf (adj r h (k + 1))) (so : Sorted r) (hk1 : MIN_ORDER ≤ k)
    (hfa : r.free_area (k + 1) = h :: rest) (hemp : r.free_area k = []) :
    (split_step r (k + 1)).free_area (k + 1) = rest := by
  obtain ⟨sp, so', _, _, _⟩ := split_step_split w so hk1 hfa hemp
  have hs := so (k + 1)
  rw [hfa] at hs
  have hS := pow_pos2 (k - MIN_ORDER)
  apply sorted_ext (so' (k + 1)) (List.pairwise_cons.1 hs).2
  intro x
  by_cases x1 : x = h
  · subst x1
    constructor
    · intro hx
      have : k + 1 = k := (sp.mem_h' (k + 1)).1 hx
      omega
    · intro hx
      have := (List.pairwise_cons.1 hs).1 x hx
      omega
  · by_cases x2 : x = h + 2 ^ (k - MIN_ORDER)
    · subst x2
      constructor
      · intro hx
        have : k + 1 = k := (sp.mem_b' (k + 1)).1 hx
        omega
      · intro hx
        exact absurd (show h + 2 ^ (k - MIN_ORDER) ∈ r.free_area (k + 1) by
          rw [hfa]; exact List.mem_cons_of_mem _ hx) (sp.mem_b (k + 1))
    · have hx : x ∈ (split_step r (k + 1)).free_area (k + 1) ↔ x ∈ r.free_area (k + 1) :=
        sp.mem_other (k + 1) x x1 x2
      rw [hx, hfa, List.mem_cons]
      tauto

theorem split_loop_same (fuel : Nat) (s : State) (o : Nat) :
    split_loop fuel s o o = (s, o) := by
  cases fuel with
  | zero => rfl
  | succ n => unfold split_loop; rw [if_neg (by simp)]

/-- The free lists after the splitting loop: the list the block was found in
has lost its head, every list passed on the way down holds the upper half
left there, the list at the target order holds the block and its buddy. -/
theorem split_loop_lists (o : Nat) (ho : MIN_ORDER ≤ o) : ∀ (fuel : Nat) (r : State)
    (i h : Nat) (rest : List Nat),
    Wf (adj r h i) → Sorted r → NoBuddyExcept r h → r.free_area i = h :: rest →
    (∀ j, o ≤ j → j < i → r.free_area j = []) → o ≤ i → i ≤ fuel + o →
    (∀ j, (j < o ∨ i < j) → (split_loop fuel r i o).1.free_area j = r.free_area j) ∧
    (o < i →
      (split_loop fuel r i o).1.free_area i = rest ∧
      (split_loop fuel r i o).1.free_area o = [h, h + 2 ^ (o - MIN_ORDER)] ∧
      ∀ j, o < j → j < i →
        (split_loop fuel r i o).1.free_area j = [h + 2 ^ (j - MIN_ORDER)]) := by
  intro fuel
  induction fuel with
  | zero =>
    intro r i h rest _ _ _ _ _ h1 h2
    have e : i = o := by omega
    subst e
    exact ⟨fun _ _ => rfl, fun c => absurd c (lt_irrefl _)⟩
  | succ n ih =>
    intro r i h rest w so nb hfa hemp h1 h2
    by_cases e : i = o
    · subst e
      rw [split_loop_same]
      exact ⟨fun _ _ => rfl, fun c => absurd c (lt_irrefl _)⟩
    · unfold split_loop
      rw [if_pos e]
      obtain ⟨k, rfl⟩ : ∃ k, i = k + 1 := ⟨i - 1, by omega⟩
      have hk1 : MIN_ORDER ≤ k := by omega
      have hek := hemp k (by omega) (by omega)
      obtain ⟨sp, so', f1, f2, _⟩ := split_step_split w so hk1 hfa hek
      have f3 := split_step_rest w so hk1 hfa hek
      have w' := sp.fwd w
      have nb' : NoBuddyExcept (split_step r (k + 1)) h := sp.nb_fwd nb
      simp only [Nat.add_sub_cancel]
      obtain ⟨A', B'⟩ :=
        ih (split_step r (k + 1)) k h _ w' so' nb' f1
          (fun j j1 j2 => by rw [f2 j (by omega) (by omega)]; exact hemp j j1 (by omega))
          (by omega) (by omega)
      refine ⟨?_, fun _ => ⟨?_, ?_, ?_⟩⟩
      · intro j hj
        rw [A' j (by omega), f2 j (by omega) (by omega)]
      · rw [A' (k + 1) (by omega), f3]
      · by_cases c : o = k
        · subst c
          rw [split_loop_same]
          exact f1
        · exact (B' (by omega)).2.1
      · intro j j1 j2
        by_cases c : j = k
        · subst c
          exact (B' j1).1
        · exact (B' (by omega)).2.2 j j1 (by omega)

theorem target_order_big (size : Int) (h : size > ((2 ^ MAX_ORDER : Nat) : Int)) :
    target_order size = MAX_ORDER := by
  revert h
  unfold target_order
  simp only [order_loop, MAX_ORDER, MIN_ORDER]
  norm_num
  intro h
  split_ifs <;> omega

theorem take_first_fa {r : State} {h o : Nat} {rest : List Nat}
    (hfa : r.free_area o = h :: rest) :
    (take_first r o).1.free_area = list_del_init h r.free_area := by
  unfold take_first
  rw [hfa]

/-- C14. In a reachable state let `o` be the target order of `size ≥ 1`, let
`i > o` be the order of the first non-empty free list at or above `o`, and let
`A` be the offset of its head. After `buddy_alloc(size)` the returned offset is
`A`, list `i` has lost exactly its head, each list `j` with `o ≤ j < i` holds
exactly the descriptor at offset `A + 2^j`, of order `j` and not used, and all
other free lists are as before. -/
theorem split_placement {s : State} {live : List Nat} (hr : Reach s live) (size : Int)
    (h1 : 1 ≤ size) (i h : Nat) (rest : List Nat)
    (hi1 : target_order size < i) (hi2 : i ≤ MAX_ORDER)
    (hemp : ∀ j, target_order size ≤ j → j < i → s.free_area j = [])
    (hfa : s.free_area i = h :: rest) :
    (buddy_alloc s size).2 = some (s.g_pages h).address ∧
    (buddy_alloc s size).1.free_area i = rest ∧
    (∀ j, target_order size ≤ j → j < i →
      (buddy_alloc s size).1.free_area j = [ADDR_TO_PAGE ((s.g_pages h).address + 2 ^ j)] ∧
      ((buddy_alloc s size).1.g_pages
        (ADDR_TO_PAGE ((s.g_pages h).address + 2 ^ j))).address = (s.g_pages h).address + 2 ^ j ∧
      ((buddy_alloc s size).1.g_pages
        (ADDR_TO_PAGE ((s.g_pages h).address + 2 ^ j))).order = j ∧
      ((buddy_alloc s size).1.g_pages
        (ADDR_TO_PAGE ((s.g_pages h).address + 2 ^ j))).used = 0) ∧
    (∀ j, (j < target_order size ∨ i < j) →
      (buddy_alloc s size).1.free_area j = s.free_area j) := by
  have _ := h1
  have iv := reach_inv hr
  obtain ⟨o1, o2, _, _⟩ := target_order_spec size
  have hm : h ∈ s.free_area i := by rw [hfa]; exact List.mem_cons_self _ _
  obtain ⟨hN, _, hord⟩ := iv.wf.mem i h hm
  have haddr := (iv.wf.ids h hN).2
  have hsz : ¬ size > ((1 <<< MAX_ORDER : Nat) : Int) := by
    intro c
    have hsh : (1 <<< MAX_ORDER : Nat) = 2 ^ MAX_ORDER := by decide
    rw [hsh] at c
    have := target_order_big size c
    omega
  -- the scan stops at `i`
  obtain ⟨s1, s2, s3, s4⟩ :=
    scan_loop_spec s.free_area (MAX_ORDER - target_order size) (target_order size) (by omega)
  have hscan : scan_loop s.free_area (MAX_ORDER - target_order size) (target_order size) = i := by
    rcases Nat.lt_trichotomy
      (scan_loop s.free_area (MAX_ORDER - target_order size) (target_order size)) i with c | c | c
    · exact absurd (hemp _ s1 c) (s4 (by omega))
    · exact c
    · have := s3 i (by omega) c
      rw [hfa] at this
      exact absurd this (by simp)
  have hb : buddy_alloc s size =
      take_first (split_loop (MAX_ORDER - MIN_ORDER) s i (target_order size)).1
        (split_loop (MAX_ORDER - MIN_ORDER) s i (target_order size)).2 := by
    unfold buddy_alloc
    rw [if_neg hsz]
    simp only [hscan]
    rw [if_neg (by rw [hfa]; simp [list_empty])]
  -- the invariant of the result
  have iv' : Wf (buddy_alloc s size).1 := by
    rcases alloc_cases iv size with ⟨_, e⟩ | ⟨_, _, _, _, _, _, _, _, _, _, iv', _, _⟩
    · exfalso
      rw [hb] at e
      have w0 : Wf (adj s h i) := by rw [← hord, adj_self]; exact iv.wf
      obtain ⟨r1, r2, r3, _, ⟨rest', r5⟩, _⟩ :=
        split_loop_inv (target_order size) o1 (MAX_ORDER - MIN_ORDER) s i h rest w0 iv.sorted
          (iv.nobuddy.except h) hfa hemp (by omega) (by unfold MAX_ORDER MIN_ORDER at *; omega)
      rw [r1] at e
      have := (take_first_flip r2 r3 r5).1
      rw [e] at this
      exact absurd this (by simp)
    · exact iv'.wf
  have w0 : Wf (adj s h i) := by rw [← hord, adj_self]; exact iv.wf
  obtain ⟨r1, r2, r3, _, ⟨rest', r5⟩, _⟩ :=
    split_loop_inv (target_order size) o1 (MAX_ORDER - MIN_ORDER) s i h rest w0 iv.sorted
      (iv.nobuddy.except h) hfa hemp (by omega) (by unfold MAX_ORDER MIN_ORDER at *; omega)
  obtain ⟨l1, l2⟩ :=
    split_loop_lists (target_order size) o1 (MAX_ORDER - MIN_ORDER) s i h rest w0 iv.sorted
      (iv.nobuddy.except h) hfa hemp (by omega) (by unfold MAX_ORDER MIN_ORDER at *; omega)
  obtain ⟨l3, l4, l5⟩ := l2 hi1
  have hfin : (buddy_alloc s size).1.free_area =
      list_del_init h (split_loop (MAX_ORDER - MIN_ORDER) s i (target_order size)).1.free_area := by
    rw [hb, r1]
    exact take_first_fa r5
  have hres : (buddy_alloc s size).2 = some (h * PAGE_SIZE) := by
    rw [hb, r1]
    exact (take_first_flip r2 r3 r5).1
  have hnr : h ∉ rest := by
    have := iv.sorted.nodup i
    rw [hfa] at this
    exact (List.nodup_cons.1 this).1
  have hpage : ∀ j, MIN_ORDER ≤ j →
      ADDR_TO_PAGE (h * PAGE_SIZE + 2 ^ j) = h + 2 ^ (j - MIN_ORDER) := by
    intro j hj
    rw [pow_order_bytes hj, ← Nat.add_mul, addr_to_page_mul]
  have hlist : ∀ j, target_order size ≤ j → j < i →
      (buddy_alloc s size).1.free_area j = [h + 2 ^ (j - MIN_ORDER)] := by
    intro j j1 j2
    have hS := pow_pos2 (j - MIN_ORDER)
    rw [hfin]
    unfold list_del_init
    by_cases c : j = target_order size
    · rw [c, l4, List.erase_cons_head]
    · rw [l5 j (by omega) j2]
      exact List.erase_of_not_mem (by simp)
  rw [haddr]
  refine ⟨hres, ?_, ?_, ?_⟩
  · rw [hfin]
    unfold list_del_init
    rw [l3]
    exact List.erase_of_not_mem hnr
  · intro j j1 j2
    have hj : MIN_ORDER ≤ j := by omega
    rw [hpage j hj]
    have hl := hlist j j1 j2
    have hmem : h + 2 ^ (j - MIN_ORDER) ∈ (buddy_alloc s size).1.free_area j := by
      rw [hl]; exact List.mem_singleton_self _
    obtain ⟨bN, bu, bo⟩ := iv'.mem j _ hmem
    refine ⟨hl, ?_, bo, bu⟩
    rw [(iv'.ids _ bN).2, pow_order_bytes hj, Nat.add_mul]
  · intro j hj
    rw [hfin]
    unfold list_del_init
    rw [l1 j hj]
    apply List.erase_of_not_mem
    intro c
    have := (iv.wf.mem j h c).2.2
    omega

theorem split_placement_witness :
    (buddy_alloc (buddy_alloc (buddy_init zero_state) 70000).1 5000).2 =
      some ((buddy_alloc (buddy_init zero_state) 70000).1.g_pages 32).address ∧
    (buddy_alloc (buddy_alloc (buddy_init zero_state) 70000).1 5000).1.free_area 17 = [] ∧
    (∀ j, target_order 5000 ≤ j → j < 17 →
      (buddy_alloc (buddy_alloc (buddy_init zero_state) 70000).1 5000).1.free_area j =
        [ADDR_TO_PAGE (((buddy_alloc (buddy_init zero_state) 70000).1.g_pages 32).address
          + 2 ^ j)] ∧
      ((buddy_alloc (buddy_alloc (buddy_init zero_state) 70000).1 5000).1.g_pages
        (ADDR_TO_PAGE (((buddy_alloc (buddy_init zero_state) 70000).1.g_pages 32).address
          + 2 ^ j))).address =
        ((buddy_alloc (buddy_init zero_state) 70000).1.g_pages 32).address + 2 ^ j ∧
      ((buddy_alloc (buddy_alloc (buddy_init zero_state) 70000).1 5000).1.g_pages
        (ADDR_TO_PAGE (((buddy_alloc (buddy_init zero_state) 70000).1.g_pages 32).address
          + 2 ^ j))).order = j ∧
      ((buddy_alloc (buddy_alloc (buddy_init zero_state) 70000).1 5000).1.g_pages
        (ADDR_TO_PAGE (((buddy_alloc (buddy_init zero_state) 70000).1.g_pages 32).address
          + 2 ^ j))).used = 0) ∧
    (∀ j, (j < target_order 5000 ∨ 17 < j) →
      (buddy_alloc (buddy_alloc (buddy_init zero_state) 70000).1 5000).1.free_area j =
        (buddy_alloc (buddy_init zero_state) 70000).1.free_area j) :=
  split_placement (Reach.alloc_ok 70000 0 (Reach.init zero_state) (by decide)) 5000
    (by decide) 17 32 [] (by decide) (by decide) (by decide) (by decide)

/-! ## C15 and C18: the iterations of the coalescing loop -/

/-- The block `tmp` of the coalescing loop is a block head in a state that
satisfies the invariant; its buddy descriptor passed the merge test. -/
theorem merge_trace_inv : ∀ (fuel : Nat) (s : State) (tmp : Nat),
    Wf s → Sorted s → tmp < n_pages → tmp ∈ s.free_area (s.g_pages tmp).order →
    ∀ e, e ∈ merge_trace fuel s tmp (buddy_id s.g_pages tmp) →
      Wf e.1 ∧ Sorted e.1 ∧ e.2.1 < n_pages ∧ e.2.1 ∈ e.1.free_area (e.1.g_pages e.2.1).order ∧
      e.2.2 = buddy_id e.1.g_pages e.2.1 ∧ merge_cond e.1 e.2.1 e.2.2 := by
  intro fuel
  induction fuel with
  | zero => intro s tmp _ _ _ _ e he; exact absurd he (List.not_mem_nil _)
  | succ n ih =>
    intro s tmp w so hN mt e he
    unfold merge_trace at he
    by_cases hc : merge_cond s tmp (buddy_id s.g_pages tmp)
    · rw [if_pos hc] at he
      rcases List.mem_cons.1 he with e1 | e1
      · rw [e1]
        exact ⟨w, so, hN, mt, rfl, hc⟩
      · obtain ⟨c1, c2, c3⟩ := hc
        obtain ⟨h, b, _, hhN, hd, hb, mh, mb, eq⟩ :=
          merge_step_eq w hN rfl c1 mt c2 c3.symm
        obtain ⟨sp, so'⟩ := merged_split w so (w.ord tmp hN).1 c1 hhN hd hb mh mb
        simp only [eq] at e1
        have oh : ((merged s h b (s.g_pages tmp).order).g_pages h).order
            = (s.g_pages tmp).order + 1 := sp.ord_h
        exact ih _ h (sp.bwd w) so' hhN (by rw [oh]; exact (sp.mem_h _).2 rfl) e e1
    · rw [if_neg hc] at he
      exact absurd he (List.not_mem_nil _)

/-- The iterations of the coalescing loop of `buddy_free` on an allocated
address of a reachable state. -/
theorem free_steps_inv {s : State} {live : List Nat} (hr : Reach s live) {a : Nat}
    (ha : a ∈ live) : ∀ e, e ∈ free_steps s a →
      Wf e.1 ∧ Sorted e.1 ∧ e.2.1 < n_pages ∧ e.2.1 ∈ e.1.free_area (e.1.g_pages e.2.1).order ∧
      e.2.2 = buddy_id e.1.g_pages e.2.1 ∧ merge_cond e.1 e.2.1 e.2.2 := by
  have iv := reach_inv hr
  obtain ⟨i, hN, hu, rfl⟩ := (iv.live.2 a).1 ha
  unfold free_steps
  rw [addr_to_page_mul]
  obtain ⟨fl, so'⟩ := freed_flip iv.wf iv.sorted hN hu
  have mt : i ∈ (freed s i).free_area ((freed s i).g_pages i).order := by
    rw [fl.same_order]; exact (fl.mem_h' _).2 rfl
  exact merge_trace_inv MAX_ORDER (freed s i) i (fl.flip_fwd iv.wf) so' hN mt

/-- As C15 states it, the claim fails: in `buddy_free(8192)` after three
`buddy_alloc(4096)`, page 3 does not survive the merge with page 2 and its
order is set to 20, a value inside `[MIN_ORDER, MAX_ORDER]`. -/
theorem merge_sentinel_in_range :
    ¬ (∀ e, e ∈ free_steps three_pages_state 8192 →
        step_loser_order e < MIN_ORDER ∨ MAX_ORDER < step_loser_order e) := by
  intro h
  have hm : ∀ x, x ∈ (free_steps three_pages_state 8192).map step_loser_order →
      x < MIN_ORDER ∨ MAX_ORDER < x := by
    intro x hx
    obtain ⟨e, he, rfl⟩ := List.mem_map.1 hx
    exact h e he
  have hl : (free_steps three_pages_state 8192).map step_loser_order = [20] := by decide
  rw [hl] at hm
  have := hm 20 (List.mem_singleton_self _)
  revert this
  decide

/-- C15, amended. In every iteration of the coalescing loop of `buddy_free`,
the descriptor that does not survive the merge was a member of the free list
of the order of `tmp`, is a member of no free list after the iteration, and
its order is set to `MAX_ORDER`. -/
theorem merge_sentinel {s : State} {live : List Nat} (hr : Reach s live) (a : Nat)
    (ha : a ∈ live) (e : State × Nat × Nat) (he : e ∈ free_steps s a) :
    step_loser e ∈ e.1.free_area (e.1.g_pages e.2.1).order ∧
    (∀ j, step_loser e ∉ (merge_step e.1 e.2.1 e.2.2).1.free_area j) ∧
    step_loser_order e = MAX_ORDER := by
  obtain ⟨w, so, hN, mt, eb, c1, c2, c3⟩ := free_steps_inv hr ha e he
  obtain ⟨st, tmp, bid⟩ := e
  simp only at w so hN mt eb c1 c2 c3 ⊢
  subst eb
  obtain ⟨h, b, hAh, hhN, hd, hb, mh, mb, eq⟩ := merge_step_eq w hN rfl c1 mt c2 c3.symm
  obtain ⟨sp, _⟩ := merged_split w so (w.ord tmp hN).1 c1 hhN hd hb mh mb
  have hS := pow_pos2 ((st.g_pages tmp).order - MIN_ORDER)
  have hl : step_loser (st, tmp, buddy_id st.g_pages tmp) = b := by
    unfold step_loser
    simp only [eq]
    rcases hAh with ⟨e1, e2⟩ | ⟨e1, e2⟩
    · rw [if_pos e1.symm, e2]
    · rw [if_neg (by omega), e1]
  unfold step_loser_order
  rw [hl]
  simp only [eq]
  exact ⟨mb, sp.mem_b, sp.ord_b⟩

theorem merge_sentinel_witness :
    step_loser (freed three_pages_state 2, 2, 3) ∈
      (freed three_pages_state 2).free_area ((freed three_pages_state 2).g_pages 2).order ∧
    (∀ j, step_loser (freed three_pages_state 2, 2, 3) ∉
      (merge_step (freed three_pages_state 2) 2 3).1.free_area j) ∧
    step_loser_order (freed three_pages_state 2, 2, 3) = MAX_ORDER :=
  merge_sentinel
    (Reach.alloc_ok 4096 8192
      (Reach.alloc_ok 4096 4096
        (Reach.alloc_ok 4096 0 (Reach.init zero_state) (by decide)) (by decide)) (by decide))
    8192 (by decide) (freed three_pages_state 2, 2, 3) (List.mem_cons_self _ _)

/-- C18. In a reachable state every descriptor with `used = 0` and an order
`k < MAX_ORDER` is a member of the order-`k` free list and of no other list;
so in every iteration of the coalescing loop of `buddy_free`, where
`buddy.used == 0` and `buddy.order == tmp.order < MAX_ORDER`, the buddy is a
descriptor of the table and a member of the free list of that order. -/
theorem merge_test_sound {s : State} {live : List Nat} (hr : Reach s live) :
    (∀ i, i < n_pages → (s.g_pages i).used = 0 → (s.g_pages i).order < MAX_ORDER →
      i ∈ s.free_area (s.g_pages i).order ∧
      ∀ j, i ∈ s.free_area j → j = (s.g_pages i).order) ∧
    (∀ a, a ∈ live → ∀ e, e ∈ free_steps s a →
      (e.1.g_pages e.2.1).order < MAX_ORDER ∧ (e.1.g_pages e.2.2).used = 0 ∧
      (e.1.g_pages e.2.1).order = (e.1.g_pages e.2.2).order ∧
      e.2.2 < n_pages ∧ e.2.2 ∈ e.1.free_area (e.1.g_pages e.2.2).order ∧
      ∀ j, e.2.2 ∈ e.1.free_area j → j = (e.1.g_pages e.2.2).order) := by
  have iv := reach_inv hr
  constructor
  · intro i hN hu ho
    exact ⟨iv.wf.inactive i hN hu ho, fun j hj => (iv.wf.mem j i hj).2.2.symm⟩
  · intro a ha e he
    obtain ⟨w, _, hN, mt, eb, c1, c2, c3⟩ := free_steps_inv hr ha e he
    have hal := w.align _ hN (Or.inl ⟨_, mt⟩)
    have hbN : e.2.2 < n_pages := by
      rw [eb]
      unfold buddy_id
      rw [(w.ids _ hN).2]
      exact (buddy_cases (w.ord _ hN).1 c1 hN hal).1
    refine ⟨c1, c2, c3, hbN, w.inactive _ hbN c2 (by rw [← c3]; exact c1), ?_⟩
    intro j hj
    exact (w.mem j _ hj).2.2.symm

theorem merge_test_sound_witness :
    (∀ i, i < n_pages → (three_pages_state.g_pages i).used = 0 →
      (three_pages_state.g_pages i).order < MAX_ORDER →
      i ∈ three_pages_state.free_area (three_pages_state.g_pages i).order ∧
      ∀ j, i ∈ three_pages_state.free_area j → j = (three_pages_state.g_pages i).order) ∧
    (∀ a, a ∈ [8192, 4096, 0] → ∀ e, e ∈ free_steps three_pages_state a →
      (e.1.g_pages e.2.1).order < MAX_ORDER ∧ (e.1.g_pages e.2.2).used = 0 ∧
      (e.1.g_pages e.2.1).order = (e.1.g_pages e.2.2).order ∧
      e.2.2 < n_pages ∧ e.2.2 ∈ e.1.free_area (e.1.g_pages e.2.2).order ∧
      ∀ j, e.2.2 ∈ e.1.free_area j → j = (e.1.g_pages e.2.2).order) :=
  merge_test_sound
    (Reach.alloc_ok 4096 8192
      (Reach.alloc_ok 4096 4096
        (Reach.alloc_ok 4096 0 (Reach.init zero_state) (by decide)) (by decide)) (by decide))

/-! ## C19: index safety -/

theorem scan_list_idx_bound (fa : Nat → List Nat) : ∀ (fuel i : Nat) (k : Nat),
    k ∈ scan_list_idx fa fuel i → i ≤ k ∧ k < MAX_ORDER := by
  intro fuel
  induction fuel with
  | zero => intro i k hk; exact absurd hk (List.not_mem_nil _)
  | succ n ih =>
    intro i k hk
    unfold scan_list_idx at hk
    by_cases c : i < MAX_ORDER
    · rw [if_pos c] at hk
      rcases List.mem_cons.1 hk with e | e
      · omega
      · split at e
        · exact absurd e (List.not_mem_nil _)
        · have := ih (i + 1) k e
          omega
    · rw [if_neg c] at hk
      exact absurd hk (List.not_mem_nil _)

theorem split_list_idx_bound : ∀ (fuel i o : Nat) (k : Nat), o ≤ i →
    k ∈ split_list_idx fuel i o → o ≤ k ∧ k ≤ i := by
  intro fuel
  induction fuel with
  | zero => intro i o k _ hk; exact absurd hk (List.not_mem_nil _)
  | succ n ih =>
    intro i o k hio hk
    unfold split_list_idx at hk
    by_cases c : i = o
    · rw [if_neg (by simpa using c)] at hk
      exact absurd hk (List.not_mem_nil _)
    · rw [if_pos c] at hk
      simp only [List.mem_cons] at hk
      rcases hk with e | e | e | e | e
      · omega
      · omega
      · omega
      · omega
      · have := ih (i - 1) o k (by omega) e
        omega

theorem split_loop_snd : ∀ (fuel : Nat) (s : State) (i o : Nat), o ≤ i → i ≤ fuel + o →
    (split_loop fuel s i o).2 = o := by
  intro fuel
  induction fuel with
  | zero => intro s i o h1 h2; show i = o; omega
  | succ n ih =>
    intro s i o h1 h2
    unfold split_loop
    by_cases c : i = o
    · rw [if_neg (by simpa using c)]; exact c
    · rw [if_pos c]
      exact ih _ _ _ (by omega) (by omega)

/-- The descriptor written in each iteration of the splitting loop lies in the
table. -/
theorem split_page_idx_bound (o : Nat) (ho : MIN_ORDER ≤ o) : ∀ (fuel : Nat) (r : State)
    (i h : Nat) (rest : List Nat),
    Wf (adj r h i) → Sorted r → NoBuddyExcept r h → r.free_area i = h :: rest →
    (∀ j, o ≤ j → j < i → r.free_area j = []) → o ≤ i →
    ∀ p, p ∈ split_page_idx fuel r i o → p < n_pages := by
  intro fuel
  induction fuel with
  | zero => intro r i h rest _ _ _ _ _ _ p hp; exact absurd hp (List.not_mem_nil _)
  | succ n ih =>
    intro r i h rest w so nb hfa hemp h1 p hp
    unfold split_page_idx at hp
    by_cases e : i = o
    · rw [if_neg (by simpa using e)] at hp
      exact absurd hp (List.not_mem_nil _)
    · rw [if_pos e, hfa] at hp
      obtain ⟨k, rfl⟩ : ∃ k, i = k + 1 := ⟨i - 1, by omega⟩
      have hk1 : MIN_ORDER ≤ k := by omega
      obtain ⟨sp, so', f1, f2, _⟩ :=
        split_step_split w so hk1 hfa (hemp k (by omega) (by omega))
      have hm : h ∈ (adj r h (k + 1)).free_area (k + 1) := by
        show h ∈ r.free_area (k + 1)
        rw [hfa]; exact List.mem_cons_self _ _
      have hN := (w.mem _ _ hm).1
      have haddr : (r.g_pages h).address = h * PAGE_SIZE := by
        have := (w.ids h hN).2
        simpa [adj] using this
      have hb : ADDR_TO_PAGE (BUDDY_ADDR (r.g_pages h).address k) < n_pages := by
        rw [haddr, buddy_up hk1 sp.hk2 hN sp.hdvd]
        have := sp.hlt
        have := pow_pos2 (k - MIN_ORDER)
        omega
      simp only [Nat.add_sub_cancel, List.mem_cons] at hp
      rcases hp with e1 | e1 | e1
      · rw [e1]; exact hb
      · rw [e1]; exact hb
      · have nb' : NoBuddyExcept (split_step r (k + 1)) h := sp.nb_fwd nb
        exact ih (split_step r (k + 1)) k h _ (sp.fwd w) so' nb' f1
          (fun j j1 j2 => by rw [f2 j (by omega) (by omega)]; exact hemp j j1 (by omega))
          (by omega) p e1

/-- The buddy index of a free block head of an order below `MAX_ORDER` lies
in the table. -/
theorem buddy_id_lt {s : State} (w : Wf s) {tmp : Nat} (hN : tmp < n_pages)
    (mt : tmp ∈ s.free_area (s.g_pages tmp).order) (ho : (s.g_pages tmp).order < MAX_ORDER) :
    buddy_id s.g_pages tmp < n_pages := by
  unfold buddy_id
  rw [(w.ids tmp hN).2]
  exact (buddy_cases (w.ord tmp hN).1 ho hN (w.align tmp hN (Or.inl ⟨_, mt⟩))).1

theorem cond_page_idx_bound {s : State} (w : Wf s) {tmp : Nat} (hN : tmp < n_pages)
    (mt : tmp ∈ s.free_area (s.g_pages tmp).order) (p : Nat)
    (hp : p ∈ cond_page_idx s tmp (buddy_id s.g_pages tmp)) : p < n_pages := by
  unfold cond_page_idx at hp
  by_cases c : (s.g_pages tmp).order < MAX_ORDER
  · rw [if_pos c] at hp
    have hb := buddy_id_lt w hN mt c
    split at hp
    · simp only [List.mem_cons, List.mem_singleton, List.not_mem_nil, or_false, or_self] at hp
      rw [hp]; exact hb
    · rw [List.mem_singleton] at hp
      rw [hp]; exact hb
  · rw [if_neg c] at hp
    exact absurd hp (List.not_mem_nil _)

/-- The subscripts of the coalescing loop stay inside the descriptor table
and inside the orders of the free lists. -/
theorem merge_idx_bound : ∀ (fuel : Nat) (s : State) (tmp : Nat),
    Wf s → Sorted s → tmp < n_pages → tmp ∈ s.free_area (s.g_pages tmp).order →
    (∀ p, p ∈ merge_page_idx fuel s tmp (buddy_id s.g_pages tmp) → p < n_pages) ∧
    (∀ k, k ∈ merge_list_idx fuel s tmp (buddy_id s.g_pages tmp) →
      MIN_ORDER ≤ k ∧ k ≤ MAX_ORDER) := by
  intro fuel
  induction fuel with
  | zero =>
    intro s tmp w _ hN mt
    exact ⟨fun p hp => cond_page_idx_bound w hN mt p hp,
      fun k hk => absurd hk (List.not_mem_nil _)⟩
  | succ n ih =>
    intro s tmp w so hN mt
    unfold merge_page_idx merge_list_idx
    by_cases hc : merge_cond s tmp (buddy_id s.g_pages tmp)
    · rw [if_pos hc, if_pos hc]
      obtain ⟨c1, c2, c3⟩ := hc
      obtain ⟨h, b, _, hhN, hd, hb, mh, mb, eq⟩ :=
        merge_step_eq w hN rfl c1 mt c2 c3.symm
      obtain ⟨sp, so'⟩ := merged_split w so (w.ord tmp hN).1 c1 hhN hd hb mh mb
      have w' := sp.bwd w
      have oh : ((merged s h b (s.g_pages tmp).order).g_pages h).order
          = (s.g_pages tmp).order + 1 := sp.ord_h
      obtain ⟨i1, i2⟩ := ih _ h w' so' hhN (by rw [oh]; exact (sp.mem_h _).2 rfl)
      have hbid := buddy_id_lt w hN mt c1
      simp only [eq]
      constructor
      · intro p hp
        rcases List.mem_append.1 hp with e | e
        · exact cond_page_idx_bound w hN mt p e
        · simp only [List.mem_cons] at e
          rcases e with e | e | e
          · rw [e]; exact hbid
          · rw [e]; exact hbid
          · exact i1 p e
      · intro k hk
        simp only [List.mem_cons] at hk
        rcases hk with e | e | e
        · rw [e]; exact w'.ord h hhN
        · rw [e]; exact w'.ord h hhN
        · exact i2 k e
    · rw [if_neg hc, if_neg hc]
      constructor
      · intro p hp
        rw [List.append_nil] at hp
        exact cond_page_idx_bound w hN mt p hp
      · intro k hk
        exact absurd hk (List.not_mem_nil _)

/-- C19. In a reachable state, every subscript of `g_pages` evaluated by a
`buddy_alloc(size)` or by a `buddy_free(addr)` on an allocated address is
below 256, and every subscript of `free_area` lies in
`[MIN_ORDER, MAX_ORDER]`; so the buddy index 256 computed for a block of order
`MAX_ORDER` is not among the subscripts of `g_pages`. -/
theorem index_safety {s : State} {live : List Nat} (hr : Reach s live) :
    (∀ (size : Int),
      (∀ p, p ∈ alloc_page_idx s size → p < n_pages) ∧
      (∀ k, k ∈ alloc_list_idx s size → MIN_ORDER ≤ k ∧ k ≤ MAX_ORDER)) ∧
    (∀ a, a ∈ live →
      (∀ p, p ∈ free_page_idx s a → p < n_pages) ∧
      (∀ k, k ∈ free_list_idx s a → MIN_ORDER ≤ k ∧ k ≤ MAX_ORDER) ∧
      256 ∉ free_page_idx s a) := by
  have iv := reach_inv hr
  constructor
  · intro size
    obtain ⟨o1, o2, _, _⟩ := target_order_spec size
    obtain ⟨s1, s2, s3, s4⟩ :=
      scan_loop_spec s.free_area (MAX_ORDER - target_order size) (target_order size) (by omega)
    unfold alloc_page_idx alloc_list_idx
    by_cases hsz : size > ((1 <<< MAX_ORDER : Nat) : Int)
    · rw [if_pos hsz, if_pos hsz]
      exact ⟨fun p hp => absurd hp (List.not_mem_nil _),
        fun k hk => absurd hk (List.not_mem_nil _)⟩
    · rw [if_neg hsz, if_neg hsz]
      simp only []
      generalize scan_loop s.free_area (MAX_ORDER - target_order size) (target_order size)
        = i at *
      have hscan : ∀ k, k ∈ scan_list_idx s.free_area (MAX_ORDER - target_order size)
          (target_order size) ++ (if i = MAX_ORDER then [i] else []) →
          MIN_ORDER ≤ k ∧ k ≤ MAX_ORDER := by
        intro k hk
        rcases List.mem_append.1 hk with e | e
        · have := scan_list_idx_bound _ _ _ k e
          omega
        · split at e
          · rw [List.mem_singleton] at e; omega
          · exact absurd e (List.not_mem_nil _)
      constructor
      · intro p hp
        split at hp
        · exact absurd hp (List.not_mem_nil _)
        · next hcond =>
          cases hfa : s.free_area i with
          | nil =>
            exfalso
            have hi : i = MAX_ORDER := by
              by_contra hc
              exact s4 (by omega) hfa
            exact hcond ⟨hi, by rw [hfa]; rfl⟩
          | cons h rest =>
            have hm : h ∈ s.free_area i := by rw [hfa]; exact List.mem_cons_self _ _
            have hord := (iv.wf.mem i h hm).2.2
            have w0 : Wf (adj s h i) := by rw [← hord, adj_self]; exact iv.wf
            exact split_page_idx_bound (target_order size) o1 (MAX_ORDER - MIN_ORDER) s i h
              rest w0 iv.sorted (iv.nobuddy.except h) hfa s3 s1 p hp
      · intro k hk
        rcases List.mem_append.1 hk with e | e
        · exact hscan k e
        · split at e
          · exact absurd e (List.not_mem_nil _)
          · rcases List.mem_append.1 e with e | e
            · have := split_list_idx_bound _ _ _ k s1 e
              omega
            · have hsnd := split_loop_snd (MAX_ORDER - MIN_ORDER) s i (target_order size) s1
                (by unfold MAX_ORDER MIN_ORDER at *; omega)
              rw [hsnd] at e
              simp only [List.mem_cons, List.mem_singleton, List.not_mem_nil, or_false,
                or_self] at e
              omega
  · intro a ha
    obtain ⟨i, hN, hu, rfl⟩ := (iv.live.2 a).1 ha
    unfold free_page_idx free_list_idx
    rw [addr_to_page_mul]
    obtain ⟨fl, so'⟩ := freed_flip iv.wf iv.sorted hN hu
    have mt : i ∈ (freed s i).free_area ((freed s i).g_pages i).order := by
      rw [fl.same_order]; exact (fl.mem_h' _).2 rfl
    obtain ⟨b1, b2⟩ := merge_idx_bound MAX_ORDER (freed s i) i (fl.flip_fwd iv.wf) so' hN mt
    have hpages : ∀ p, p ∈ i :: merge_page_idx MAX_ORDER (freed s i) i
        (buddy_id (freed s i).g_pages i) → p < n_pages := by
      intro p hp
      rcases List.mem_cons.1 hp with e | e
      · rw [e]; exact hN
      · exact b1 p e
    refine ⟨hpages, ?_, ?_⟩
    · intro k hk
      simp only [List.mem_cons] at hk
      rcases hk with e | e | e
      · rw [e]; exact iv.wf.ord i hN
      · rw [e]; exact iv.wf.ord i hN
      · exact b2 k e
    · intro hc
      have := hpages 256 hc
      rw [n_pages_eq] at this
      omega

theorem index_safety_witness :
    (∀ (size : Int),
      (∀ p, p ∈ alloc_page_idx three_pages_state size → p < n_pages) ∧
      (∀ k, k ∈ alloc_list_idx three_pages_state size → MIN_ORDER ≤ k ∧ k ≤ MAX_ORDER)) ∧
    (∀ a, a ∈ [8192, 4096, 0] →
      (∀ p, p ∈ free_page_idx three_pages_state a → p < n_pages) ∧
      (∀ k, k ∈ free_list_idx three_pages_state a → MIN_ORDER ≤ k ∧ k ≤ MAX_ORDER) ∧
      256 ∉ free_page_idx three_pages_state a) :=
  index_safety
    (Reach.alloc_ok 4096 8192
      (Reach.alloc_ok 4096 4096
        (Reach.alloc_ok 4096 0 (Reach.init zero_state) (by decide)) (by decide)) (by decide))

/-- The buddy index that `buddy_free` computes for the block of order
`MAX_ORDER` is 256, one past the last descriptor. -/
theorem buddy_id_at_max (s0 : State) : buddy_id (buddy_init s0).g_pages 0 = n_pages := by
  unfold buddy_id
  rw [init_page s0 (by decide)]
  decide

end Buddy
